import Mathlib

/-!
Verification of the paged symbolic memory subsystem (`memory/sym_memory.py`)
of the symbolic execution engine.

The Python code manipulates z3 bit-vector expressions as data, so the
shallow embedding of the code uses a deep embedding of the (small) fragment
of z3 expressions the memory subsystem actually builds: literals,
variables, `+`, `-`, `Extract`, `Concat`, `If`, `==`, `Or`, `Not`.
Machine integers are `Nat` with explicit `% 2^w`.

External collaborators (the byte store `MemoryObj`, the solver, the global
option flag) are not part of `src/`; they are modelled from the spec, each
marked with a doc comment.  Python object identity and in-place mutation of
`Page` objects (needed for the copy-on-write protocol) are modelled with an
explicit heap of pages addressed by allocation ids.
-/

namespace SymMem

/-! ## The z3 expression fragment -/

mutual

/-- Deep embedding of the z3 bit-vector expressions built by the memory
subsystem: `BitVecVal`, `BitVec` (variable), `+`, `-`, `Extract`, `Concat`,
`If`. -/
inductive BV where
  | lit (w : Nat) (v : Nat)
  | var (name : String) (w : Nat)
  | add (a b : BV)
  | sub (a b : BV)
  | extract (hi lo : Nat) (e : BV)
  | concat (a b : BV)
  | ite (c : BoolE) (t f : BV)
deriving DecidableEq

/-- Deep embedding of the z3 boolean expressions built by the memory
subsystem: `==`, `Or`, `Not` (plus the two constants z3 simplification can
produce). -/
inductive BoolE where
  | trueE
  | falseE
  | eqE (a b : BV)
  | orE (a b : BoolE)
  | notE (c : BoolE)
deriving DecidableEq

end

/-- Bit-width of an expression (z3 `size()`). -/
def BV.width : BV → Nat
  | .lit w _ => w
  | .var _ w => w
  | .add a _ => a.width
  | .sub a _ => a.width
  | .extract hi lo _ => hi + 1 - lo
  | .concat a b => a.width + b.width
  | .ite _ t _ => t.width

mutual

/-- Value of a bit-vector expression under an assignment of the variables.
Every case reduces modulo `2^width`, so values are always canonical. -/
def evalBV (σ : String → Nat) : BV → Nat
  | .lit w v => v % 2 ^ w
  | .var n w => σ n % 2 ^ w
  | .add a b => (evalBV σ a + evalBV σ b) % 2 ^ a.width
  | .sub a b => (evalBV σ a + (2 ^ a.width - evalBV σ b % 2 ^ a.width)) % 2 ^ a.width
  | .extract hi lo e => evalBV σ e / 2 ^ lo % 2 ^ (hi + 1 - lo)
  | .concat a b => evalBV σ a * 2 ^ b.width + evalBV σ b
  | .ite c t f => (bif evalB σ c then evalBV σ t else evalBV σ f) % 2 ^ t.width

/-- Value of a boolean expression under an assignment of the variables. -/
def evalB (σ : String → Nat) : BoolE → Bool
  | .trueE => true
  | .falseE => false
  | .eqE a b => evalBV σ a == evalBV σ b
  | .orE a b => evalB σ a || evalB σ b
  | .notE c => !evalB σ c

end

/-- Constant folding step for `+`. -/
def addFold (a b : BV) : BV :=
  match a, b with
  | .lit w x, .lit _ y => .lit w ((x + y) % 2 ^ w)
  | a, b => .add a b

/-- Constant folding step for `-` (two's complement on `Nat`). -/
def subFold (a b : BV) : BV :=
  match a, b with
  | .lit w x, .lit _ y => .lit w ((x + (2 ^ w - y % 2 ^ w)) % 2 ^ w)
  | a, b => .sub a b

/-- Constant folding step for `Extract`. -/
def extractFold (hi lo : Nat) (e : BV) : BV :=
  match e with
  | .lit _ v => .lit (hi + 1 - lo) (v / 2 ^ lo % 2 ^ (hi + 1 - lo))
  | e => .extract hi lo e

/-- Constant folding step for `Concat`. -/
def concatFold (a b : BV) : BV :=
  match a, b with
  | .lit wa x, .lit wb y => .lit (wa + wb) ((x % 2 ^ wa) * 2 ^ wb + y % 2 ^ wb)
  | a, b => .concat a b

/-- Constant folding step for `If`. -/
def iteFold (c : BoolE) (t f : BV) : BV :=
  match c with
  | .trueE => t
  | .falseE => f
  | c => .ite c t f

/-- Constant folding step for `==`. -/
def eqFold (a b : BV) : BoolE :=
  match a, b with
  | .lit w x, .lit w' y => if x % 2 ^ w = y % 2 ^ w' then .trueE else .falseE
  | a, b => .eqE a b

/-- Constant folding step for `Or`. -/
def orFold (a b : BoolE) : BoolE :=
  match a, b with
  | .trueE, _ => .trueE
  | .falseE, b => b
  | a, .trueE => .trueE
  | a, .falseE => a
  | a, b => .orE a b

/-- Constant folding step for `Not`. -/
def notFold (c : BoolE) : BoolE :=
  match c with
  | .trueE => .falseE
  | .falseE => .trueE
  | c => .notE c

mutual

/-- Model of `z3.simplify` restricted to constant folding, which is the
only part of z3 simplification the memory code's control flow depends on
(`symbolic` asks whether the simplified term is a numeral). -/
def BV.zsimp : BV → BV
  | .lit w v => .lit w (v % 2 ^ w)
  | .var n w => .var n w
  | .add a b => addFold a.zsimp b.zsimp
  | .sub a b => subFold a.zsimp b.zsimp
  | .extract hi lo e => extractFold hi lo e.zsimp
  | .concat a b => concatFold a.zsimp b.zsimp
  | .ite c t f => iteFold c.zsimp t.zsimp f.zsimp

/-- Model of `z3.simplify` on boolean expressions (constant folding). -/
def BoolE.zsimp : BoolE → BoolE
  | .trueE => .trueE
  | .falseE => .falseE
  | .eqE a b => eqFold a.zsimp b.zsimp
  | .orE a b => orFold a.zsimp b.zsimp
  | .notE c => notFold c.zsimp

end

mutual

/-- Well-sortedness of a bit-vector expression (z3 refuses ill-sorted
terms: matching widths for `+`, `-`, `If`, `==`, in-range `Extract`). -/
def BV.wsb : BV → Bool
  | .lit _ _ => true
  | .var _ _ => true
  | .add a b => a.wsb && b.wsb && (a.width == b.width)
  | .sub a b => a.wsb && b.wsb && (a.width == b.width)
  | .extract hi lo e => e.wsb && (lo ≤ hi) && (hi < e.width)
  | .concat a b => a.wsb && b.wsb
  | .ite c t f => c.wsb && t.wsb && f.wsb && (t.width == f.width)

/-- Well-sortedness of a boolean expression. -/
def BoolE.wsb : BoolE → Bool
  | .trueE => true
  | .falseE => true
  | .eqE a b => a.wsb && b.wsb && (a.width == b.width)
  | .orE a b => a.wsb && b.wsb
  | .notE c => c.wsb

end

/-- Valuations are always below `2^width`. -/
theorem evalBV_lt (σ : String → Nat) : (e : BV) → evalBV σ e < 2 ^ e.width
  | .lit w v => by
    simpa [evalBV, BV.width] using Nat.mod_lt _ (Nat.pos_pow_of_pos w (by norm_num))
  | .var n w => by
    simpa [evalBV, BV.width] using Nat.mod_lt _ (Nat.pos_pow_of_pos w (by norm_num))
  | .add a b => by
    simpa [evalBV, BV.width] using Nat.mod_lt _ (Nat.pos_pow_of_pos a.width (by norm_num))
  | .sub a b => by
    simpa [evalBV, BV.width] using Nat.mod_lt _ (Nat.pos_pow_of_pos a.width (by norm_num))
  | .extract hi lo e => by
    simpa [evalBV, BV.width] using
      Nat.mod_lt _ (Nat.pos_pow_of_pos (hi + 1 - lo) (by norm_num))
  | .concat a b => by
    have ha := evalBV_lt σ a
    have hb := evalBV_lt σ b
    simp only [evalBV, BV.width, pow_add]
    calc evalBV σ a * 2 ^ b.width + evalBV σ b
        < evalBV σ a * 2 ^ b.width + 2 ^ b.width := by omega
      _ = (evalBV σ a + 1) * 2 ^ b.width := by ring
      _ ≤ 2 ^ a.width * 2 ^ b.width := by
          exact Nat.mul_le_mul_right _ (by omega)
  | .ite c t f => by
    simpa [evalBV, BV.width] using Nat.mod_lt _ (Nat.pos_pow_of_pos t.width (by norm_num))

/-- A literal produced by the simplifier carries a canonical value. -/
def LitCanon (e : BV) : Prop := ∀ w v, e = .lit w v → v < 2 ^ w

theorem litCanon_addFold (a b : BV) : LitCanon (addFold a b) := by
  cases a <;> cases b <;> intro w v h <;> simp only [addFold] at h <;> cases h <;>
    exact Nat.mod_lt _ (Nat.pos_pow_of_pos _ (by norm_num))

theorem litCanon_subFold (a b : BV) : LitCanon (subFold a b) := by
  cases a <;> cases b <;> intro w v h <;> simp only [subFold] at h <;> cases h <;>
    exact Nat.mod_lt _ (Nat.pos_pow_of_pos _ (by norm_num))

theorem litCanon_extractFold (hi lo : Nat) (e : BV) : LitCanon (extractFold hi lo e) := by
  cases e <;> intro w v h <;> simp only [extractFold] at h <;> cases h <;>
    exact Nat.mod_lt _ (Nat.pos_pow_of_pos _ (by norm_num))

theorem concat_val_lt {wa wb x y : Nat} :
    (x % 2 ^ wa) * 2 ^ wb + y % 2 ^ wb < 2 ^ (wa + wb) := by
  have hx : x % 2 ^ wa < 2 ^ wa := Nat.mod_lt _ (Nat.pos_pow_of_pos _ (by norm_num))
  have hy : y % 2 ^ wb < 2 ^ wb := Nat.mod_lt _ (Nat.pos_pow_of_pos _ (by norm_num))
  calc (x % 2 ^ wa) * 2 ^ wb + y % 2 ^ wb
      < (x % 2 ^ wa) * 2 ^ wb + 2 ^ wb := by omega
    _ = (x % 2 ^ wa + 1) * 2 ^ wb := by ring
    _ ≤ 2 ^ wa * 2 ^ wb := Nat.mul_le_mul_right _ (by omega)
    _ = 2 ^ (wa + wb) := (pow_add 2 wa wb).symm

theorem litCanon_concatFold (a b : BV) : LitCanon (concatFold a b) := by
  cases a <;> cases b <;> intro w v h <;> simp only [concatFold] at h <;> cases h <;>
    exact concat_val_lt

theorem litCanon_iteFold (c : BoolE) (t f : BV) (ht : LitCanon t) (hf : LitCanon f) :
    LitCanon (iteFold c t f) := by
  cases c <;> intro w v h <;> simp only [iteFold] at h
  · exact ht w v h
  · exact hf w v h
  all_goals cases h

theorem litCanon_zsimp : (e : BV) → LitCanon e.zsimp
  | .lit w v => by
    intro w' v' h
    simp only [BV.zsimp] at h
    cases h
    exact Nat.mod_lt _ (Nat.pos_pow_of_pos _ (by norm_num))
  | .var n w => by intro w' v' h; simp [BV.zsimp] at h
  | .add a b => by simpa [BV.zsimp] using litCanon_addFold a.zsimp b.zsimp
  | .sub a b => by simpa [BV.zsimp] using litCanon_subFold a.zsimp b.zsimp
  | .extract hi lo e => by simpa [BV.zsimp] using litCanon_extractFold hi lo e.zsimp
  | .concat a b => by simpa [BV.zsimp] using litCanon_concatFold a.zsimp b.zsimp
  | .ite c t f => by
    simpa [BV.zsimp] using
      litCanon_iteFold c.zsimp t.zsimp f.zsimp (litCanon_zsimp t) (litCanon_zsimp f)

theorem addFold_width (a b : BV) : (addFold a b).width = a.width := by
  cases a <;> cases b <;> simp [addFold, BV.width]

theorem subFold_width (a b : BV) : (subFold a b).width = a.width := by
  cases a <;> cases b <;> simp [subFold, BV.width]

theorem extractFold_width (hi lo : Nat) (e : BV) :
    (extractFold hi lo e).width = hi + 1 - lo := by
  cases e <;> simp [extractFold, BV.width]

theorem concatFold_width (a b : BV) : (concatFold a b).width = a.width + b.width := by
  cases a <;> cases b <;> simp [concatFold, BV.width]

theorem iteFold_width (c : BoolE) (t f : BV) (h : t.width = f.width) :
    (iteFold c t f).width = t.width := by
  cases c <;> simp [iteFold, BV.width, h]

theorem width_zsimp : (e : BV) → e.wsb = true → e.zsimp.width = e.width
  | .lit w v, _ => rfl
  | .var n w, _ => rfl
  | .add a b, h => by
    simp only [BV.wsb, Bool.and_eq_true] at h
    simp [BV.zsimp, addFold_width, BV.width, width_zsimp a h.1.1]
  | .sub a b, h => by
    simp only [BV.wsb, Bool.and_eq_true] at h
    simp [BV.zsimp, subFold_width, BV.width, width_zsimp a h.1.1]
  | .extract hi lo e, h => by
    simp [BV.zsimp, extractFold_width, BV.width]
  | .concat a b, h => by
    simp only [BV.wsb, Bool.and_eq_true] at h
    simp [BV.zsimp, concatFold_width, BV.width, width_zsimp a h.1, width_zsimp b h.2]
  | .ite c t f, h => by
    simp only [BV.wsb, Bool.and_eq_true, beq_iff_eq] at h
    have hw : t.zsimp.width = f.zsimp.width := by
      rw [width_zsimp t h.1.1.2, width_zsimp f h.1.2, h.2]
    simp [BV.zsimp, iteFold_width _ _ _ hw, BV.width, width_zsimp t h.1.1.2]

theorem evalBV_addFold (σ : String → Nat) (a b : BV) (ha : LitCanon a) (hb : LitCanon b)
    (hw : a.width = b.width) : evalBV σ (addFold a b) = evalBV σ (.add a b) := by
  cases a with
  | lit w x =>
    cases b with
    | lit w' y =>
      have hx : x < 2 ^ w := ha w x rfl
      have hy : y < 2 ^ w' := hb w' y rfl
      have hww : w = w' := hw
      subst hww
      simp [addFold, evalBV, BV.width, Nat.mod_eq_of_lt hx, Nat.mod_eq_of_lt hy,
        Nat.mod_mod_of_dvd _ (dvd_refl _)]
    | _ => rfl
  | _ => rfl

theorem evalBV_subFold (σ : String → Nat) (a b : BV) (ha : LitCanon a) (hb : LitCanon b)
    (hw : a.width = b.width) : evalBV σ (subFold a b) = evalBV σ (.sub a b) := by
  cases a with
  | lit w x =>
    cases b with
    | lit w' y =>
      have hx : x < 2 ^ w := ha w x rfl
      have hy : y < 2 ^ w' := hb w' y rfl
      have hww : w = w' := hw
      subst hww
      simp [subFold, evalBV, BV.width, Nat.mod_eq_of_lt hx, Nat.mod_eq_of_lt hy,
        Nat.mod_mod_of_dvd _ (dvd_refl _)]
    | _ => rfl
  | _ => rfl

theorem evalBV_extractFold (σ : String → Nat) (hi lo : Nat) (e : BV) (he : LitCanon e) :
    evalBV σ (extractFold hi lo e) = evalBV σ (.extract hi lo e) := by
  cases e with
  | lit w v =>
    have hv : v < 2 ^ w := he w v rfl
    simp [extractFold, evalBV, Nat.mod_eq_of_lt hv, Nat.mod_mod_of_dvd _ (dvd_refl _)]
  | _ => rfl

theorem evalBV_concatFold (σ : String → Nat) (a b : BV) :
    evalBV σ (concatFold a b) = evalBV σ (.concat a b) := by
  cases a with
  | lit w x =>
    cases b with
    | lit w' y =>
      simp [concatFold, evalBV, BV.width, Nat.mod_eq_of_lt (@concat_val_lt w w' x y)]
    | _ => rfl
  | _ => rfl

theorem evalBV_iteFold (σ : String → Nat) (c : BoolE) (t f : BV) (hw : t.width = f.width) :
    evalBV σ (iteFold c t f) = evalBV σ (.ite c t f) := by
  cases c with
  | trueE =>
    simp [iteFold, evalBV, evalB, Nat.mod_eq_of_lt (evalBV_lt σ t)]
  | falseE =>
    simp [iteFold, evalBV, evalB, hw, Nat.mod_eq_of_lt (evalBV_lt σ f)]
  | _ => rfl

theorem evalB_eqFold (σ : String → Nat) (a b : BV) :
    evalB σ (eqFold a b) = evalB σ (.eqE a b) := by
  cases a with
  | lit w x =>
    cases b with
    | lit w' y =>
      simp only [eqFold]
      by_cases h : x % 2 ^ w = y % 2 ^ w' <;> simp [h, evalB, evalBV]
    | _ => rfl
  | _ => rfl

theorem evalB_orFold (σ : String → Nat) (a b : BoolE) :
    evalB σ (orFold a b) = evalB σ (.orE a b) := by
  cases a <;> cases b <;> simp [orFold, evalB]

theorem evalB_notFold (σ : String → Nat) (c : BoolE) :
    evalB σ (notFold c) = evalB σ (.notE c) := by
  cases c <;> simp [notFold, evalB]

mutual

theorem evalBV_zsimp (σ : String → Nat) : (e : BV) → e.wsb = true → evalBV σ e.zsimp = evalBV σ e
  | .lit w v, _ => by simp [BV.zsimp, evalBV, Nat.mod_mod_of_dvd _ (dvd_refl _)]
  | .var n w, _ => rfl
  | .add a b, h => by
    simp only [BV.wsb, Bool.and_eq_true, beq_iff_eq] at h
    rw [BV.zsimp, evalBV_addFold σ _ _ (litCanon_zsimp a) (litCanon_zsimp b)
      (by rw [width_zsimp a h.1.1, width_zsimp b h.1.2, h.2])]
    simp [evalBV, width_zsimp a h.1.1, evalBV_zsimp σ a h.1.1, evalBV_zsimp σ b h.1.2]
  | .sub a b, h => by
    simp only [BV.wsb, Bool.and_eq_true, beq_iff_eq] at h
    rw [BV.zsimp, evalBV_subFold σ _ _ (litCanon_zsimp a) (litCanon_zsimp b)
      (by rw [width_zsimp a h.1.1, width_zsimp b h.1.2, h.2])]
    simp [evalBV, width_zsimp a h.1.1, evalBV_zsimp σ a h.1.1, evalBV_zsimp σ b h.1.2]
  | .extract hi lo e, h => by
    simp only [BV.wsb, Bool.and_eq_true] at h
    rw [BV.zsimp, evalBV_extractFold σ _ _ _ (litCanon_zsimp e)]
    simp [evalBV, evalBV_zsimp σ e h.1.1]
  | .concat a b, h => by
    simp only [BV.wsb, Bool.and_eq_true] at h
    rw [BV.zsimp, evalBV_concatFold σ]
    simp [evalBV, width_zsimp b h.2, evalBV_zsimp σ a h.1, evalBV_zsimp σ b h.2]
  | .ite c t f, h => by
    simp only [BV.wsb, Bool.and_eq_true, beq_iff_eq] at h
    rw [BV.zsimp, evalBV_iteFold σ _ _ _
      (by rw [width_zsimp t h.1.1.2, width_zsimp f h.1.2, h.2])]
    simp [evalBV, width_zsimp t h.1.1.2, evalBV_zsimp σ t h.1.1.2, evalBV_zsimp σ f h.1.2,
      evalB_zsimp σ c h.1.1.1]

theorem evalB_zsimp (σ : String → Nat) : (c : BoolE) → c.wsb = true → evalB σ c.zsimp = evalB σ c
  | .trueE, _ => rfl
  | .falseE, _ => rfl
  | .eqE a b, h => by
    simp only [BoolE.wsb, Bool.and_eq_true, beq_iff_eq] at h
    rw [BoolE.zsimp, evalB_eqFold σ]
    simp [evalB, evalBV_zsimp σ a h.1.1, evalBV_zsimp σ b h.1.2]
  | .orE a b, h => by
    simp only [BoolE.wsb, Bool.and_eq_true] at h
    rw [BoolE.zsimp, evalB_orFold σ]
    simp [evalB, evalB_zsimp σ a h.1, evalB_zsimp σ b h.2]
  | .notE c, h => by
    rw [BoolE.zsimp, evalB_notFold σ]
    simp only [BoolE.wsb] at h
    simp [evalB, evalB_zsimp σ c h]

end

/-! ## `utility/z3_wrap_util.py` -/

/-- `MIN_BASE` from `z3_wrap_util.py`. -/
def MIN_BASE : Nat := 0x10000

/-- `bvv(val, size)`: `z3.BitVecVal`. -/
def bvv (val : Nat) (size : Nat) : BV := .lit size val

/-- Is the expression a literal numeral? (z3: `decl().kind() == Z3_OP_BNUM`). -/
def isLit : BV → Bool
  | .lit _ _ => true
  | _ => false

/-- `symbolic(val)`: true iff `z3.simplify(val)` is not a numeral. -/
def symbolic (val : BV) : Bool := !(isLit val.zsimp)

/-- `bvv_to_long(val)`: numeric value of a non-symbolic expression
(asserts `not symbolic(val)`; returns a junk 0 otherwise, a path the code
never takes behind its assertion). -/
def bvv_to_long (val : BV) : Nat :=
  match val.zsimp with
  | .lit _ v => v
  | _ => 0

/-- `split_bv(bv, split_index)`: most significant / least significant parts,
each `z3.simplify`-ed. -/
def split_bv (bv : BV) (split_index : Nat) : BV × BV :=
  ((BV.extract (bv.width - 1) split_index bv).zsimp,
   (BV.extract (split_index - 1) 0 bv).zsimp)

/-- First-some combinator used by the `heuristic_find_base` search. -/
def orElseO : Option Nat → Option Nat → Option Nat
  | some v, _ => some v
  | none, o => o

/-- Threshold test of one `heuristic_find_base` node. -/
def hfbCheck (e : BV) (rest : Option Nat) : Option Nat :=
  if !(symbolic e) && decide (MIN_BASE < bvv_to_long e) then some (bvv_to_long e) else rest

mutual

/-- Depth-first search of `heuristic_find_base`, one node: if the subterm is
non-symbolic and its value exceeds `MIN_BASE` it is returned, otherwise the
children are searched.  The Python original drives the same search with an
explicit worklist popped from the end; the visit order can only affect
*which* base is found when several exceed the threshold, never whether one
is found. -/
def hfbBV : BV → Option Nat
  | .lit w v => hfbCheck (.lit w v) none
  | .var n w => hfbCheck (.var n w) none
  | .add a b => hfbCheck (.add a b) (orElseO (hfbBV b) (hfbBV a))
  | .sub a b => hfbCheck (.sub a b) (orElseO (hfbBV b) (hfbBV a))
  | .extract hi lo e => hfbCheck (.extract hi lo e) (hfbBV e)
  | .concat a b => hfbCheck (.concat a b) (orElseO (hfbBV b) (hfbBV a))
  | .ite c t f => hfbCheck (.ite c t f) (orElseO (hfbBV f) (orElseO (hfbBV t) (hfbBool c)))

/-- `heuristic_find_base` search inside a boolean subterm. -/
def hfbBool : BoolE → Option Nat
  | .trueE => none
  | .falseE => none
  | .eqE a b => orElseO (hfbBV b) (hfbBV a)
  | .orE a b => orElseO (hfbBool b) (hfbBool a)
  | .notE c => hfbBool c

end

/-- `heuristic_find_base(val)`: scans the children of `val` (not `val`
itself) for a concrete subterm above `MIN_BASE`; `-1` when none exists. -/
def heuristic_find_base (val : BV) : Int :=
  let found :=
    match val with
    | .lit _ _ => none
    | .var _ _ => none
    | .add a b => orElseO (hfbBV b) (hfbBV a)
    | .sub a b => orElseO (hfbBV b) (hfbBV a)
    | .extract _ _ e => hfbBV e
    | .concat a b => orElseO (hfbBV b) (hfbBV a)
    | .ite c t f => orElseO (hfbBV f) (orElseO (hfbBV t) (hfbBool c))
  match found with
  | some v => (v : Int)
  | none => -1

/-- `z3.Or(*conditions)` over the accumulated condition list (the code only
calls it on a non-empty list). -/
def zOr : List BoolE → BoolE
  | [] => .falseE
  | [c] => c
  | c :: rest => .orE c (zOr rest)

/-! ## Data model: byte store, pages, page heap -/

/-- `InitData` named tuple: a byte blob and its starting in-page offset. -/
structure InitData where
  bytes : List Nat
  index : Nat
deriving DecidableEq

/-- Modelled from the spec: the external Byte Store primitive
(`memory/memory_object.py` is not part of the sources).  Per the spec it is
an offset-indexed container of symbolic byte values supporting
store-by-offset, load-by-offset, structural copy and expression
simplification, not specified further.  It is modelled as the list of store
events (newest first); a load builds the chain of conditional selects over
the recorded events, with a zero default for never-written offsets. -/
structure MemoryObj where
  name : String
  bits : Nat
  entries : List (BV × BV)
deriving DecidableEq

/-- Fresh byte store for a new page. -/
def MemoryObj.init (name : String) (bits : Nat) : MemoryObj := ⟨name, bits, []⟩

/-- Modelled from the spec: Byte Store store-by-offset. -/
def MemoryObj.store (mo : MemoryObj) (index value : BV) : MemoryObj :=
  { mo with entries := (index, value) :: mo.entries }

/-- Conditional-select chain over the store events, newest first. -/
def moLoadGo (index : BV) : List (BV × BV) → BV
  | [] => .lit 8 0
  | (ie, ve) :: rest => .ite (.eqE index ie) ve (moLoadGo index rest)

/-- Modelled from the spec: Byte Store load-by-offset. -/
def MemoryObj.load (mo : MemoryObj) (index : BV) : BV := moLoadGo index mo.entries

/-- Modelled from the spec: Byte Store structural copy. -/
def MemoryObj.copy (mo : MemoryObj) : MemoryObj := mo

/-- Modelled from the spec: Byte Store expression simplification — a
semantics-preserving normalization, modelled as the identity. -/
def MemoryObj.simplify (mo : MemoryObj) : MemoryObj := mo

/-- `Page`: one page-aligned unit of the address space.  `addr` is the
page-table key (a page index), `mo` the byte store, `pending` the deferred
init blob (`_init`), `lazycopy` the copy-on-write flag (`_lazycopy`). -/
structure Page where
  addr : Nat
  size : Nat
  bits : Nat
  mo : MemoryObj
  pending : Option InitData
  lazycopy : Bool
deriving DecidableEq

/-- `Page.__init__`: fresh byte store, deferred init, COW flag clear. -/
def Page.new (addr : Nat) (size : Nat := 0x1000) (bits : Nat := 12)
    (init : Option InitData := none) : Page :=
  { addr, size, bits, mo := MemoryObj.init (toString addr) bits, pending := init,
    lazycopy := false }

/-- Placeholder page behind the `page_address in self.pages` assertions. -/
def dummyPage : Page := Page.new 0 0 0 none

/-- `Page.lazy_init`: materialize the pending blob into the byte store
(`mo.store(start + i, bvv(val[i], 8))` for each byte), then clear it. -/
def Page.lazy_init (p : Page) : Page :=
  match p.pending with
  | none => p
  | some init =>
    let start := bvv init.index p.bits
    { p with
      mo := init.bytes.enum.foldl
        (fun mo iv => mo.store (.add start (.lit p.bits iv.1)) (.lit 8 iv.2)) p.mo,
      pending := none }

/-- Python `Page` objects are mutated in place and shared between `Memory`
instances (copy-on-write), so pages live in an explicit heap addressed by
allocation ids; `Memory` page tables map page indices to ids. -/
structure Heap where
  tbl : List (Nat × Page)
  nextId : Nat
deriving DecidableEq

/-- Empty page heap. -/
def Heap.empty : Heap := ⟨[], 0⟩

/-- Heap lookup. -/
def Heap.find (h : Heap) (oid : Nat) : Option Page := h.tbl.lookup oid

/-- Association-list update: replace the first binding of the key, append
when absent (Python `dict.__setitem__`, insertion order preserved). -/
def alset {α : Type} : List (Nat × α) → Nat → α → List (Nat × α)
  | [], k, v => [(k, v)]
  | (k', v') :: rest, k, v =>
    if k' = k then (k, v) :: rest else (k', v') :: alset rest k v

/-- In-place mutation of a heap page. -/
def Heap.set (h : Heap) (oid : Nat) (p : Page) : Heap :=
  { h with tbl := alset h.tbl oid p }

/-- Allocation of a fresh `Page` object. -/
def Heap.alloc (h : Heap) (p : Page) : Heap × Nat :=
  ({ tbl := h.tbl ++ [(h.nextId, p)], nextId := h.nextId + 1 }, h.nextId)

/-- `Page.store(index, value, condition)` on the heap: lazy init, then
either fork the COW-shared page (clearing the flag on the shared object,
allocating a fresh page with a copied byte store, and re-issuing the store
against it — the recursive call of the source resolves to the in-place
branch and is inlined here) or store in place.  Returns the id of the page
that owns the write.  The `condition` parameter is accepted and dropped,
exactly as in the source (`Page.store` never forwards it to the byte
store). -/
def Page.storeOp (h : Heap) (oid : Nat) (index value : BV) (condition : Option BoolE) :
    Heap × Nat :=
  let p := ((h.find oid).getD dummyPage).lazy_init
  let h := h.set oid p
  if p.lazycopy then
    let p := { p with lazycopy := false }
    let h := h.set oid p
    let newPage : Page := { Page.new p.addr p.size p.bits none with mo := p.mo.copy }
    let (h, nid) := h.alloc newPage
    (h.set nid { newPage with mo := newPage.mo.store index value }, nid)
  else
    (h.set oid { p with mo := p.mo.store index value }, oid)

/-- `Page.load(index)` on the heap: lazy init (an in-place mutation), then
a byte-store load. -/
def Page.loadOp (h : Heap) (oid : Nat) (index : BV) : Heap × BV :=
  let p := ((h.find oid).getD dummyPage).lazy_init
  (h.set oid p, p.mo.load index)

/-- `Page.copy()` on the heap: set `_lazycopy` on the object itself and
return the same object. -/
def Page.copyOp (h : Heap) (oid : Nat) : Heap × Nat :=
  let p := (h.find oid).getD dummyPage
  (h.set oid { p with lazycopy := true }, oid)

/-! ## The `Memory` class -/

/-- Solver state of one execution state: the accumulated path constraints
(`solver.add_constraints` appends to it, `state.copy()` duplicates it). -/
structure SState where
  constraints : List BoolE
deriving DecidableEq

/-- Modelled from the spec: the capability surface of the external solver
(`satisfiable`, `symbolic`-under-constraints, `evaluate_long`,
`is_unconstrained`) together with the global option flag
`HEURISTIC_UNCONSTRAINED_MEM_ACCESS` from `options.py`; all are consumed
abstractly by `Memory` and passed in here as an oracle.  The code only ever
calls `satisfiable` with a single extra constraint. -/
structure Config where
  heuristic : Bool
  satQ : List BoolE → BoolE → Bool
  symbQ : List BoolE → BV → Bool
  evalLongQ : List BoolE → BV → Nat
  unconQ : List BoolE → BV → Bool

/-- An errored-state report handed to `executor.fringe.errored`: the forked
state's constraints and the reason tag. -/
abbrev Fringe := List (SState × String)

/-- The `Memory` class: sparse page table (page index → page object id,
insertion-ordered like a Python dict) plus the owning execution state's
solver constraints. -/
structure Memory where
  bits : Nat
  page_size : Nat
  index_bits : Nat
  pages : List (Nat × Nat)
  state : SState
deriving DecidableEq

/-- `Memory.__init__`: asserts `page_size` is a power of two, in which case
`math.ceil(math.log(page_size, 2))` is exactly `Nat.log2`. -/
def Memory.init (state : SState) (page_size : Nat := 0x1000) (bits : Nat := 64) : Memory :=
  { bits, page_size, index_bits := Nat.log2 page_size, pages := [], state }

/-- The page-creation loop of `mmap`: one iteration per page slot, slicing
the init blob (`init_val[data_index_i:data_index_f]`) across created pages;
`initIndex` becomes 0 after the first created page; an already-present slot
is left untouched (diagnostic only) and consumes no blob bytes. -/
def mmapAux (psize ibits : Nat) (initVal : List Nat) :
    List Nat → List (Nat × Nat) → Heap → Option Nat → Nat → Nat → List (Nat × Nat) × Heap
  | [], pages, h, _, _, _ => (pages, h)
  | a :: rest, pages, h, none, di, df =>
    if (pages.lookup a).isSome then
      mmapAux psize ibits initVal rest pages h none di df
    else
      let ho := h.alloc (Page.new a psize ibits none)
      mmapAux psize ibits initVal rest (pages ++ [(a, ho.2)]) ho.1 none di df
  | a :: rest, pages, h, some idx, di, df =>
    if (pages.lookup a).isSome then
      mmapAux psize ibits initVal rest pages h (some idx) di df
    else
      let data := (initVal.drop di).take (df - di)
      let ho := h.alloc (Page.new a psize ibits (some ⟨data, idx⟩))
      mmapAux psize ibits initVal rest (pages ++ [(a, ho.2)]) ho.1 (some 0) df (df + psize)

/-- `Memory.mmap(address, size, init)`: asserts both page-aligned, then
creates a page per missing slot of `[address/ps, address/ps + size/ps)`. -/
def Memory.mmap (m : Memory) (h : Heap) (address size : Nat)
    (init : Option InitData := none) : Memory × Heap :=
  let slots := List.range' (address / m.page_size) (size / m.page_size)
  match init with
  | none =>
    let ph := mmapAux m.page_size m.index_bits [] slots m.pages h none 0 0
    ({ m with pages := ph.1 }, ph.2)
  | some i =>
    let ph :=
      mmapAux m.page_size m.index_bits i.bytes slots m.pages h (some i.index) 0
        (m.page_size - i.index)
    ({ m with pages := ph.1 }, ph.2)

/-- `Memory._store`: asserts the page is mapped and the value is one byte,
dispatches to `Page.store` and writes the returned owning page back into
the table.  A failing `assert page_address in self.pages` aborts the Python
run; it is modelled as leaving memory and heap unchanged (no claim observes
a state past such an abort). -/
def Memory.storeByte (m : Memory) (h : Heap) (page_address : Nat) (page_index value : BV)
    (condition : Option BoolE) : Memory × Heap :=
  match m.pages.lookup page_address with
  | none => (m, h)
  | some oid =>
    let ho := Page.storeOp h oid page_index value condition
    ({ m with pages := alset m.pages page_address ho.2 }, ho.1)

/-- `Memory._load`: asserts the page is mapped, dispatches to `Page.load`;
the failing assert is modelled as for `storeByte`. -/
def Memory.loadByte (m : Memory) (h : Heap) (page_address : Nat) (page_index : BV) :
    Heap × BV :=
  match m.pages.lookup page_address with
  | none => (h, .lit 8 0)
  | some oid => Page.loadOp h oid page_index

/-- Python `set.add` on the accessed-pages set (iteration order of the
final simplification pass is irrelevant: it is a per-page no-op effect). -/
def insertSet (l : List Nat) (x : Nat) : List Nat :=
  if l.contains x then l else l ++ [x]

/-- The `while` scan of `get_unmapped`, with fuel bounding the iteration
count (the loop runs at most `last_page - 1` times since `j` increases). -/
def guLoop (pages : List (Nat × Nat)) (size last_page : Nat) (from_end : Bool) :
    Nat → Nat → Nat → Nat → Nat
  | 0, _, i, _ => i
  | fuel + 1, j, i, count =>
    if j ≤ last_page ∧ count ≠ size then
      let ic :=
        if (pages.lookup i).isNone then (i, count + 1)
        else (if from_end then i else j + 1, 0)
      guLoop pages size last_page from_end fuel (j + 1)
        (if from_end then ic.1 - 1 else ic.1) ic.2
    else i

/-- `Memory.get_unmapped(size, from_end)`. -/
def Memory.get_unmapped (m : Memory) (size : Nat) (from_end : Bool := true) : Nat :=
  let last_page := 2 ^ (m.bits - m.index_bits) - 4
  guLoop m.pages size last_page from_end (last_page + 1) 2
    (if from_end then last_page else 2) 0

/-- The heuristic unconstrained-access concretization shared by `store` and
`load`: when enabled and the address is syntactically symbolic, wholly
unconstrained, and has no heuristic base, map a fresh region, constrain the
address to its base, and continue with the concrete address.  `sz` is the
quantity the caller divides by the page size (`value.size()` in bits for
`store`, `size` in bytes for `load`, as in the source). -/
def heuristicConc (cfg : Config) (m : Memory) (h : Heap) (address : BV) (sz : Nat) :
    Memory × Heap × BV :=
  if cfg.heuristic && symbolic address && cfg.unconQ m.state.constraints address
      && (heuristic_find_base address == -1) then
    let address_conc := m.get_unmapped (sz / m.page_size + 1) false * m.page_size
    let mh := m.mmap h address_conc ((sz / m.page_size + 1) * m.page_size) none
    let m := mh.1
    let h := mh.2
    let m := { m with state :=
      ⟨m.state.constraints ++ [.eqE address (bvv address_conc address.width)]⟩ }
    (m, h, bvv address_conc address.width)
  else (m, h, address)

/-- The per-page fan-out of the genuinely-symbolic store tier: for every
mapped page `p` with `page_address == p` satisfiable, record the equality
and store the byte conditionally-in-intent (the condition is dropped by
`Page.store`).  Iterates over the page-table keys as they were at entry to
the byte loop (the keys never change during `store`). -/
def storeSymTier (cfg : Config) (page_address page_index byteval : BV) :
    List (Nat × Nat) → Memory → Heap → List BoolE → List Nat →
      Memory × Heap × List BoolE × List Nat
  | [], m, h, conds, paddrs => (m, h, conds, paddrs)
  | (p, _) :: rest, m, h, conds, paddrs =>
    if cfg.satQ m.state.constraints (.eqE page_address (bvv p page_address.width)) then
      let condition := (BoolE.eqE (bvv p page_address.width) page_address).zsimp
      let mh := m.storeByte h p page_index byteval (some condition)
      storeSymTier cfg page_address page_index byteval rest mh.1 mh.2 (conds ++ [condition])
        (insertSet paddrs p)
    else
      storeSymTier cfg page_address page_index byteval rest m h conds paddrs

/-- The byte loop of `Memory.store` (`for i in range(size // 8 - 1, -1, -1)`),
three-tier page-address resolution per byte; `conds` persists across
iterations exactly as the `conditions` variable of the source does. -/
def storeLoop (cfg : Config) (address value : BV) (endness : String) (size : Nat) :
    List Nat → Memory → Heap → List BoolE → List Nat →
      Memory × Heap × List BoolE × List Nat
  | [], m, h, conds, paddrs => (m, h, conds, paddrs)
  | i :: rest, m, h, conds, paddrs =>
    let pr :=
      if endness = "little" then
        split_bv (.add address (.lit m.bits i)) m.index_bits
      else
        split_bv (.sub (.sub (.add address (.lit m.bits (size / 8))) (.lit m.bits i))
          (.lit m.bits 1)) m.index_bits
    let page_address := pr.1
    let page_index := pr.2
    let byteval := BV.extract (8 * (i + 1) - 1) (8 * i) value
    let st :=
      if symbolic page_address = false then
        let pa := bvv_to_long page_address
        let mh := m.storeByte h pa page_index byteval none
        (mh.1, mh.2, conds, insertSet paddrs pa)
      else if cfg.symbQ m.state.constraints page_address = false then
        let pa := cfg.evalLongQ m.state.constraints page_address
        let mh := m.storeByte h pa page_index byteval none
        (mh.1, mh.2, conds, insertSet paddrs pa)
      else
        storeSymTier cfg page_address.zsimp page_index.zsimp byteval m.pages m h [] paddrs
    let m := st.1
    let m :=
      if st.2.2.1 ≠ [] then
        { m with state := ⟨m.state.constraints ++ [(zOr st.2.2.1).zsimp]⟩ }
      else m
    storeLoop cfg address value endness size rest m st.2.1 st.2.2.1 st.2.2.2

/-- One step of the final `for p in page_addresses: self.pages[p].mo.simplify()`
pass of `store` (a per-page in-place normalization, a semantic no-op in
this model). -/
def simplifyStep (pages : List (Nat × Nat)) (h : Heap) (p : Nat) : Heap :=
  let oid := (pages.lookup p).getD 0
  match h.find oid with
  | some pg => h.set oid { pg with mo := pg.mo.simplify }
  | none => h

/-- `Memory.store(address, value, endness)`. -/
def Memory.store (cfg : Config) (m : Memory) (h : Heap) (address value : BV)
    (endness : String := "big") : Memory × Heap :=
  let mha := heuristicConc cfg m h address value.width
  let m := mha.1
  let h := mha.2.1
  let address := mha.2.2
  let size := value.width
  let r := storeLoop cfg address value endness size ((List.range (size / 8)).reverse)
    m h [] []
  let m := r.1
  let h := r.2.1
  let paddrs := r.2.2.2
  let h := paddrs.foldl (simplifyStep m.pages) h
  (m, h)

/-- Load failures: `res is None` at the final width check (a fatal attribute
error in Python), or the width assertion itself failing. -/
inductive LoadErr where
  | noneRes
  | widthMismatch
deriving DecidableEq

/-- The per-page fan-out of the genuinely-symbolic load tier: a chain of
conditional selects over every mapped page consistent with the path
constraints, accumulating the equality conditions. -/
def loadSymTier (cfg : Config) (cs : List BoolE) (page_address page_index : BV) :
    List (Nat × Nat) → Memory → Heap → Option BV → List BoolE →
      Heap × Option BV × List BoolE
  | [], _, h, res, conds => (h, res, conds)
  | (p, _) :: rest, m, h, res, conds =>
    if cfg.satQ cs (.eqE page_address (bvv p page_address.width)) then
      let condition := (BoolE.eqE (bvv p page_address.width) page_address).zsimp
      let ht := m.loadByte h p page_index
      let res :=
        match res with
        | none => some ht.2
        | some r => some (.ite condition ht.2 r)
      loadSymTier cfg cs page_address page_index rest m ht.1 res (conds ++ [condition])
    else
      loadSymTier cfg cs page_address page_index rest m h res conds

/-- The byte loop of `Memory.load`: three-tier resolution, concatenating
byte results; in the symbolic tier `conditions` is reset for the byte and
the result chain is built without concatenation, as in the source. -/
def loadLoop (cfg : Config) (address : BV) :
    List Nat → Memory → Heap → Option BV → List BoolE →
      Memory × Heap × Option BV × List BoolE
  | [], m, h, res, conds => (m, h, res, conds)
  | i :: rest, m, h, res, conds =>
    let pr := split_bv (.add address (.lit m.bits i)) m.index_bits
    let page_address := pr.1
    let page_index := pr.2
    if symbolic page_address = false then
      let pa := bvv_to_long page_address
      let ht := m.loadByte h pa page_index
      let tmp := ht.2.zsimp
      let res := some (match res with | none => tmp | some r => BV.concat r tmp)
      loadLoop cfg address rest m ht.1 res conds
    else if cfg.symbQ m.state.constraints page_address = false then
      let pa := cfg.evalLongQ m.state.constraints page_address
      let ht := m.loadByte h pa page_index
      let tmp := ht.2.zsimp
      let res := some (match res with | none => tmp | some r => BV.concat r tmp)
      loadLoop cfg address rest m ht.1 res conds
    else
      let acc := loadSymTier cfg m.state.constraints page_address page_index m.pages
        m h res []
      loadLoop cfg address rest m acc.1 acc.2.1 acc.2.2

/-- The tail of `Memory.load`: when any byte took the symbolic tier
(`conditions` non-empty), fork an errored state constrained to the
negation of the accumulated disjunction, report it as `"read unmapped"`,
and narrow the current state to the disjunction; then the final width
assertion on the accumulated result. -/
def loadFinish (size : Nat) (m : Memory) (h : Heap) (fringe : Fringe)
    (conds : List BoolE) : Option BV → Except LoadErr BV × Memory × Heap × Fringe
  | none =>
    let mf :=
      if conds ≠ [] then
        let errored : SState := ⟨m.state.constraints ++ [(BoolE.notE (zOr conds)).zsimp]⟩
        ({ m with state := ⟨m.state.constraints ++ [(zOr conds).zsimp]⟩ },
         fringe ++ [(errored, "read unmapped")])
      else (m, fringe)
    (.error .noneRes, mf.1, h, mf.2)
  | some r =>
    let mf :=
      if conds ≠ [] then
        let errored : SState := ⟨m.state.constraints ++ [(BoolE.notE (zOr conds)).zsimp]⟩
        ({ m with state := ⟨m.state.constraints ++ [(zOr conds).zsimp]⟩ },
         fringe ++ [(errored, "read unmapped")])
      else (m, fringe)
    if r.width / 8 = size then (.ok r.zsimp, mf.1, h, mf.2)
    else (.error .widthMismatch, mf.1, h, mf.2)

/-- `Memory.load(address, size, endness)`: heuristic concretization, the
byte loop, then the fork/narrow/width-check tail. -/
def Memory.load (cfg : Config) (m : Memory) (h : Heap) (fringe : Fringe) (address : BV)
    (size : Nat) (endness : String := "big") :
    Except LoadErr BV × Memory × Heap × Fringe :=
  let mha := heuristicConc cfg m h address size
  let m := mha.1
  let h := mha.2.1
  let address := mha.2.2
  let ran := if endness = "little" then (List.range size).reverse else List.range size
  let r := loadLoop cfg address ran m h none []
  loadFinish size r.1 r.2.1 fringe r.2.2.2 r.2.2.1

/-- The `for page_addr in self.pages` loop of `Memory.copy`: builds the
fresh table from each entry's `Page.copy()`. -/
def copyFold : List (Nat × Nat) → List (Nat × Nat) → Heap → List (Nat × Nat) × Heap
  | [], acc, h => (acc, h)
  | kv :: rest, acc, h =>
    let ho := Page.copyOp h kv.2
    copyFold rest (acc ++ [(kv.1, ho.2)]) ho.1

/-- `Memory.copy(state)`: a fresh `Memory` (same geometry, given state), a
fresh page table dict, each entry the result of the entry's
`Page.copy()` — i.e. the same page object, COW-marked. -/
def Memory.copy (m : Memory) (h : Heap) (state : SState) : Memory × Heap :=
  let ph := copyFold m.pages [] h
  ({ bits := m.bits, page_size := m.page_size, index_bits := Nat.log2 m.page_size,
     pages := ph.1, state }, ph.2)

/-! ## Association-list and heap lemmas -/

theorem lookup_cons_self {α : Type} (k : Nat) (v : α) (l : List (Nat × α)) :
    List.lookup k ((k, v) :: l) = some v := by
  simp [List.lookup]

theorem lookup_cons_ne {α : Type} (k k' : Nat) (v : α) (l : List (Nat × α)) (h : k' ≠ k) :
    List.lookup k' ((k, v) :: l) = List.lookup k' l := by
  have hb : (k' == k) = false := beq_eq_false_iff_ne.mpr h
  simp [List.lookup, hb]

theorem lookup_alset_self {α : Type} (l : List (Nat × α)) (k : Nat) (v : α) :
    (alset l k v).lookup k = some v := by
  induction l with
  | nil => simp [alset, List.lookup]
  | cons kv rest ih =>
    obtain ⟨k', v'⟩ := kv
    by_cases h : k' = k
    · subst h; simp [alset, lookup_cons_self]
    · rw [alset, if_neg h, lookup_cons_ne _ _ _ _ (fun he => h he.symm)]
      exact ih

theorem lookup_alset_ne {α : Type} (l : List (Nat × α)) (k k' : Nat) (v : α) (h : k' ≠ k) :
    (alset l k v).lookup k' = l.lookup k' := by
  induction l with
  | nil =>
    have hb : (k' == k) = false := beq_eq_false_iff_ne.mpr h
    simp [alset, List.lookup, hb]
  | cons kv rest ih =>
    obtain ⟨k0, v0⟩ := kv
    by_cases hk : k0 = k
    · subst hk
      rw [alset, if_pos rfl, lookup_cons_ne _ _ _ _ h, lookup_cons_ne _ _ _ _ h]
    · rw [alset, if_neg hk]
      by_cases hk' : k' = k0
      · subst hk'; rw [lookup_cons_self, lookup_cons_self]
      · rw [lookup_cons_ne _ _ _ _ hk', lookup_cons_ne _ _ _ _ hk']
        exact ih

theorem Heap.find_set_self (h : Heap) (oid : Nat) (p : Page) :
    (h.set oid p).find oid = some p := lookup_alset_self h.tbl oid p

theorem Heap.find_set_ne (h : Heap) (oid oid' : Nat) (p : Page) (hne : oid' ≠ oid) :
    (h.set oid p).find oid' = h.find oid' := lookup_alset_ne h.tbl oid oid' p hne

theorem mem_of_lookup {α : Type} (l : List (Nat × α)) (k : Nat) (v : α)
    (h : l.lookup k = some v) : (k, v) ∈ l := by
  induction l with
  | nil => simp [List.lookup] at h
  | cons kv rest ih =>
    obtain ⟨k0, v0⟩ := kv
    by_cases hk : k = k0
    · subst hk
      rw [lookup_cons_self] at h
      injection h with h
      subst h
      exact List.mem_cons_self _ _
    · rw [lookup_cons_ne _ _ _ _ hk] at h
      exact List.mem_cons_of_mem _ (ih h)

theorem mem_alset {α : Type} (l : List (Nat × α)) (k : Nat) (v : α) (k' : Nat) (v' : α) :
    (k', v') ∈ alset l k v → (k' = k ∧ v' = v) ∨ (k', v') ∈ l := by
  induction l with
  | nil =>
    intro h
    simp [alset] at h
    exact Or.inl h
  | cons kv rest ih =>
    obtain ⟨k0, v0⟩ := kv
    by_cases hk : k0 = k
    · subst hk
      intro h
      rw [alset, if_pos rfl] at h
      rcases List.mem_cons.mp h with he | ht
      · left
        obtain ⟨h1, h2⟩ := Prod.mk.injEq .. ▸ he
        exact ⟨h1, h2⟩
      · right; exact List.mem_cons_of_mem _ ht
    · intro h
      rw [alset, if_neg hk] at h
      rcases List.mem_cons.mp h with he | ht
      · right; exact he ▸ List.mem_cons_self _ _
      · rcases ih ht with h1 | h2
        · left; exact h1
        · right; exact List.mem_cons_of_mem _ h2

theorem lookup_append_some {α : Type} (l l2 : List (Nat × α)) (k : Nat) (v : α)
    (h : l.lookup k = some v) : (l ++ l2).lookup k = some v := by
  induction l with
  | nil => simp [List.lookup] at h
  | cons kv rest ih =>
    obtain ⟨k0, v0⟩ := kv
    by_cases hk : k = k0
    · subst hk
      rw [lookup_cons_self] at h
      rw [List.cons_append, lookup_cons_self]
      exact h
    · rw [lookup_cons_ne _ _ _ _ hk] at h
      rw [List.cons_append, lookup_cons_ne _ _ _ _ hk]
      exact ih h

theorem lookup_append_none {α : Type} (l l2 : List (Nat × α)) (k : Nat)
    (h : l.lookup k = none) : (l ++ l2).lookup k = l2.lookup k := by
  induction l with
  | nil => simp
  | cons kv rest ih =>
    obtain ⟨k0, v0⟩ := kv
    by_cases hk : k = k0
    · subst hk; rw [lookup_cons_self] at h; cases h
    · rw [lookup_cons_ne _ _ _ _ hk] at h
      rw [List.cons_append, lookup_cons_ne _ _ _ _ hk]
      exact ih h

theorem lookup_none_of_keys {α : Type} (l : List (Nat × α)) (k : Nat)
    (h : ∀ kv ∈ l, kv.1 ≠ k) : l.lookup k = none := by
  induction l with
  | nil => rfl
  | cons kv rest ih =>
    obtain ⟨k0, v0⟩ := kv
    have hk : k ≠ k0 := fun he => h (k0, v0) (List.mem_cons_self _ _) he.symm
    rw [lookup_cons_ne _ _ _ _ hk]
    exact ih (fun kv hm => h kv (List.mem_cons_of_mem _ hm))

/-! ## Heap well-formedness and address-preserving evolution -/

/-- Every allocated object id is below the allocation counter. -/
def HeapWF (h : Heap) : Prop := ∀ kv ∈ h.tbl, kv.1 < h.nextId

/-- Heap evolution that keeps every live page object alive with an
unchanged `addr` field (stores, loads, copies and allocations all do). -/
def AddrPres (h h' : Heap) : Prop :=
  ∀ oid pg, h.find oid = some pg → ∃ pg', h'.find oid = some pg' ∧ pg'.addr = pg.addr

theorem addrPres_rfl (h : Heap) : AddrPres h h := fun _ pg hf => ⟨pg, hf, Eq.refl pg.addr⟩

theorem AddrPres.trans {h1 h2 h3 : Heap} (a : AddrPres h1 h2) (b : AddrPres h2 h3) :
    AddrPres h1 h3 := by
  intro oid pg hf
  obtain ⟨pg', hf', ha'⟩ := a oid pg hf
  obtain ⟨pg'', hf'', ha''⟩ := b oid pg' hf'
  exact ⟨pg'', hf'', ha''.trans ha'⟩

theorem find_lt_nextId (h : Heap) (hwf : HeapWF h) (oid : Nat) (pg : Page)
    (hf : h.find oid = some pg) : oid < h.nextId :=
  hwf (oid, pg) (mem_of_lookup _ _ _ hf)

theorem HeapWF_set (h : Heap) (oid : Nat) (p : Page) (hwf : HeapWF h)
    (hlt : oid < h.nextId) : HeapWF (h.set oid p) := by
  intro kv hm
  rcases mem_alset _ _ _ _ _ hm with ⟨h1, _⟩ | h2
  · subst h1; exact hlt
  · exact hwf kv h2

theorem HeapWF_alloc (h : Heap) (p : Page) : HeapWF h → HeapWF (h.alloc p).1 := by
  intro hwf kv hm
  rcases List.mem_append.mp hm with h1 | h2
  · exact Nat.lt_succ_of_lt (hwf kv h1)
  · simp at h2
    subst h2
    exact Nat.lt_succ_self _

theorem AddrPres_set (h : Heap) (oid : Nat) (p : Page)
    (hpg : ∀ pg, h.find oid = some pg → p.addr = pg.addr) :
    AddrPres h (h.set oid p) := by
  intro oid' pg hf
  by_cases he : oid' = oid
  · subst he
    exact ⟨p, Heap.find_set_self h oid' p, hpg pg hf⟩
  · exact ⟨pg, (Heap.find_set_ne h oid oid' p he).trans hf, rfl⟩

theorem AddrPres_alloc (h : Heap) (p : Page) : AddrPres h (h.alloc p).1 := by
  intro oid pg hf
  exact ⟨pg, lookup_append_some _ _ _ _ hf, rfl⟩

theorem find_alloc_self (h : Heap) (p : Page) (hwf : HeapWF h) :
    (h.alloc p).1.find (h.alloc p).2 = some p := by
  show (h.tbl ++ [(h.nextId, p)]).lookup h.nextId = some p
  rw [lookup_append_none _ _ _
    (lookup_none_of_keys _ _ (fun kv hm => Nat.ne_of_lt (hwf kv hm)))]
  exact lookup_cons_self _ _ _

/-! ## `get_unmapped` lemmas (claims C7 and C10) -/

/-- In forward mode, as long as the candidate slot 2 is unmapped the scan
never moves the candidate: every iteration re-tests slot 2. -/
theorem guLoop_forward_fixed (pages : List (Nat × Nat)) (size lp : Nat)
    (h2 : pages.lookup 2 = none) :
    ∀ fuel j count, guLoop pages size lp false fuel j 2 count = 2 := by
  intro fuel
  induction fuel with
  | zero => intro j count; rfl
  | succ fuel ih =>
    intro j count
    rw [guLoop]
    by_cases hc : j ≤ lp ∧ count ≠ size
    · rw [if_pos hc]
      simp only [h2, Option.isNone_none, if_true, if_false]
      exact ih (j + 1) (count + 1)
    · rw [if_neg hc]

/-- C10: with slot 2 unmapped, `get_unmapped(size, from_end=False)`
returns 2 for every size in the scan bound, regardless of which of the
slots 3..2+size-1 are mapped: the forward scan only ever tests its current
candidate slot. -/
theorem get_unmapped_forward_overlaps (m : Memory) (size : Nat)
    (h2 : m.pages.lookup 2 = none) (hs1 : 1 ≤ size)
    (hs2 : size ≤ 2 ^ (m.bits - m.index_bits) - 4 - 1) :
    m.get_unmapped size false = 2 := by
  unfold Memory.get_unmapped
  exact guLoop_forward_fixed m.pages size _ h2 _ 2 0

/-- Witness for C10: a memory with slots 3 and 4 mapped but 2 unmapped
still receives slot 2 for a 3-slot request, overlapping the mapped pages. -/
theorem get_unmapped_forward_overlaps_witness :
    (({ bits := 16, page_size := 4096, index_bits := 12,
        pages := [(3, 0), (4, 1)], state := ⟨[]⟩ } : Memory)).get_unmapped 3 false = 2 :=
  get_unmapped_forward_overlaps _ 3 (by decide) (by decide) (by decide)

/-- Descending scan: three consecutive unmapped slots `g`, `g+1`, `g+2`
entered with a zero run counter make the loop stop with `i = g - 1`. -/
theorem guLoop_gap (pages : List (Nat × Nat)) (lp g : Nat)
    (hg : 1 ≤ g)
    (hgap : ∀ s, g ≤ s → s ≤ g + 2 → pages.lookup s = none) :
    ∀ d j fuel, (∀ s, g + 3 ≤ s → s ≤ g + 2 + d → (pages.lookup s).isSome = true) →
      j + (d + 2) ≤ lp → d + 4 ≤ fuel →
      guLoop pages 3 lp true fuel j (g + 2 + d) 0 = g - 1 := by
  intro d
  induction d with
  | zero =>
    intro j fuel _ hj hf
    obtain ⟨f, rfl⟩ : ∃ f, fuel = f + 4 := ⟨fuel - 4, by omega⟩
    rw [guLoop, if_pos ⟨by omega, by decide⟩]
    rw [hgap (g + 2 + 0) (by omega) (by omega)]
    simp only [Option.isNone_none, if_true]
    have e1 : g + 2 + 0 - 1 = g + 1 := by omega
    rw [e1, guLoop, if_pos ⟨by omega, by decide⟩, hgap (g + 1) (by omega) (by omega)]
    simp only [Option.isNone_none, if_true]
    have e2 : g + 1 - 1 = g := by omega
    rw [e2, guLoop, if_pos ⟨by omega, by decide⟩, hgap g (by omega) (by omega)]
    simp only [Option.isNone_none, if_true]
    rw [guLoop, if_neg (by simp)]
  | succ d ih =>
    intro j fuel hab hj hf
    obtain ⟨f, rfl⟩ : ∃ f, fuel = f + 1 := ⟨fuel - 1, by omega⟩
    rw [guLoop, if_pos ⟨by omega, by decide⟩]
    have hm : (pages.lookup (g + 2 + (d + 1))).isSome = true :=
      hab _ (by omega) (by omega)
    have hnone : (pages.lookup (g + 2 + (d + 1))).isNone = false := by
      cases hl : pages.lookup (g + 2 + (d + 1)) with
      | none => rw [hl] at hm; simp at hm
      | some _ => rfl
    simp only [hnone, Bool.false_eq_true, if_false, if_true]
    have e : g + 2 + (d + 1) - 1 = g + 2 + d := by omega
    rw [e]
    exact ih (j + 1) f (fun s h1 h2 => hab s h1 (by omega)) (by omega) (by omega)

/-- C7 (amended): on an address space whose slots above a 3-slot gap
`[g, g+2]` are all mapped (within the scan bound), `get_unmapped(3,
from_end=True)` returns `g - 1`: the slot index immediately *preceding*
the start of the gap, not the gap's start itself. -/
theorem get_unmapped_gap3_from_end (m : Memory) (g : Nat)
    (hg2 : 2 ≤ g)
    (hle : g + 2 ≤ 2 ^ (m.bits - m.index_bits) - 4)
    (hgap : ∀ s, g ≤ s → s ≤ g + 2 → m.pages.lookup s = none)
    (habove : ∀ s, g + 3 ≤ s → s ≤ 2 ^ (m.bits - m.index_bits) - 4 →
      (m.pages.lookup s).isSome = true) :
    m.get_unmapped 3 true = g - 1 := by
  unfold Memory.get_unmapped
  have he : 2 ^ (m.bits - m.index_bits) - 4 = g + 2 + (2 ^ (m.bits - m.index_bits) - 4 - (g + 2)) := by
    omega
  rw [he]
  exact guLoop_gap m.pages _ g (by omega) hgap _ 2 _
    (fun s h1 h2 => habove s h1 (by omega)) (by omega) (by omega)

/-- The concrete address space of the C7 counterexample: scan bound 12,
slots 2,3,4,8,9,10,11,12 mapped, the single 3-slot gap at slots 5,6,7. -/
def c7mem : Memory :=
  { bits := 16, page_size := 4096, index_bits := 12,
    pages := [(2, 0), (3, 1), (4, 2), (8, 3), (9, 4), (10, 5), (11, 6), (12, 7)],
    state := ⟨[]⟩ }

/-- Counterexample to C7 as stated: the single 3-slot gap of `c7mem`
starts at slot 5 (slots 5,6,7 are exactly the unmapped in-range slots),
yet `get_unmapped(3, from_end=True)` returns 4, not 5. -/
theorem get_unmapped_gap3_counterexample :
    (∀ s, 2 ≤ s → s ≤ 12 → (c7mem.pages.lookup s = none ↔ (5 ≤ s ∧ s ≤ 7))) ∧
    c7mem.get_unmapped 3 true = 4 ∧ c7mem.get_unmapped 3 true ≠ 5 := by
  refine ⟨by decide, by decide, by decide⟩

/-- Witness for the amended C7: on `c7mem` the theorem yields `5 - 1`. -/
theorem get_unmapped_gap3_from_end_witness : c7mem.get_unmapped 3 true = 5 - 1 :=
  get_unmapped_gap3_from_end c7mem 5 (by decide) (by decide) (by decide) (by decide)

/-! ## `Memory.copy` lemmas (claim C6) -/

/-- The heap holds a COW-marked page object at `oid`. -/
def FlagT (h : Heap) (oid : Nat) : Prop :=
  ∃ pg, h.find oid = some pg ∧ pg.lazycopy = true

theorem copyOp_flagT_self (h : Heap) (oid : Nat) : FlagT (Page.copyOp h oid).1 oid :=
  ⟨_, Heap.find_set_self h oid _, rfl⟩

theorem copyOp_flagT_mono (h : Heap) (oid oid' : Nat) (hf : FlagT h oid) :
    FlagT (Page.copyOp h oid').1 oid := by
  by_cases he : oid = oid'
  · subst he; exact copyOp_flagT_self h oid
  · obtain ⟨pg, hfind, hflag⟩ := hf
    exact ⟨pg, by rw [Page.copyOp, Heap.find_set_ne _ _ _ _ he]; exact hfind, hflag⟩

theorem copyFold_flagT_mono :
    ∀ (l : List (Nat × Nat)) (acc : List (Nat × Nat)) (h : Heap) (oid : Nat),
      FlagT h oid → FlagT (copyFold l acc h).2 oid
  | [], _, _, _, hf => hf
  | kv :: rest, acc, h, oid, hf =>
    copyFold_flagT_mono rest _ _ oid (copyOp_flagT_mono h oid kv.2 hf)

theorem copyFold_flagT_mem :
    ∀ (l : List (Nat × Nat)) (acc : List (Nat × Nat)) (h : Heap) (k oid : Nat),
      (k, oid) ∈ l → FlagT (copyFold l acc h).2 oid
  | kv :: rest, acc, h, k, oid, hmem => by
    rcases List.mem_cons.mp hmem with heq | htail
    · have : kv.2 = oid := by rw [← heq]
      rw [copyFold]
      exact copyFold_flagT_mono rest _ _ oid (this ▸ copyOp_flagT_self h kv.2)
    · exact copyFold_flagT_mem rest _ _ k oid htail

theorem copyFold_pages :
    ∀ (l : List (Nat × Nat)) (acc : List (Nat × Nat)) (h : Heap),
      (copyFold l acc h).1 = acc ++ l
  | [], acc, h => by simp [copyFold]
  | kv :: rest, acc, h => by
    rw [copyFold]
    have h2 : (Page.copyOp h kv.2).2 = kv.2 := rfl
    rw [copyFold_pages rest _ _, h2]
    simp

/-- C6 (amended): `Memory.copy` builds a fresh page table dict, but its
entries are the *same* `Page` objects as the source's (each one
COW-marked); a distinct object appears only when a later store forks a
shared page. -/
theorem memory_copy_shares_page_objects (m : Memory) (h : Heap) (st : SState) :
    (m.copy h st).1.pages = m.pages ∧
    ∀ k oid, (k, oid) ∈ m.pages →
      ∃ pg, (m.copy h st).2.find oid = some pg ∧ pg.lazycopy = true := by
  constructor
  · show (copyFold m.pages [] h).1 = m.pages
    rw [copyFold_pages]; rfl
  · intro k oid hmem
    exact copyFold_flagT_mem m.pages [] h k oid hmem

/-- One-page memory used by the C6 counterexample and witness: its only
page table entry is page object 7. -/
def c6mem : Memory :=
  { bits := 16, page_size := 4096, index_bits := 12, pages := [(0, 7)], state := ⟨[]⟩ }

/-- Heap of the C6 scenario: the single page object with id 7. -/
def c6heap : Heap := ⟨[(7, Page.new 0 4096 12 none)], 8⟩

/-- Counterexample to C6 as stated: after `M2 = M.copy(state2)`, the entry
of `M2`'s page table at key 0 is the very same page object (heap id 7) as
the entry of `M`'s table — `Page.copy` returns `self` — so the two Memory
instances do share a Page object, contradicting "distinct objects". -/
theorem memory_copy_not_distinct_counterexample :
    (c6mem.copy c6heap ⟨[]⟩).1.pages.lookup 0 = some 7 ∧
    c6mem.pages.lookup 0 = some 7 := by
  exact ⟨by decide, by decide⟩

/-- Witness for the amended C6 on the concrete one-page memory. -/
theorem memory_copy_shares_page_objects_witness :
    (c6mem.copy c6heap ⟨[]⟩).1.pages = c6mem.pages ∧
    ∃ pg, (c6mem.copy c6heap ⟨[]⟩).2.find 7 = some pg ∧ pg.lazycopy = true :=
  ⟨(memory_copy_shares_page_objects c6mem c6heap ⟨[]⟩).1,
   (memory_copy_shares_page_objects c6mem c6heap ⟨[]⟩).2 0 7 (by decide)⟩

/-! ## Page-table invariant: every entry's Page has `addr` equal to its key
(claim C5) -/

/-- Page-table/heap coherence: every table entry points at a live page
object whose `addr` field equals the table key. -/
def PagesInv (pages : List (Nat × Nat)) (h : Heap) : Prop :=
  ∀ k oid, (k, oid) ∈ pages → ∃ pg, h.find oid = some pg ∧ pg.addr = k

theorem PagesInv_mono {pages : List (Nat × Nat)} {h h' : Heap}
    (hinv : PagesInv pages h) (hp : AddrPres h h') : PagesInv pages h' := by
  intro k oid hm
  obtain ⟨pg, hf, ha⟩ := hinv k oid hm
  obtain ⟨pg', hf', ha'⟩ := hp oid pg hf
  exact ⟨pg', hf', ha'.trans ha⟩

theorem lazy_init_addr (p : Page) : p.lazy_init.addr = p.addr := by
  cases hp : p.pending <;> simp [Page.lazy_init, hp]

theorem Heap.set_nextId (h : Heap) (oid : Nat) (p : Page) :
    (h.set oid p).nextId = h.nextId := rfl

/-- `Page.store` on the heap keeps every live page's address, keeps the
heap well-formed, and the returned owning page is live with the stored-to
page's address. -/
theorem storeOp_good (h : Heap) (oid : Nat) (idx val : BV) (cond : Option BoolE)
    (pg0 : Page) (hfind : h.find oid = some pg0) (hwf : HeapWF h) :
    HeapWF (Page.storeOp h oid idx val cond).1 ∧
    AddrPres h (Page.storeOp h oid idx val cond).1 ∧
    (∃ pg', (Page.storeOp h oid idx val cond).1.find (Page.storeOp h oid idx val cond).2 =
      some pg' ∧ pg'.addr = pg0.addr) ∧
    h.nextId ≤ (Page.storeOp h oid idx val cond).1.nextId := by
  have hoid : oid < h.nextId := find_lt_nextId h hwf oid pg0 hfind
  simp only [Page.storeOp, hfind, Option.getD_some]
  set p := pg0.lazy_init with hp
  have hpaddr : p.addr = pg0.addr := lazy_init_addr pg0
  have hw1 : HeapWF (h.set oid p) := HeapWF_set h oid p hwf hoid
  have ha1 : AddrPres h (h.set oid p) :=
    AddrPres_set h oid p (fun pg hf => by rw [hfind] at hf; cases hf; exact hpaddr)
  by_cases hlc : p.lazycopy
  · rw [if_pos hlc]
    set h1 := h.set oid p with hh1
    set p' : Page := { p with lazycopy := false } with hp'
    have hw2 : HeapWF (h1.set oid p') := HeapWF_set h1 oid p' hw1 hoid
    have ha2 : AddrPres h1 (h1.set oid p') :=
      AddrPres_set h1 oid p' (fun pg hf => by
        rw [Heap.find_set_self] at hf; cases hf; rfl)
    set h2 := h1.set oid p' with hh2
    set newPage : Page := { Page.new p.addr p.size p.bits none with mo := p.mo.copy }
      with hnp
    have hw3 : HeapWF (h2.alloc newPage).1 := HeapWF_alloc h2 newPage hw2
    have ha3 : AddrPres h2 (h2.alloc newPage).1 := AddrPres_alloc h2 newPage
    set h3 := (h2.alloc newPage).1 with hh3
    set nid := (h2.alloc newPage).2 with hnid
    have hfind3 : h3.find nid = some newPage := find_alloc_self h2 newPage hw2
    have hnidlt : nid < h3.nextId := find_lt_nextId h3 hw3 nid newPage hfind3
    set pfin : Page := { newPage with mo := newPage.mo.store idx val } with hpfin
    have hw4 : HeapWF (h3.set nid pfin) := HeapWF_set h3 nid pfin hw3 hnidlt
    have ha4 : AddrPres h3 (h3.set nid pfin) :=
      AddrPres_set h3 nid pfin (fun pg hf => by rw [hfind3] at hf; cases hf; rfl)
    refine ⟨hw4, ((ha1.trans ha2).trans ha3).trans ha4, ⟨pfin, Heap.find_set_self _ _ _, ?_⟩, ?_⟩
    · show newPage.addr = pg0.addr
      rw [← hpaddr]; rfl
    · show h.nextId ≤ (h3.set nid pfin).nextId
      rw [Heap.set_nextId]
      have e1 : h3.nextId = h2.nextId + 1 := rfl
      have e2 : h2.nextId = h.nextId := rfl
      omega
  · rw [if_neg hlc]
    set pfin : Page := { p with mo := p.mo.store idx val } with hpfin
    have hw2 : HeapWF ((h.set oid p).set oid pfin) := HeapWF_set _ oid pfin hw1 hoid
    have ha2 : AddrPres (h.set oid p) ((h.set oid p).set oid pfin) :=
      AddrPres_set _ oid pfin (fun pg hf => by rw [Heap.find_set_self] at hf; cases hf; rfl)
    exact ⟨hw2, ha1.trans ha2, ⟨pfin, Heap.find_set_self _ _ _, hpaddr⟩, le_refl _⟩

/-- `Page.load` on the heap only materializes the pending blob in place. -/
theorem loadOp_good (h : Heap) (oid : Nat) (idx : BV) (pg0 : Page)
    (hfind : h.find oid = some pg0) (hwf : HeapWF h) :
    HeapWF (Page.loadOp h oid idx).1 ∧ AddrPres h (Page.loadOp h oid idx).1 ∧
    (Page.loadOp h oid idx).1.nextId = h.nextId := by
  have hoid : oid < h.nextId := find_lt_nextId h hwf oid pg0 hfind
  simp only [Page.loadOp, hfind, Option.getD_some]
  exact ⟨HeapWF_set h oid _ hwf hoid,
    AddrPres_set h oid _ (fun pg hf => by rw [hfind] at hf; cases hf; exact lazy_init_addr pg0),
    rfl⟩

/-- `Memory._store` preserves the page-table invariant and heap health. -/
theorem storeByte_good (m : Memory) (h : Heap) (pa : Nat) (pidx val : BV)
    (cond : Option BoolE) (hinv : PagesInv m.pages h) (hwf : HeapWF h) :
    PagesInv (m.storeByte h pa pidx val cond).1.pages (m.storeByte h pa pidx val cond).2 ∧
    HeapWF (m.storeByte h pa pidx val cond).2 ∧
    AddrPres h (m.storeByte h pa pidx val cond).2 ∧
    h.nextId ≤ (m.storeByte h pa pidx val cond).2.nextId := by
  cases hlk : m.pages.lookup pa with
  | none =>
    simp only [Memory.storeByte, hlk]
    exact ⟨hinv, hwf, addrPres_rfl h, le_refl _⟩
  | some oid =>
    obtain ⟨pg0, hfind, haddr⟩ := hinv pa oid (mem_of_lookup _ _ _ hlk)
    obtain ⟨hw, hpres, ⟨pg', hfind', haddr'⟩, hnext⟩ :=
      storeOp_good h oid pidx val cond pg0 hfind hwf
    simp only [Memory.storeByte, hlk]
    refine ⟨?_, hw, hpres, hnext⟩
    intro k oid'' hm
    rcases mem_alset _ _ _ _ _ hm with ⟨hk, ho⟩ | hold
    · subst hk; subst ho
      exact ⟨pg', hfind', haddr'.trans haddr⟩
    · exact PagesInv_mono hinv hpres k oid'' hold

/-- `Memory._load` preserves the page-table invariant and heap health. -/
theorem loadByte_good (m : Memory) (h : Heap) (pa : Nat) (pidx : BV)
    (hinv : PagesInv m.pages h) (hwf : HeapWF h) :
    HeapWF (m.loadByte h pa pidx).1 ∧ AddrPres h (m.loadByte h pa pidx).1 ∧
    h.nextId ≤ (m.loadByte h pa pidx).1.nextId := by
  cases hlk : m.pages.lookup pa with
  | none =>
    simp only [Memory.loadByte, hlk]
    exact ⟨hwf, addrPres_rfl h, le_refl _⟩
  | some oid =>
    obtain ⟨pg0, hfind, _⟩ := hinv pa oid (mem_of_lookup _ _ _ hlk)
    obtain ⟨hw, hpres, hnext⟩ := loadOp_good h oid pidx pg0 hfind hwf
    simp only [Memory.loadByte, hlk]
    exact ⟨hw, hpres, le_of_eq hnext.symm⟩

/-- The `mmap` page-creation loop preserves the invariant: every created
page is `Page.new a ...` stored under key `a`. -/
theorem mmapAux_good (psize ibits : Nat) (initVal : List Nat) :
    ∀ (slots : List Nat) (pages : List (Nat × Nat)) (h : Heap) (initIndex : Option Nat)
      (di df : Nat), PagesInv pages h → HeapWF h →
      PagesInv (mmapAux psize ibits initVal slots pages h initIndex di df).1
        (mmapAux psize ibits initVal slots pages h initIndex di df).2 ∧
      HeapWF (mmapAux psize ibits initVal slots pages h initIndex di df).2 ∧
      AddrPres h (mmapAux psize ibits initVal slots pages h initIndex di df).2
  | [], pages, h, initIndex, di, df, hinv, hwf => ⟨hinv, hwf, addrPres_rfl h⟩
  | a :: rest, pages, h, initIndex, di, df, hinv, hwf => by
    have step : ∀ (init : Option InitData),
        PagesInv (pages ++ [(a, (h.alloc (Page.new a psize ibits init)).2)])
          (h.alloc (Page.new a psize ibits init)).1 ∧
        HeapWF (h.alloc (Page.new a psize ibits init)).1 ∧
        AddrPres h (h.alloc (Page.new a psize ibits init)).1 := by
      intro init
      refine ⟨?_, HeapWF_alloc h _ hwf, AddrPres_alloc h _⟩
      intro k oid hm
      rcases List.mem_append.mp hm with hold | hnew
      · exact PagesInv_mono hinv (AddrPres_alloc h _) k oid hold
      · simp at hnew
        obtain ⟨hk, ho⟩ := hnew
        refine ⟨Page.new a psize ibits init, ?_, ?_⟩
        · rw [ho]; exact find_alloc_self h _ hwf
        · rw [hk]; rfl
    cases initIndex with
    | none =>
      rw [mmapAux]
      by_cases hpresent : (pages.lookup a).isSome
      · rw [if_pos hpresent]
        exact mmapAux_good psize ibits initVal rest pages h none di df hinv hwf
      · rw [if_neg hpresent]
        obtain ⟨hi, hw, hp⟩ := step none
        obtain ⟨hi2, hw2, hp2⟩ :=
          mmapAux_good psize ibits initVal rest _ _ none di df hi hw
        exact ⟨hi2, hw2, hp.trans hp2⟩
    | some idx =>
      rw [mmapAux]
      by_cases hpresent : (pages.lookup a).isSome
      · rw [if_pos hpresent]
        exact mmapAux_good psize ibits initVal rest pages h (some idx) di df hinv hwf
      · rw [if_neg hpresent]
        obtain ⟨hi, hw, hp⟩ := step (some ⟨(initVal.drop di).take (df - di), idx⟩)
        obtain ⟨hi2, hw2, hp2⟩ :=
          mmapAux_good psize ibits initVal rest _ _ (some 0) df (df + psize) hi hw
        exact ⟨hi2, hw2, hp.trans hp2⟩

/-- `Memory.mmap` preserves the page-table invariant and heap health. -/
theorem mmap_good (m : Memory) (h : Heap) (address size : Nat) (init : Option InitData)
    (hinv : PagesInv m.pages h) (hwf : HeapWF h) :
    PagesInv (m.mmap h address size init).1.pages (m.mmap h address size init).2 ∧
    HeapWF (m.mmap h address size init).2 ∧ AddrPres h (m.mmap h address size init).2 := by
  cases init with
  | none => exact mmapAux_good m.page_size m.index_bits [] _ m.pages h none 0 0 hinv hwf
  | some i =>
    exact mmapAux_good m.page_size m.index_bits i.bytes _ m.pages h (some i.index) 0
      (m.page_size - i.index) hinv hwf

theorem heuristicConc_good (cfg : Config) (m : Memory) (h : Heap) (address : BV) (sz : Nat)
    (hinv : PagesInv m.pages h) (hwf : HeapWF h) :
    PagesInv (heuristicConc cfg m h address sz).1.pages (heuristicConc cfg m h address sz).2.1 ∧
    HeapWF (heuristicConc cfg m h address sz).2.1 ∧
    AddrPres h (heuristicConc cfg m h address sz).2.1 := by
  rw [heuristicConc]
  by_cases hc : (cfg.heuristic && symbolic address && cfg.unconQ m.state.constraints address
      && (heuristic_find_base address == -1)) = true
  · rw [if_pos hc]
    exact mmap_good m h _ _ none hinv hwf
  · rw [if_neg hc]
    exact ⟨hinv, hwf, addrPres_rfl h⟩

theorem storeSymTier_good (cfg : Config) (pa pidx bval : BV) :
    ∀ (l : List (Nat × Nat)) (m : Memory) (h : Heap) (conds : List BoolE)
      (paddrs : List Nat), PagesInv m.pages h → HeapWF h →
      PagesInv (storeSymTier cfg pa pidx bval l m h conds paddrs).1.pages
        (storeSymTier cfg pa pidx bval l m h conds paddrs).2.1 ∧
      HeapWF (storeSymTier cfg pa pidx bval l m h conds paddrs).2.1 ∧
      AddrPres h (storeSymTier cfg pa pidx bval l m h conds paddrs).2.1
  | [], m, h, conds, paddrs, hinv, hwf => ⟨hinv, hwf, addrPres_rfl h⟩
  | (p, o) :: rest, m, h, conds, paddrs, hinv, hwf => by
    rw [storeSymTier]
    by_cases hsat : cfg.satQ m.state.constraints (.eqE pa (bvv p pa.width)) = true
    · rw [if_pos hsat]
      obtain ⟨hi, hw, hp, _⟩ :=
        storeByte_good m h p pidx bval
          (some ((BoolE.eqE (bvv p pa.width) pa).zsimp)) hinv hwf
      obtain ⟨hi2, hw2, hp2⟩ := storeSymTier_good cfg pa pidx bval rest _ _ _ _ hi hw
      exact ⟨hi2, hw2, hp.trans hp2⟩
    · rw [if_neg hsat]
      exact storeSymTier_good cfg pa pidx bval rest m h conds paddrs hinv hwf

theorem storeLoop_good (cfg : Config) (address value : BV) (endness : String) (size : Nat) :
    ∀ (l : List Nat) (m : Memory) (h : Heap) (conds : List BoolE) (paddrs : List Nat),
      PagesInv m.pages h → HeapWF h →
      PagesInv (storeLoop cfg address value endness size l m h conds paddrs).1.pages
        (storeLoop cfg address value endness size l m h conds paddrs).2.1 ∧
      HeapWF (storeLoop cfg address value endness size l m h conds paddrs).2.1 ∧
      AddrPres h (storeLoop cfg address value endness size l m h conds paddrs).2.1
  | [], m, h, conds, paddrs, hinv, hwf => ⟨hinv, hwf, addrPres_rfl h⟩
  | i :: rest, m, h, conds, paddrs, hinv, hwf => by
    rw [storeLoop]
    have stGood : ∀ (st : Memory × Heap × List BoolE × List Nat),
        PagesInv st.1.pages st.2.1 → HeapWF st.2.1 → AddrPres h st.2.1 →
        PagesInv (storeLoop cfg address value endness size rest
            (if st.2.2.1 ≠ [] then
              { st.1 with state := ⟨st.1.state.constraints ++ [(zOr st.2.2.1).zsimp]⟩ }
             else st.1) st.2.1 st.2.2.1 st.2.2.2).1.pages
          (storeLoop cfg address value endness size rest
            (if st.2.2.1 ≠ [] then
              { st.1 with state := ⟨st.1.state.constraints ++ [(zOr st.2.2.1).zsimp]⟩ }
             else st.1) st.2.1 st.2.2.1 st.2.2.2).2.1 ∧
        HeapWF (storeLoop cfg address value endness size rest
            (if st.2.2.1 ≠ [] then
              { st.1 with state := ⟨st.1.state.constraints ++ [(zOr st.2.2.1).zsimp]⟩ }
             else st.1) st.2.1 st.2.2.1 st.2.2.2).2.1 ∧
        AddrPres h (storeLoop cfg address value endness size rest
            (if st.2.2.1 ≠ [] then
              { st.1 with state := ⟨st.1.state.constraints ++ [(zOr st.2.2.1).zsimp]⟩ }
             else st.1) st.2.1 st.2.2.1 st.2.2.2).2.1 := by
      intro st hi hw hp
      have hi' : PagesInv (if st.2.2.1 ≠ [] then
          { st.1 with state := ⟨st.1.state.constraints ++ [(zOr st.2.2.1).zsimp]⟩ }
         else st.1).pages st.2.1 := by
        by_cases hc : st.2.2.1 ≠ []
        · rw [if_pos hc]; exact hi
        · rw [if_neg hc]; exact hi
      obtain ⟨hi2, hw2, hp2⟩ :=
        storeLoop_good cfg address value endness size rest _ st.2.1 st.2.2.1 st.2.2.2 hi' hw
      exact ⟨hi2, hw2, hp.trans hp2⟩
    by_cases h1 : symbolic (if endness = "little" then
        split_bv (.add address (.lit m.bits i)) m.index_bits
      else
        split_bv (.sub (.sub (.add address (.lit m.bits (size / 8))) (.lit m.bits i))
          (.lit m.bits 1)) m.index_bits).1 = false
    · rw [if_pos h1]
      obtain ⟨hi, hw, hp, _⟩ := storeByte_good m h _ _ _ none hinv hwf
      exact stGood _ hi hw hp
    · rw [if_neg h1]
      by_cases h2 : cfg.symbQ m.state.constraints (if endness = "little" then
          split_bv (.add address (.lit m.bits i)) m.index_bits
        else
          split_bv (.sub (.sub (.add address (.lit m.bits (size / 8))) (.lit m.bits i))
            (.lit m.bits 1)) m.index_bits).1 = false
      · rw [if_pos h2]
        obtain ⟨hi, hw, hp, _⟩ := storeByte_good m h _ _ _ none hinv hwf
        exact stGood _ hi hw hp
      · rw [if_neg h2]
        obtain ⟨hi, hw, hp⟩ := storeSymTier_good cfg _ _ _ m.pages m h [] paddrs hinv hwf
        exact stGood _ hi hw hp

/-- A fold of per-page no-op simplifications keeps the heap healthy. -/
theorem foldl_heap_good {β : Type} (step : Heap → β → Heap)
    (hstep : ∀ h b, HeapWF h → HeapWF (step h b) ∧ AddrPres h (step h b)) :
    ∀ (l : List β) (h : Heap), HeapWF h →
      HeapWF (l.foldl step h) ∧ AddrPres h (l.foldl step h)
  | [], h, hwf => ⟨hwf, addrPres_rfl h⟩
  | b :: rest, h, hwf => by
    rw [List.foldl_cons]
    obtain ⟨hw1, hp1⟩ := hstep h b hwf
    obtain ⟨hw2, hp2⟩ := foldl_heap_good step hstep rest (step h b) hw1
    exact ⟨hw2, hp1.trans hp2⟩

/-- The per-page simplification pass keeps the heap healthy. -/
theorem simplifyStep_good (pages : List (Nat × Nat)) (h : Heap) (p : Nat)
    (hwf : HeapWF h) :
    HeapWF (simplifyStep pages h p) ∧ AddrPres h (simplifyStep pages h p) := by
  rw [simplifyStep]
  cases hf : h.find ((pages.lookup p).getD 0) with
  | none => simp only [hf]; exact ⟨hwf, addrPres_rfl h⟩
  | some pg =>
    simp only [hf]
    exact ⟨HeapWF_set h _ _ hwf (find_lt_nextId h hwf _ pg hf),
      AddrPres_set h _ _ (fun pg' hf' => by rw [hf] at hf'; cases hf'; rfl)⟩

/-- `Memory.store` preserves the page-table invariant and heap health. -/
theorem store_good (cfg : Config) (m : Memory) (h : Heap) (address value : BV)
    (endness : String) (hinv : PagesInv m.pages h) (hwf : HeapWF h) :
    PagesInv (Memory.store cfg m h address value endness).1.pages
      (Memory.store cfg m h address value endness).2 ∧
    HeapWF (Memory.store cfg m h address value endness).2 ∧
    AddrPres h (Memory.store cfg m h address value endness).2 := by
  rw [Memory.store]
  obtain ⟨hi1, hw1, hp1⟩ := heuristicConc_good cfg m h address value.width hinv hwf
  obtain ⟨hi2, hw2, hp2⟩ := storeLoop_good cfg _ value endness value.width _ _ _ [] [] hi1 hw1
  obtain ⟨hw3, hp3⟩ := foldl_heap_good _ (simplifyStep_good _) _ _ hw2
  exact ⟨PagesInv_mono hi2 hp3, hw3, (hp1.trans hp2).trans hp3⟩

theorem loadSymTier_good (cfg : Config) (cs : List BoolE) (pa pidx : BV) :
    ∀ (l : List (Nat × Nat)) (m : Memory) (h : Heap) (res : Option BV)
      (conds : List BoolE), PagesInv m.pages h → HeapWF h →
      HeapWF (loadSymTier cfg cs pa pidx l m h res conds).1 ∧
      AddrPres h (loadSymTier cfg cs pa pidx l m h res conds).1
  | [], m, h, res, conds, _, hwf => ⟨hwf, addrPres_rfl h⟩
  | (p, o) :: rest, m, h, res, conds, hinv, hwf => by
    rw [loadSymTier]
    by_cases hsat : cfg.satQ cs (.eqE pa (bvv p pa.width)) = true
    · rw [if_pos hsat]
      obtain ⟨hw1, hp1, _⟩ := loadByte_good m h p pidx hinv hwf
      obtain ⟨hw2, hp2⟩ := loadSymTier_good cfg cs pa pidx rest m _ _ _
        (PagesInv_mono hinv hp1) hw1
      exact ⟨hw2, hp1.trans hp2⟩
    · rw [if_neg hsat]
      exact loadSymTier_good cfg cs pa pidx rest m h res conds hinv hwf

theorem loadLoop_good (cfg : Config) (address : BV) :
    ∀ (l : List Nat) (m : Memory) (h : Heap) (res : Option BV) (conds : List BoolE),
      PagesInv m.pages h → HeapWF h →
      PagesInv (loadLoop cfg address l m h res conds).1.pages
        (loadLoop cfg address l m h res conds).2.1 ∧
      HeapWF (loadLoop cfg address l m h res conds).2.1 ∧
      AddrPres h (loadLoop cfg address l m h res conds).2.1
  | [], m, h, res, conds, hinv, hwf => ⟨hinv, hwf, addrPres_rfl h⟩
  | i :: rest, m, h, res, conds, hinv, hwf => by
    rw [loadLoop]
    by_cases h1 :
        symbolic (split_bv (.add address (.lit m.bits i)) m.index_bits).1 = false
    · rw [if_pos h1]
      obtain ⟨hw1, hp1, _⟩ := loadByte_good m h _ _ hinv hwf
      obtain ⟨hi2, hw2, hp2⟩ := loadLoop_good cfg address rest m _ _ _
        (PagesInv_mono hinv hp1) hw1
      exact ⟨hi2, hw2, hp1.trans hp2⟩
    · rw [if_neg h1]
      by_cases h2 : cfg.symbQ m.state.constraints
          (split_bv (.add address (.lit m.bits i)) m.index_bits).1 = false
      · rw [if_pos h2]
        obtain ⟨hw1, hp1, _⟩ := loadByte_good m h _ _ hinv hwf
        obtain ⟨hi2, hw2, hp2⟩ := loadLoop_good cfg address rest m _ _ _
          (PagesInv_mono hinv hp1) hw1
        exact ⟨hi2, hw2, hp1.trans hp2⟩
      · rw [if_neg h2]
        obtain ⟨hw1, hp1⟩ := loadSymTier_good cfg m.state.constraints _ _ m.pages m h res []
          hinv hwf
        obtain ⟨hi2, hw2, hp2⟩ := loadLoop_good cfg address rest m _ _ _
          (PagesInv_mono hinv hp1) hw1
        exact ⟨hi2, hw2, hp1.trans hp2⟩

/-- The load tail never alters the page table or the heap it is given. -/
theorem loadFinish_pages_heap (size : Nat) (m : Memory) (h : Heap) (fringe : Fringe)
    (conds : List BoolE) (res : Option BV) :
    (loadFinish size m h fringe conds res).2.1.pages = m.pages ∧
    (loadFinish size m h fringe conds res).2.2.1 = h := by
  cases res with
  | none =>
    rw [loadFinish]
    by_cases hc : conds ≠ []
    · rw [if_pos hc]; exact ⟨rfl, rfl⟩
    · rw [if_neg hc]; exact ⟨rfl, rfl⟩
  | some rv =>
    rw [loadFinish]
    by_cases hw : rv.width / 8 = size
    · rw [if_pos hw]
      by_cases hc : conds ≠ []
      · rw [if_pos hc]; exact ⟨rfl, rfl⟩
      · rw [if_neg hc]; exact ⟨rfl, rfl⟩
    · rw [if_neg hw]
      by_cases hc : conds ≠ []
      · rw [if_pos hc]; exact ⟨rfl, rfl⟩
      · rw [if_neg hc]; exact ⟨rfl, rfl⟩

/-- `Memory.load` preserves the page-table invariant and heap health. -/
theorem load_good (cfg : Config) (m : Memory) (h : Heap) (fringe : Fringe) (address : BV)
    (size : Nat) (endness : String) (hinv : PagesInv m.pages h) (hwf : HeapWF h) :
    PagesInv (Memory.load cfg m h fringe address size endness).2.1.pages
      (Memory.load cfg m h fringe address size endness).2.2.1 ∧
    HeapWF (Memory.load cfg m h fringe address size endness).2.2.1 ∧
    AddrPres h (Memory.load cfg m h fringe address size endness).2.2.1 := by
  rw [Memory.load]
  obtain ⟨hi1, hw1, hp1⟩ := heuristicConc_good cfg m h address size hinv hwf
  obtain ⟨hi2, hw2, hp2⟩ := loadLoop_good cfg _ _ _ _ none [] hi1 hw1
  obtain ⟨hpg, hhp⟩ := loadFinish_pages_heap size _ _ fringe _ _
  rw [hpg, hhp]
  exact ⟨hi2, hw2, hp1.trans hp2⟩

theorem copyFold_good :
    ∀ (l : List (Nat × Nat)) (acc : List (Nat × Nat)) (h : Heap),
      (∀ k oid, (k, oid) ∈ l → ∃ pg, h.find oid = some pg ∧ pg.addr = k) → HeapWF h →
      HeapWF (copyFold l acc h).2 ∧ AddrPres h (copyFold l acc h).2
  | [], acc, h, _, hwf => ⟨hwf, addrPres_rfl h⟩
  | kv :: rest, acc, h, hinv, hwf => by
    obtain ⟨pg, hfind, haddr⟩ := hinv kv.1 kv.2 (by
      have : (kv.1, kv.2) = kv := rfl
      rw [this]; exact List.mem_cons_self _ _)
    have hlt : kv.2 < h.nextId := find_lt_nextId h hwf kv.2 pg hfind
    rw [copyFold]
    have hcop : Page.copyOp h kv.2 =
        (h.set kv.2 { (h.find kv.2).getD dummyPage with lazycopy := true }, kv.2) := rfl
    have hw1 : HeapWF (Page.copyOp h kv.2).1 := by
      rw [hcop]; exact HeapWF_set h kv.2 _ hwf hlt
    have hp1 : AddrPres h (Page.copyOp h kv.2).1 := by
      rw [hcop]
      exact AddrPres_set h kv.2 _ (fun pg' hf' => by
        rw [hfind] at hf'; cases hf'; rw [hfind]; rfl)
    obtain ⟨hw2, hp2⟩ := copyFold_good rest (acc ++ [(kv.1, (Page.copyOp h kv.2).2)])
      (Page.copyOp h kv.2).1
      (fun k oid hm => by
        obtain ⟨pg', hf', ha'⟩ := hinv k oid (List.mem_cons_of_mem _ hm)
        obtain ⟨pg'', hf'', ha''⟩ := hp1 oid pg' hf'
        exact ⟨pg'', hf'', ha''.trans ha'⟩) hw1
    exact ⟨hw2, hp1.trans hp2⟩

/-- `Memory.copy` preserves the page-table invariant and heap health, for
both the source and the copy. -/
theorem copy_good (m : Memory) (h : Heap) (st : SState) (hinv : PagesInv m.pages h)
    (hwf : HeapWF h) :
    PagesInv (m.copy h st).1.pages (m.copy h st).2 ∧ HeapWF (m.copy h st).2 ∧
    AddrPres h (m.copy h st).2 := by
  obtain ⟨hw, hp⟩ := copyFold_good m.pages [] h hinv hwf
  refine ⟨?_, hw, hp⟩
  have hpg : (m.copy h st).1.pages = m.pages := by
    show (copyFold m.pages [] h).1 = m.pages
    rw [copyFold_pages]
    rfl
  rw [hpg]
  exact PagesInv_mono hinv hp

/-! ## Operation sequences over the live Memory instances (claim C5) -/

/-- One Memory operation of the public surface, addressed to the `mi`-th
live memory instance. -/
inductive MemOp where
  | mmapO (mi address size : Nat) (init : Option InitData)
  | storeO (mi : Nat) (address value : BV) (endness : String)
  | loadO (mi : Nat) (address : BV) (size : Nat) (endness : String)
  | copyO (mi : Nat) (st : SState)

/-- All live Memory instances with the shared page heap and the executor's
errored fringe. -/
structure Sys where
  mems : List Memory
  heap : Heap
  fringe : Fringe

/-- Execute one operation (an out-of-range memory index is a no-op). -/
def Sys.exec (cfg : Config) (s : Sys) : MemOp → Sys
  | .mmapO mi address size init =>
    match s.mems.get? mi with
    | none => s
    | some m =>
      let r := m.mmap s.heap address size init
      { s with mems := s.mems.set mi r.1, heap := r.2 }
  | .storeO mi address value endness =>
    match s.mems.get? mi with
    | none => s
    | some m =>
      let r := Memory.store cfg m s.heap address value endness
      { s with mems := s.mems.set mi r.1, heap := r.2 }
  | .loadO mi address size endness =>
    match s.mems.get? mi with
    | none => s
    | some m =>
      let r := Memory.load cfg m s.heap s.fringe address size endness
      { mems := s.mems.set mi r.2.1, heap := r.2.2.1, fringe := r.2.2.2 }
  | .copyO mi st =>
    match s.mems.get? mi with
    | none => s
    | some m =>
      let r := m.copy s.heap st
      { s with mems := s.mems ++ [r.1], heap := r.2 }

/-- System invariant: heap well-formed, and every live memory's page table
coherent with the heap — in particular every entry's Page has `addr`
equal to its table key. -/
def SysInv (s : Sys) : Prop :=
  HeapWF s.heap ∧ ∀ m ∈ s.mems, PagesInv m.pages s.heap

theorem exec_sysInv (cfg : Config) (s : Sys) (op : MemOp) (hs : SysInv s) :
    SysInv (s.exec cfg op) := by
  obtain ⟨hwf, hall⟩ := hs
  cases op with
  | mmapO mi address size init =>
    rw [Sys.exec]
    cases hg : s.mems.get? mi with
    | none => exact ⟨hwf, hall⟩
    | some m =>
      obtain ⟨hi, hw, hp⟩ := mmap_good m s.heap address size init
        (hall m (List.get?_mem hg)) hwf
      refine ⟨hw, ?_⟩
      intro m' hm'
      rcases List.mem_or_eq_of_mem_set hm' with hmem | heq
      · exact PagesInv_mono (hall m' hmem) hp
      · rw [heq]; exact hi
  | storeO mi address value endness =>
    rw [Sys.exec]
    cases hg : s.mems.get? mi with
    | none => exact ⟨hwf, hall⟩
    | some m =>
      obtain ⟨hi, hw, hp⟩ := store_good cfg m s.heap address value endness
        (hall m (List.get?_mem hg)) hwf
      refine ⟨hw, ?_⟩
      intro m' hm'
      rcases List.mem_or_eq_of_mem_set hm' with hmem | heq
      · exact PagesInv_mono (hall m' hmem) hp
      · rw [heq]; exact hi
  | loadO mi address size endness =>
    rw [Sys.exec]
    cases hg : s.mems.get? mi with
    | none => exact ⟨hwf, hall⟩
    | some m =>
      obtain ⟨hi, hw, hp⟩ := load_good cfg m s.heap s.fringe address size endness
        (hall m (List.get?_mem hg)) hwf
      refine ⟨hw, ?_⟩
      intro m' hm'
      rcases List.mem_or_eq_of_mem_set hm' with hmem | heq
      · exact PagesInv_mono (hall m' hmem) hp
      · rw [heq]; exact hi
  | copyO mi st =>
    rw [Sys.exec]
    cases hg : s.mems.get? mi with
    | none => exact ⟨hwf, hall⟩
    | some m =>
      obtain ⟨hi, hw, hp⟩ := copy_good m s.heap st (hall m (List.get?_mem hg)) hwf
      refine ⟨hw, ?_⟩
      intro m' hm'
      rcases List.mem_append.mp hm' with hmem | heq
      · exact PagesInv_mono (hall m' hmem) hp
      · simp at heq
        rw [heq]
        exact hi

/-- C5 (amended): after any sequence of Memory operations (mmap, store,
load, copy) from a well-formed system, every page-table entry of every
live Memory (the originals and every copy) maps its key to a live Page
object whose `addr` field equals the key.  Keys are page slot *indices*
(byte address divided by page size), so they are in general not divisible
by `page_size` — see the counterexample. -/
theorem exec_ops_page_table_inv (cfg : Config) (ops : List MemOp) (s : Sys)
    (hs : SysInv s) : SysInv (ops.foldl (Sys.exec cfg) s) := by
  induction ops generalizing s with
  | nil => exact hs
  | cons op rest ih =>
    rw [List.foldl_cons]
    exact ih _ (exec_sysInv cfg s op hs)

/-! ## Claim C9: symbolic load with no consistent mapped page -/

/-- With the heuristic guard false, the concretization step is a no-op. -/
theorem heuristicConc_off (cfg : Config) (m : Memory) (h : Heap) (address : BV) (sz : Nat)
    (hg : (cfg.heuristic && symbolic address && cfg.unconQ m.state.constraints address
      && (heuristic_find_base address == -1)) = false) :
    heuristicConc cfg m h address sz = (m, h, address) := by
  rw [heuristicConc, if_neg]
  simp [hg]

/-- When no mapped page is satisfiable, the symbolic load tier changes
nothing: no byte is read, no condition is recorded. -/
theorem loadSymTier_nosat (cfg : Config) (cs : List BoolE) (pa pidx : BV) :
    ∀ (l : List (Nat × Nat)) (m : Memory) (h : Heap) (res : Option BV)
      (conds : List BoolE),
      (∀ kv ∈ l, cfg.satQ cs (.eqE pa (bvv kv.1 pa.width)) = false) →
      loadSymTier cfg cs pa pidx l m h res conds = (h, res, conds)
  | [], m, h, res, conds, _ => rfl
  | (p, o) :: rest, m, h, res, conds, hno => by
    rw [loadSymTier, if_neg]
    · exact loadSymTier_nosat cfg cs pa pidx rest m h res conds
        (fun kv hm => hno kv (List.mem_cons_of_mem _ hm))
    · simp [hno (p, o) (List.mem_cons_self _ _)]

/-- When every byte of the loop takes the genuinely-symbolic tier and no
mapped page is satisfiable, the load loop is the identity on its
accumulators: the result stays empty. -/
theorem loadLoop_allsym_nosat (cfg : Config) (address : BV) :
    ∀ (l : List Nat) (m : Memory) (h : Heap) (res : Option BV),
      (∀ i ∈ l,
        symbolic (split_bv (.add address (.lit m.bits i)) m.index_bits).1 = true ∧
        cfg.symbQ m.state.constraints
          (split_bv (.add address (.lit m.bits i)) m.index_bits).1 = true ∧
        ∀ kv ∈ m.pages, cfg.satQ m.state.constraints
          (.eqE (split_bv (.add address (.lit m.bits i)) m.index_bits).1
            (bvv kv.1 (split_bv (.add address (.lit m.bits i)) m.index_bits).1.width)) =
          false) →
      loadLoop cfg address l m h res [] = (m, h, res, [])
  | [], m, h, res, _ => rfl
  | i :: rest, m, h, res, hall => by
    obtain ⟨hsym, hsq, hsat⟩ := hall i (List.mem_cons_self _ _)
    rw [loadLoop, if_neg (by simp [hsym]), if_neg (by simp [hsq]),
      loadSymTier_nosat cfg m.state.constraints _ _ m.pages m h res [] hsat]
    exact loadLoop_allsym_nosat cfg address rest m h res
      (fun j hj => hall j (List.mem_cons_of_mem _ hj))

/-- C9: when the heuristic concretization does not fire, every byte takes
the genuinely-symbolic tier, and no mapped page makes `page_address == p`
satisfiable, `Memory.load` returns no value: the result accumulator is
still empty at the final width check (a fatal error), no errored state is
reported, and memory, heap and constraints are untouched. -/
theorem load_no_consistent_page_fatal (cfg : Config) (m : Memory) (h : Heap)
    (fringe : Fringe) (address : BV) (size : Nat) (endness : String)
    (hheur : (cfg.heuristic && symbolic address && cfg.unconQ m.state.constraints address
      && (heuristic_find_base address == -1)) = false)
    (hbytes : ∀ i < size,
      symbolic (split_bv (.add address (.lit m.bits i)) m.index_bits).1 = true ∧
      cfg.symbQ m.state.constraints
        (split_bv (.add address (.lit m.bits i)) m.index_bits).1 = true ∧
      ∀ kv ∈ m.pages, cfg.satQ m.state.constraints
        (.eqE (split_bv (.add address (.lit m.bits i)) m.index_bits).1
          (bvv kv.1 (split_bv (.add address (.lit m.bits i)) m.index_bits).1.width)) =
        false) :
    Memory.load cfg m h fringe address size endness =
      (.error .noneRes, m, h, fringe) := by
  rw [Memory.load, heuristicConc_off cfg m h address size hheur]
  have hran : ∀ i ∈ (if endness = "little" then (List.range size).reverse
      else List.range size), i < size := by
    intro i hi
    by_cases he : endness = "little"
    · rw [if_pos he] at hi
      exact List.mem_range.mp (List.mem_reverse.mp hi)
    · rw [if_neg he] at hi
      exact List.mem_range.mp hi
  rw [show loadLoop cfg (m, h, address).2.2
      (if endness = "little" then (List.range size).reverse else List.range size)
      (m, h, address).1 (m, h, address).2.1 none [] = (m, h, (none : Option BV), []) from
    loadLoop_allsym_nosat cfg address _ m h none
      (fun i hi => hbytes i (hran i hi))]
  rfl

/-- Single-page memory with a symbolic 16-bit address used by the C9
witness: the oracle reports the address as path-symbolic but never equal
to the mapped page. -/
def c9cfg : Config :=
  { heuristic := false, satQ := fun _ _ => false, symbQ := fun _ _ => true,
    evalLongQ := fun _ _ => 0, unconQ := fun _ _ => false }

/-- Heap of the C9 witness: the single page object mapped at slot 2. -/
def c9heap : Heap := ⟨[(0, Page.new 2 4096 12 none)], 1⟩

/-- Witness for C9 on a concrete one-page memory and variable address. -/
theorem load_no_consistent_page_fatal_witness :
    Memory.load c9cfg
      ({ bits := 16, page_size := 4096, index_bits := 12, pages := [(2, 0)],
         state := ⟨[]⟩ } : Memory) c9heap [] (.var "x" 16) 1 "big" =
      (.error .noneRes,
       ({ bits := 16, page_size := 4096, index_bits := 12, pages := [(2, 0)],
          state := ⟨[]⟩ } : Memory), c9heap, []) :=
  load_no_consistent_page_fatal c9cfg _ c9heap [] (.var "x" 16) 1 "big" (by decide)
    (by decide)

/-! ## Claim C3: the symbolic store tier drops its guard condition -/

/-- Oracle for the C3 run: the address is genuinely symbolic and equality
with every mapped page is satisfiable. -/
def c3cfg : Config :=
  { heuristic := false, satQ := fun _ _ => true, symbQ := fun _ _ => true,
    evalLongQ := fun _ _ => 0, unconQ := fun _ _ => false }

/-- Two-page memory for the C3 run: slots 2 and 3 mapped, the path
constraint pinning the symbolic address `x` to one of the two page bases. -/
def c3mem : Memory :=
  { bits := 16, page_size := 4096, index_bits := 12, pages := [(2, 0), (3, 1)],
    state := ⟨[.orE (.eqE (.var "x" 16) (.lit 16 0x2000))
                   (.eqE (.var "x" 16) (.lit 16 0x3000))]⟩ }

/-- Heap for the C3 run: page 3's byte store holds 0xAA at offset 0. -/
def c3heap : Heap :=
  ⟨[(0, Page.new 2 4096 12 none),
    (1, { Page.new 3 4096 12 none with mo := ⟨"3", 12, [(.lit 12 0, .lit 8 0xAA)]⟩ })], 2⟩

/-- C3 (the code, evaluated at the failing input): storing the byte 0x55
through the symbolic address `x` (constrained to page 2's or page 3's
base) overwrites page 3's content *unconditionally*.  Under the assignment
`x = 0x2000` — where the guard `page_address == 3` is false, so the claim
requires page 3's prior byte 0xAA to be preserved — page 3's byte store
now yields 0x55: `Page.store` received the equality condition but dropped
it. -/
theorem store_condition_dropped_bug :
    ((fun σ0 =>
      ((c3heap.find 1).map (fun pg => evalBV σ0 (pg.mo.load (.lit 12 0))) = some 0xAA) ∧
      (evalBV σ0 (.var "x" 16) = 0x2000) ∧
      (evalB σ0 (.eqE (.lit 4 3)
        (split_bv (.sub (.sub (.add (.var "x" 16) (.lit 16 1)) (.lit 16 0)) (.lit 16 1))
          12).1) = false) ∧
      ((Memory.store c3cfg c3mem c3heap (.var "x" 16) (.lit 8 0x55) "big").1.pages.lookup 3 =
        some 1) ∧
      (((Memory.store c3cfg c3mem c3heap (.var "x" 16) (.lit 8 0x55) "big").2.find 1).map
        (fun pg => evalBV σ0 (pg.mo.load (.lit 12 0))) = some 0x55))
      (fun _ => 0x2000)) := by
  refine ⟨by decide, by decide, by decide, by decide, by decide⟩

/-! ## Claim C4: ambiguous symbolic load over two mapped pages -/

/-- A byte store whose stored values are all 8 bits wide (`Memory._store`
asserts exactly this on every write). -/
def MoBytes (mo : MemoryObj) : Prop := ∀ e ∈ mo.entries, (e.2 : BV).width = 8

theorem moLoadGo_width (idx : BV) :
    ∀ (entries : List (BV × BV)), (∀ e ∈ entries, (e.2 : BV).width = 8) →
      (moLoadGo idx entries).width = 8
  | [], _ => rfl
  | e :: rest, hmb => by
    rw [moLoadGo]
    exact hmb e (List.mem_cons_self _ _)

theorem moLoad_width (mo : MemoryObj) (idx : BV) (hmb : MoBytes mo) :
    (mo.load idx).width = 8 := moLoadGo_width idx mo.entries hmb

theorem MoBytes_store_byte (mo : MemoryObj) (idx : BV) (b : Nat)
    (hmb : MoBytes mo) : MoBytes (mo.store idx (.lit 8 b)) := by
  intro e hm
  rcases List.mem_cons.mp hm with he | ht
  · rw [he]; rfl
  · exact hmb e ht

theorem MoBytes_foldl_store (start : BV) (bits : Nat) :
    ∀ (l : List (Nat × Nat)) (mo : MemoryObj), MoBytes mo →
      MoBytes (l.foldl
        (fun mo iv => mo.store (.add start (.lit bits iv.1)) (.lit 8 iv.2)) mo)
  | [], mo, hmb => hmb
  | iv :: rest, mo, hmb => by
    rw [List.foldl_cons]
    exact MoBytes_foldl_store start bits rest _ (MoBytes_store_byte mo _ iv.2 hmb)

theorem MoBytes_lazy_init (p : Page) (hmb : MoBytes p.mo) : MoBytes p.lazy_init.mo := by
  cases hp : p.pending with
  | none => rw [Page.lazy_init, hp]; exact hmb
  | some init =>
    rw [Page.lazy_init, hp]
    exact MoBytes_foldl_store (bvv init.index p.bits) p.bits init.bytes.enum p.mo hmb

/-- `Memory._load` on a mapped page with a live page object. -/
theorem loadByte_eq (m : Memory) (h : Heap) (pa : Nat) (pidx : BV) (oid : Nat) (pg : Page)
    (hlk : m.pages.lookup pa = some oid) (hfind : h.find oid = some pg) :
    m.loadByte h pa pidx = (h.set oid pg.lazy_init, pg.lazy_init.mo.load pidx) := by
  simp only [Memory.loadByte, hlk, Page.loadOp, hfind, Option.getD_some]

/-- The symbolic load tier over exactly two satisfiable pages: both bytes
are read, the result is the conditional select, and the two equality
conditions are recorded in page-table order. -/
theorem loadSymTier_two (cfg : Config) (cs : List BoolE) (pa pidx : BV)
    (p1 o1 p2 o2 : Nat) (m : Memory) (h : Heap) (pg1 pg2 : Page)
    (hpages : m.pages = [(p1, o1), (p2, o2)]) (hne : p1 ≠ p2) (hone : o1 ≠ o2)
    (hfind1 : h.find o1 = some pg1) (hfind2 : h.find o2 = some pg2)
    (hsat1 : cfg.satQ cs (.eqE pa (bvv p1 pa.width)) = true)
    (hsat2 : cfg.satQ cs (.eqE pa (bvv p2 pa.width)) = true) :
    loadSymTier cfg cs pa pidx [(p1, o1), (p2, o2)] m h none [] =
      ((h.set o1 pg1.lazy_init).set o2 pg2.lazy_init,
       some (.ite ((BoolE.eqE (bvv p2 pa.width) pa).zsimp)
         (pg2.lazy_init.mo.load pidx) (pg1.lazy_init.mo.load pidx)),
       [(BoolE.eqE (bvv p1 pa.width) pa).zsimp, (BoolE.eqE (bvv p2 pa.width) pa).zsimp]) := by
  have hlk1 : m.pages.lookup p1 = some o1 := by
    rw [hpages]; exact lookup_cons_self _ _ _
  have hlk2 : m.pages.lookup p2 = some o2 := by
    rw [hpages, lookup_cons_ne _ _ _ _ (fun he => hne he.symm)]
    exact lookup_cons_self _ _ _
  have hfind2' : (h.set o1 pg1.lazy_init).find o2 = some pg2 := by
    rw [Heap.find_set_ne _ _ _ _ (fun he => hone he.symm)]
    exact hfind2
  rw [loadSymTier, if_pos hsat1, loadByte_eq m h p1 pidx o1 pg1 hlk1 hfind1]
  rw [loadSymTier, if_pos hsat2,
    loadByte_eq m (h.set o1 pg1.lazy_init) p2 pidx o2 pg2 hlk2 hfind2']
  rfl

/-- C4: a symbolic load over a memory with exactly two mapped pages, both
consistent with the path constraints, (a) returns the conditional value
selecting the second page's byte under `page_address == p2` and the first
page's byte otherwise, (b) appends exactly one errored-state report — the
forked state constrained to the negation of the disjunction, tagged
`"read unmapped"` — and (c) appends the disjunction of the page
equalities to the original state's constraints. -/
theorem load_ambiguous_two_pages (cfg : Config) (m : Memory) (h : Heap) (fringe : Fringe)
    (address : BV) (p1 o1 p2 o2 : Nat) (pg1 pg2 : Page)
    (hpages : m.pages = [(p1, o1), (p2, o2)]) (hne : p1 ≠ p2) (hone : o1 ≠ o2)
    (hfind1 : h.find o1 = some pg1) (hfind2 : h.find o2 = some pg2)
    (hmb2 : MoBytes pg2.mo)
    (hheur : (cfg.heuristic && symbolic address && cfg.unconQ m.state.constraints address
      && (heuristic_find_base address == -1)) = false)
    (hsym : symbolic (split_bv (.add address (.lit m.bits 0)) m.index_bits).1 = true)
    (hsq : cfg.symbQ m.state.constraints
      (split_bv (.add address (.lit m.bits 0)) m.index_bits).1 = true)
    (hsat1 : cfg.satQ m.state.constraints
      (.eqE (split_bv (.add address (.lit m.bits 0)) m.index_bits).1
        (bvv p1 (split_bv (.add address (.lit m.bits 0)) m.index_bits).1.width)) = true)
    (hsat2 : cfg.satQ m.state.constraints
      (.eqE (split_bv (.add address (.lit m.bits 0)) m.index_bits).1
        (bvv p2 (split_bv (.add address (.lit m.bits 0)) m.index_bits).1.width)) = true) :
    (Memory.load cfg m h fringe address 1 "big").1 =
      .ok ((BV.ite
        ((BoolE.eqE (bvv p2 (split_bv (.add address (.lit m.bits 0)) m.index_bits).1.width)
          (split_bv (.add address (.lit m.bits 0)) m.index_bits).1).zsimp)
        (pg2.lazy_init.mo.load (split_bv (.add address (.lit m.bits 0)) m.index_bits).2)
        (pg1.lazy_init.mo.load (split_bv (.add address (.lit m.bits 0)) m.index_bits).2)).zsimp) ∧
    (Memory.load cfg m h fringe address 1 "big").2.2.2 =
      fringe ++ [((⟨m.state.constraints ++
        [(BoolE.notE (zOr
          [(BoolE.eqE (bvv p1 (split_bv (.add address (.lit m.bits 0)) m.index_bits).1.width)
            (split_bv (.add address (.lit m.bits 0)) m.index_bits).1).zsimp,
           (BoolE.eqE (bvv p2 (split_bv (.add address (.lit m.bits 0)) m.index_bits).1.width)
            (split_bv (.add address (.lit m.bits 0)) m.index_bits).1).zsimp])).zsimp]⟩ : SState),
        "read unmapped")] ∧
    (Memory.load cfg m h fringe address 1 "big").2.1.state.constraints =
      m.state.constraints ++ [(zOr
        [(BoolE.eqE (bvv p1 (split_bv (.add address (.lit m.bits 0)) m.index_bits).1.width)
          (split_bv (.add address (.lit m.bits 0)) m.index_bits).1).zsimp,
         (BoolE.eqE (bvv p2 (split_bv (.add address (.lit m.bits 0)) m.index_bits).1.width)
          (split_bv (.add address (.lit m.bits 0)) m.index_bits).1).zsimp]).zsimp] := by
  have hwid : (pg2.lazy_init.mo.load
      (split_bv (.add address (.lit m.bits 0)) m.index_bits).2).width = 8 :=
    moLoad_width _ _ (MoBytes_lazy_init pg2 hmb2)
  rw [Memory.load, heuristicConc_off cfg m h address 1 hheur]
  have hran : (if ("big" : String) = "little" then (List.range 1).reverse
      else List.range 1) = [0] := by decide
  rw [hran]
  rw [loadLoop, if_neg (by simp [hsym]), if_neg (by simp [hsq]), hpages,
    loadSymTier_two cfg m.state.constraints _ _ p1 o1 p2 o2 m h pg1 pg2 hpages hne hone
      hfind1 hfind2 hsat1 hsat2]
  rw [loadLoop]
  have hconds : ([(BoolE.eqE (bvv p1
      (split_bv (.add address (.lit m.bits 0)) m.index_bits).1.width)
      (split_bv (.add address (.lit m.bits 0)) m.index_bits).1).zsimp,
     (BoolE.eqE (bvv p2 (split_bv (.add address (.lit m.bits 0)) m.index_bits).1.width)
      (split_bv (.add address (.lit m.bits 0)) m.index_bits).1).zsimp] : List BoolE) ≠ [] := by
    simp
  rw [loadFinish, if_pos hconds]
  have hw8 : (BV.ite
      ((BoolE.eqE (bvv p2 (split_bv (.add address (.lit m.bits 0)) m.index_bits).1.width)
        (split_bv (.add address (.lit m.bits 0)) m.index_bits).1).zsimp)
      (pg2.lazy_init.mo.load (split_bv (.add address (.lit m.bits 0)) m.index_bits).2)
      (pg1.lazy_init.mo.load (split_bv (.add address (.lit m.bits 0)) m.index_bits).2)).width
      / 8 = 1 := by
    show (pg2.lazy_init.mo.load
      (split_bv (.add address (.lit m.bits 0)) m.index_bits).2).width / 8 = 1
    rw [hwid]
  rw [if_pos hw8]
  exact ⟨rfl, rfl, rfl⟩

/-- Oracle for the C4 witness run (same shape as the C3 one). -/
def c4cfg : Config :=
  { heuristic := false, satQ := fun _ _ => true, symbQ := fun _ _ => true,
    evalLongQ := fun _ _ => 0, unconQ := fun _ _ => false }

/-- First page (slot 2) of the C4 witness, holding 0xBB at offset 0. -/
def c4pg1 : Page :=
  { Page.new 2 4096 12 none with mo := ⟨"2", 12, [(.lit 12 0, .lit 8 0xBB)]⟩ }

/-- Second page (slot 3) of the C4 witness, holding 0xAA at offset 0. -/
def c4pg2 : Page :=
  { Page.new 3 4096 12 none with mo := ⟨"3", 12, [(.lit 12 0, .lit 8 0xAA)]⟩ }

/-- Two-page memory of the C4 witness. -/
def c4mem : Memory :=
  { bits := 16, page_size := 4096, index_bits := 12, pages := [(2, 0), (3, 1)],
    state := ⟨[.orE (.eqE (.var "x" 16) (.lit 16 0x2000))
                   (.eqE (.var "x" 16) (.lit 16 0x3000))]⟩ }

/-- Heap of the C4 witness. -/
def c4heap : Heap := ⟨[(0, c4pg1), (1, c4pg2)], 2⟩

/-- Witness for C4: on the concrete two-page memory, the ambiguous load
reports exactly one errored state and adds exactly one constraint. -/
theorem load_ambiguous_two_pages_witness :
    (Memory.load c4cfg c4mem c4heap [] (.var "x" 16) 1 "big").2.2.2.length = 1 ∧
    (Memory.load c4cfg c4mem c4heap [] (.var "x" 16) 1 "big").2.1.state.constraints.length =
      c4mem.state.constraints.length + 1 := by
  obtain ⟨h1, h2, h3⟩ := load_ambiguous_two_pages c4cfg c4mem c4heap [] (.var "x" 16)
    2 0 3 1 c4pg1 c4pg2 rfl (by decide) (by decide) (by decide) (by decide)
    (by intro e hm; rcases List.mem_singleton.mp hm with rfl; rfl)
    (by decide) (by decide) (by decide) (by decide) (by decide)
  constructor
  · rw [h2]; rfl
  · rw [h3]; simp

/-! ## Claim C8: `mmap` init-blob slicing -/

theorem lookup_range_map_none {α : Type} (start : Nat) (f : Nat → α) (n x : Nat)
    (hx : ∀ j, j < n → start + j ≠ x) :
    ((List.range n).map (fun k => (start + k, f k))).lookup x = none :=
  lookup_none_of_keys _ _ (by
    intro kv hm
    obtain ⟨j, hj, he⟩ := List.mem_map.mp hm
    rw [← he]
    exact hx j (List.mem_range.mp hj))

theorem lookup_range_map {α : Type} (start : Nat) (f : Nat → α) :
    ∀ (n k : Nat), k < n →
      ((List.range n).map (fun k => (start + k, f k))).lookup (start + k) = some (f k) := by
  intro n
  induction n with
  | zero => intro k hk; omega
  | succ n ih =>
    intro k hk
    rw [List.range_succ, List.map_append]
    by_cases hkn : k < n
    · exact lookup_append_some _ _ _ _ (ih k hkn)
    · have hkn' : k = n := by omega
      subst hkn'
      rw [lookup_append_none _ _ _
        (lookup_range_map_none start f k (start + k) (fun j hj he => by omega))]
      simp [List.lookup]

/-- The slices of the init blob taken by the page-creation loop on an
all-fresh page range: first `page_size - start_offset` bytes, then
page-sized chunks, in order and with nothing skipped or repeated. -/
theorem slices_cover (bytes : List Nat) (ps idx0 : Nat) (hidx : idx0 ≤ ps) :
    ∀ K, ((List.range K).map (fun k =>
        if k = 0 then bytes.take (ps - idx0)
        else (bytes.drop (k * ps - idx0)).take ps)).flatten = bytes.take (K * ps - idx0) := by
  intro K
  induction K with
  | zero => simp
  | succ K ih =>
    rw [List.range_succ, List.map_append, List.flatten_append, ih]
    cases K with
    | zero => simp
    | succ K' =>
      have hK1 : ¬ (K' + 1 = 0) := by omega
      simp only [List.map_cons, List.map_nil, List.flatten_cons, List.flatten_nil,
        List.append_nil, if_neg hK1]
      have hle : idx0 ≤ (K' + 1) * ps := le_trans hidx (by
        have : 1 * ps ≤ (K' + 1) * ps := Nat.mul_le_mul_right ps (by omega)
        omega)
      rw [← List.take_add]
      congr 1
      have h1 : (K' + 1 + 1) * ps = (K' + 1) * ps + ps := by ring
      omega

/-- The `mmap` page-creation loop on an all-fresh slot range with an init
blob: one fresh page object per slot, appended to the table in slot order;
the first created page's pending init keeps the supplied start offset and
the slice `bytes[di:df]`, every later page gets offset 0 and the next
page-sized slice. -/
theorem mmapAux_fresh (psize ibits : Nat) (bytes : List Nat) :
    ∀ (n start : Nat) (pages : List (Nat × Nat)) (h : Heap) (idx di df : Nat),
      (∀ a ∈ List.range' start n, pages.lookup a = none) →
      mmapAux psize ibits bytes (List.range' start n) pages h (some idx) di df =
        (pages ++ (List.range n).map (fun k => (start + k, h.nextId + k)),
         ⟨h.tbl ++ (List.range n).map (fun k => (h.nextId + k,
            Page.new (start + k) psize ibits
              (some (if k = 0 then ⟨(bytes.drop di).take (df - di), idx⟩
                else ⟨(bytes.drop (df + (k - 1) * psize)).take psize, 0⟩)))),
          h.nextId + n⟩) := by
  intro n
  induction n with
  | zero =>
    intro start pages h idx di df _
    simp [mmapAux, List.range']
  | succ n ih =>
    intro start pages h idx di df hfresh
    rw [List.range'_succ, mmapAux]
    have h0 : pages.lookup start = none :=
      hfresh start (by rw [List.range'_succ]; exact List.mem_cons_self _ _)
    rw [h0, if_neg (by simp)]
    have hfresh' : ∀ a ∈ List.range' (start + 1) n,
        (pages ++ [(start, (h.alloc (Page.new start psize ibits
          (some ⟨(bytes.drop di).take (df - di), idx⟩))).2)]).lookup a = none := by
      intro a ha
      have hma : start + 1 ≤ a ∧ a < start + 1 + n := by
        have := List.mem_range'_1.mp ha
        omega
      have hpa : pages.lookup a = none :=
        hfresh a (by
          rw [List.range'_succ]
          exact List.mem_cons_of_mem _ ha)
      rw [lookup_append_none _ _ _ hpa,
        lookup_cons_ne _ _ _ _ (by omega)]
      rfl
    rw [ih (start + 1) _ _ 0 df (df + psize) hfresh']
    have e1 : (h.alloc (Page.new start psize ibits
        (some ⟨(bytes.drop di).take (df - di), idx⟩))).1.nextId = h.nextId + 1 := rfl
    have e2 : (h.alloc (Page.new start psize ibits
        (some ⟨(bytes.drop di).take (df - di), idx⟩))).1.tbl =
      h.tbl ++ [(h.nextId, Page.new start psize ibits
        (some ⟨(bytes.drop di).take (df - di), idx⟩))] := rfl
    have halloc2 : (h.alloc (Page.new start psize ibits
        (some ⟨(bytes.drop di).take (df - di), idx⟩))).2 = h.nextId := rfl
    refine congrArg₂ Prod.mk ?_ ?_
    · rw [List.append_assoc, halloc2, e1]
      congr 1
      rw [List.range_succ_eq_map, List.map_cons, List.map_map]
      refine congrArg₂ List.cons (by simp) ?_
      refine List.map_congr_left ?_
      intro k hk
      simp only [Function.comp_apply, Prod.mk.injEq]
      omega
    · refine congrArg₂ Heap.mk ?_ (by rw [e1]; omega)
      rw [e2, List.append_assoc]
      congr 1
      rw [List.range_succ_eq_map, List.map_cons, List.map_map]
      refine congrArg₂ List.cons ?_ ?_
      · simp
      · refine List.map_congr_left ?_
        intro k hk
        simp only [Function.comp_apply, Prod.mk.injEq]
        refine ⟨by rw [e1]; omega, ?_⟩
        have hx : ¬ (k + 1 = 0) := by omega
        rw [if_neg hx]
        cases k with
        | zero =>
          have hdf : df + psize - df = psize := by omega
          simp [hdf]
        | succ k' =>
          have hk1 : ¬ (k' + 1 = 0) := by omega
          rw [if_neg hk1]
          have harith : df + psize + (k' + 1 - 1) * psize = df + (k' + 1 + 1 - 1) * psize := by
            simp only [Nat.add_sub_cancel]
            ring
          rw [harith]
          have hs : start + 1 + (k' + 1) = start + (k' + 1 + 1) := by omega
          rw [hs]

/-- Unfolding of `mmap` with init data. -/
theorem mmap_some_eq (m : Memory) (h : Heap) (address size : Nat) (bytes : List Nat)
    (idx0 : Nat) :
    (m.mmap h address size (some ⟨bytes, idx0⟩)).1.pages =
      (mmapAux m.page_size m.index_bits bytes
        (List.range' (address / m.page_size) (size / m.page_size)) m.pages h (some idx0) 0
        (m.page_size - idx0)).1 ∧
    (m.mmap h address size (some ⟨bytes, idx0⟩)).2 =
      (mmapAux m.page_size m.index_bits bytes
        (List.range' (address / m.page_size) (size / m.page_size)) m.pages h (some idx0) 0
        (m.page_size - idx0)).2 := ⟨rfl, rfl⟩

/-- C8 (on an all-fresh region): `mmap` with an init blob creates one page
per slot; only the first page's pending init carries the supplied start
offset, every later page gets the next page-sized slice at offset 0, and
the slices cover the blob in order with no byte skipped or repeated. -/
theorem mmap_init_slices (m : Memory) (h : Heap) (address size : Nat) (bytes : List Nat)
    (idx0 : Nat) (hwf : HeapWF h)
    (hfresh : ∀ a ∈ List.range' (address / m.page_size) (size / m.page_size),
      m.pages.lookup a = none)
    (hidx : idx0 ≤ m.page_size)
    (hfit : bytes.length + idx0 ≤ (size / m.page_size) * m.page_size) :
    (∀ k, k < size / m.page_size → ∃ oid pg,
      (m.mmap h address size (some ⟨bytes, idx0⟩)).1.pages.lookup
        (address / m.page_size + k) = some oid ∧
      (m.mmap h address size (some ⟨bytes, idx0⟩)).2.find oid = some pg ∧
      pg.addr = address / m.page_size + k ∧
      pg.pending = some (if k = 0 then ⟨bytes.take (m.page_size - idx0), idx0⟩
        else ⟨(bytes.drop (k * m.page_size - idx0)).take m.page_size, 0⟩)) ∧
    ((List.range (size / m.page_size)).map (fun k =>
      if k = 0 then bytes.take (m.page_size - idx0)
      else (bytes.drop (k * m.page_size - idx0)).take m.page_size)).flatten = bytes := by
  have hmm := mmapAux_fresh m.page_size m.index_bits bytes (size / m.page_size)
    (address / m.page_size) m.pages h idx0 0 (m.page_size - idx0) hfresh
  constructor
  · intro k hk
    refine ⟨h.nextId + k,
      Page.new (address / m.page_size + k) m.page_size m.index_bits
        (some (if k = 0 then ⟨(bytes.drop 0).take (m.page_size - idx0 - 0), idx0⟩
          else ⟨(bytes.drop (m.page_size - idx0 + (k - 1) * m.page_size)).take m.page_size,
            0⟩)), ?_, ?_, rfl, ?_⟩
    · rw [(mmap_some_eq m h address size bytes idx0).1, hmm]
      have hf : m.pages.lookup (address / m.page_size + k) = none :=
        hfresh _ (List.mem_range'_1.mpr ⟨Nat.le_add_right _ _, by omega⟩)
      rw [lookup_append_none _ _ _ hf]
      exact lookup_range_map _ _ _ k hk
    · rw [(mmap_some_eq m h address size bytes idx0).2, hmm]
      show (h.tbl ++ _).lookup (h.nextId + k) = _
      rw [lookup_append_none _ _ _ (lookup_none_of_keys _ _
        (fun kv hm => by have := hwf kv hm; omega))]
      exact lookup_range_map _ _ _ k hk
    · cases k with
      | zero => simp [Page.new]
      | succ j =>
        have hj : ¬ (j + 1 = 0) := by omega
        rw [if_neg hj, if_neg hj]
        have harith : m.page_size - idx0 + (j + 1 - 1) * m.page_size =
            (j + 1) * m.page_size - idx0 := by
          simp only [Nat.add_sub_cancel]
          have hmul : (j + 1) * m.page_size = j * m.page_size + m.page_size := by ring
          omega
        rw [harith]
        rfl
  · rw [slices_cover bytes m.page_size idx0 hidx]
    exact List.take_of_length_le (by omega)

/-- Pre-mapped first slot used by the C8 counterexample. -/
def c8mem : Memory :=
  { bits := 16, page_size := 4096, index_bits := 12, pages := [(1, 0)], state := ⟨[]⟩ }

/-- Heap of the C8 counterexample. -/
def c8heap : Heap := ⟨[(0, Page.new 1 4096 12 none)], 1⟩

/-- Counterexample to C8 as stated: mmap of the two-slot region starting
at slot 1 (byte address 0x1000) with blob `[1,2,3]` at start offset 5,
when slot 1 is already mapped, hands the non-zero start offset 5 to the
page created for slot 2 — a page that is not the first page of the
region. -/
theorem mmap_init_first_offset_counterexample :
    ((c8mem.mmap c8heap 0x1000 0x2000 (some ⟨[1, 2, 3], 5⟩)).1.pages.lookup 2 = some 1) ∧
    (((c8mem.mmap c8heap 0x1000 0x2000 (some ⟨[1, 2, 3], 5⟩)).2.find 1).map
      (fun pg => pg.pending) = some (some ⟨[1, 2, 3], 5⟩)) ∧
    (0x1000 / 4096 = 1) ∧ ((2 : Nat) ≠ 1) ∧ ((5 : Nat) ≠ 0) := by
  exact ⟨by decide, by decide, by decide, by decide, by decide⟩

/-- Witness for the amended C8 on a fresh two-slot region. -/
theorem mmap_init_slices_witness :
    (∀ k, k < 2 → ∃ oid pg,
      ((Memory.init ⟨[]⟩ 4096 16).mmap Heap.empty 4096 8192
        (some ⟨[7], 4095⟩)).1.pages.lookup (1 + k) = some oid ∧
      ((Memory.init ⟨[]⟩ 4096 16).mmap Heap.empty 4096 8192
        (some ⟨[7], 4095⟩)).2.find oid = some pg ∧
      pg.addr = 1 + k ∧
      pg.pending = some (if k = 0 then ⟨([7] : List Nat).take (4096 - 4095), 4095⟩
        else ⟨(([7] : List Nat).drop (k * 4096 - 4095)).take 4096, 0⟩)) ∧
    ((List.range 2).map (fun k => if k = 0 then ([7] : List Nat).take (4096 - 4095)
      else (([7] : List Nat).drop (k * 4096 - 4095)).take 4096)).flatten = [7] :=
  mmap_init_slices (Memory.init ⟨[]⟩ 4096 16) Heap.empty 4096 8192 [7] 4095
    (fun kv hm => absurd hm (List.not_mem_nil kv)) (by decide) (by decide) (by decide)

/-! ## Concrete-address resolution (shared by claims C1 and C2) -/

theorem mod_add_cancel (x n : Nat) (hx : x < n) : (x + n) % n = x := by
  rw [Nat.add_mod_right]
  exact Nat.mod_eq_of_lt hx

/-- Splitting a concrete `address + i` folds to the page-index /
in-page-offset literals. -/
theorem split_bv_add_lit (w A i ib : Nat) (hw : 1 ≤ w) (hib : 1 ≤ ib) (hibw : ib ≤ w)
    (hAi : A + i < 2 ^ w) :
    split_bv (.add (.lit w A) (.lit w i)) ib =
      (.lit (w - ib) ((A + i) / 2 ^ ib), .lit ib ((A + i) % 2 ^ ib)) := by
  have hA : A % 2 ^ w = A := Nat.mod_eq_of_lt (by omega)
  have hi : i % 2 ^ w = i := Nat.mod_eq_of_lt (by omega)
  have hadd : (BV.add (.lit w A) (.lit w i)).zsimp = .lit w (A + i) := by
    show addFold (.lit w (A % 2 ^ w)) (.lit w (i % 2 ^ w)) = .lit w (A + i)
    rw [hA, hi, addFold, Nat.mod_eq_of_lt hAi]
  have hwidth : (BV.add (.lit w A) (.lit w i)).width = w := rfl
  rw [split_bv, hwidth]
  have hsplit1 : (BV.extract (w - 1) ib (.add (.lit w A) (.lit w i))).zsimp =
      .lit (w - ib) ((A + i) / 2 ^ ib) := by
    show extractFold (w - 1) ib (BV.add (.lit w A) (.lit w i)).zsimp = _
    rw [hadd, extractFold]
    have e1 : w - 1 + 1 - ib = w - ib := by omega
    rw [e1]
    have hdiv : (A + i) / 2 ^ ib < 2 ^ (w - ib) := by
      rw [Nat.div_lt_iff_lt_mul (Nat.pos_pow_of_pos ib (by norm_num)), ← pow_add]
      have e2 : w - ib + ib = w := by omega
      rw [e2]
      exact hAi
    rw [Nat.mod_eq_of_lt hdiv]
  have hsplit2 : (BV.extract (ib - 1) 0 (.add (.lit w A) (.lit w i))).zsimp =
      .lit ib ((A + i) % 2 ^ ib) := by
    show extractFold (ib - 1) 0 (BV.add (.lit w A) (.lit w i)).zsimp = _
    rw [hadd, extractFold]
    have e1 : ib - 1 + 1 - 0 = ib := by omega
    rw [e1]
    simp
  rw [hsplit1, hsplit2]

/-- The big-endian store address `address + size//8 - i - 1` on concrete
operands folds to the expected literal. -/
theorem store_big_addr_lit (w A n i : Nat) (hw : 1 ≤ w) (hi : i < n) (hAn : A + n ≤ 2 ^ w) :
    (BV.sub (.sub (.add (.lit w A) (.lit w n)) (.lit w i)) (.lit w 1)).zsimp =
      .lit w (A + (n - 1 - i)) := by
  have hp : 0 < 2 ^ w := Nat.pos_pow_of_pos w (by norm_num)
  have h2 : 2 ≤ 2 ^ w := by
    calc 2 = 2 ^ 1 := rfl
    _ ≤ 2 ^ w := Nat.pow_le_pow_right (by norm_num) hw
  have hi' : i % 2 ^ w = i := Nat.mod_eq_of_lt (by omega)
  have h1' : (1 : Nat) % 2 ^ w = 1 := Nat.mod_eq_of_lt (by omega)
  have hadd : (BV.add (.lit w A) (.lit w n)).zsimp = .lit w ((A + n) % 2 ^ w) := by
    show addFold (.lit w (A % 2 ^ w)) (.lit w (n % 2 ^ w)) = _
    rw [addFold]
    congr 1
    exact (Nat.add_mod A n (2 ^ w)).symm
  have hsub1 : (BV.sub (.add (.lit w A) (.lit w n)) (.lit w i)).zsimp =
      .lit w ((A + n - i) % 2 ^ w) := by
    show subFold (BV.add (.lit w A) (.lit w n)).zsimp (BV.lit w i).zsimp = _
    rw [hadd]
    show subFold (.lit w ((A + n) % 2 ^ w)) (.lit w (i % 2 ^ w)) = _
    rw [subFold]
    congr 1
    rw [Nat.mod_mod_of_dvd _ (dvd_refl _), hi']
    rcases Nat.lt_or_ge (A + n) (2 ^ w) with hlt | hge
    · rw [Nat.mod_eq_of_lt hlt]
      have e : A + n + (2 ^ w - i) = (A + n - i) + 2 ^ w := by omega
      rw [e, Nat.add_mod_right]
    · have heq : A + n = 2 ^ w := by omega
      rw [heq, Nat.mod_self, Nat.zero_add]
  show subFold (BV.sub (.add (.lit w A) (.lit w n)) (.lit w i)).zsimp (BV.lit w 1).zsimp = _
  rw [hsub1]
  show subFold (.lit w ((A + n - i) % 2 ^ w)) (.lit w (1 % 2 ^ w)) = _
  rw [subFold]
  congr 1
  rw [Nat.mod_mod_of_dvd _ (dvd_refl _), h1']
  rcases Nat.lt_or_ge (A + n - i) (2 ^ w) with hlt | hge
  · rw [Nat.mod_eq_of_lt hlt]
    have e : A + n - i + (2 ^ w - 1) = (A + (n - 1 - i)) + 2 ^ w := by omega
    rw [e, Nat.add_mod_right]
    exact Nat.mod_eq_of_lt (by omega)
  · have heq : A + n - i = 2 ^ w := by omega
    rw [heq, Nat.mod_self]
    have e : 0 + (2 ^ w - 1) = 2 ^ w - 1 := by omega
    rw [e, Nat.mod_eq_of_lt (by omega)]
    omega

/-- Splitting the folded big-endian store address. -/
theorem split_lit (w V ib : Nat) (hw : 1 ≤ w) (hib : 1 ≤ ib) (hibw : ib ≤ w)
    (hV : V < 2 ^ w) (e : BV) (he : e.zsimp = .lit w V) (hew : e.width = w) :
    split_bv e ib = (.lit (w - ib) (V / 2 ^ ib), .lit ib (V % 2 ^ ib)) := by
  rw [split_bv, hew]
  have hsplit1 : (BV.extract (w - 1) ib e).zsimp = .lit (w - ib) (V / 2 ^ ib) := by
    show extractFold (w - 1) ib e.zsimp = _
    rw [he, extractFold]
    have e1 : w - 1 + 1 - ib = w - ib := by omega
    rw [e1]
    have hdiv : V / 2 ^ ib < 2 ^ (w - ib) := by
      rw [Nat.div_lt_iff_lt_mul (Nat.pos_pow_of_pos ib (by norm_num)), ← pow_add]
      have e2 : w - ib + ib = w := by omega
      rw [e2]
      exact hV
    rw [Nat.mod_eq_of_lt hdiv]
  have hsplit2 : (BV.extract (ib - 1) 0 e).zsimp = .lit ib (V % 2 ^ ib) := by
    show extractFold (ib - 1) 0 e.zsimp = _
    rw [he, extractFold]
    have e1 : ib - 1 + 1 - 0 = ib := by omega
    rw [e1]
    simp
  rw [hsplit1, hsplit2]

/-- First store event whose index evaluates to the given offset. -/
def moFind (σ : String → Nat) (off : Nat) : List (BV × BV) → Option BV
  | [] => none
  | (ie, ve) :: rest => if evalBV σ ie = off then some ve else moFind σ off rest

/-- Value of the byte store at an offset under an assignment (0 default,
matching the conditional-select chain's base case). -/
def moFindVal (σ : String → Nat) (off : Nat) (entries : List (BV × BV)) : Nat :=
  (moFind σ off entries).elim 0 (evalBV σ)

theorem moFindVal_lt (σ : String → Nat) (off : Nat) :
    ∀ (entries : List (BV × BV)), (∀ e ∈ entries, (e.2 : BV).width = 8) →
      moFindVal σ off entries < 256
  | [], _ => by simp [moFindVal, moFind]
  | (ie, ve) :: rest, h8 => by
    rw [moFindVal, moFind]
    by_cases he : evalBV σ ie = off
    · rw [if_pos he]
      have := evalBV_lt σ ve
      rw [h8 (ie, ve) (List.mem_cons_self _ _)] at this
      simpa using this
    · rw [if_neg he]
      exact moFindVal_lt σ off rest (fun e hm => h8 e (List.mem_cons_of_mem _ hm))

/-- The conditional-select chain built by a byte-store load evaluates to
the newest store event at the offset (or the 0 default). -/
theorem evalBV_moLoadGo (σ : String → Nat) (idx : BV) :
    ∀ (entries : List (BV × BV)), (∀ e ∈ entries, (e.2 : BV).width = 8) →
      evalBV σ (moLoadGo idx entries) = moFindVal σ (evalBV σ idx) entries
  | [], _ => by simp [moLoadGo, evalBV, moFindVal, moFind]
  | (ie, ve) :: rest, h8 => by
    have h8v : ve.width = 8 := h8 (ie, ve) (List.mem_cons_self _ _)
    have h8r : ∀ e ∈ rest, (e.2 : BV).width = 8 :=
      fun e hm => h8 e (List.mem_cons_of_mem _ hm)
    rw [moLoadGo, moFindVal, moFind]
    by_cases he : evalBV σ ie = evalBV σ idx
    · rw [if_pos (by rw [he])]
      show (bif evalBV σ idx == evalBV σ ie then evalBV σ ve
        else evalBV σ (moLoadGo idx rest)) % 2 ^ ve.width = _
      rw [he, beq_self_eq_true]
      show evalBV σ ve % 2 ^ ve.width = _
      rw [Nat.mod_eq_of_lt (evalBV_lt σ ve)]
      rfl
    · rw [if_neg (fun hh => he (by rw [hh]))]
      show (bif evalBV σ idx == evalBV σ ie then evalBV σ ve
        else evalBV σ (moLoadGo idx rest)) % 2 ^ ve.width = _
      have hne : (evalBV σ idx == evalBV σ ie) = false :=
        beq_eq_false_iff_ne.mpr (fun hh => he hh.symm)
      rw [hne]
      show evalBV σ (moLoadGo idx rest) % 2 ^ ve.width = _
      rw [evalBV_moLoadGo σ idx rest h8r, h8v]
      exact Nat.mod_eq_of_lt (moFindVal_lt σ _ rest h8r)

/-- Well-sorted byte stores: every event's index has the in-page width and
is well-sorted, every value is a well-sorted byte. -/
def MoWS (ib : Nat) (mo : MemoryObj) : Prop :=
  ∀ e ∈ mo.entries, (e.1 : BV).wsb = true ∧ (e.1 : BV).width = ib ∧
    (e.2 : BV).wsb = true ∧ (e.2 : BV).width = 8

/-- Well-sorted page: its offset width matches and its byte store is
well-sorted. -/
def PageWS (ib : Nat) (pg : Page) : Prop := pg.bits = ib ∧ MoWS ib pg.mo

/-- All pages referenced by the memory are well-sorted. -/
def PagesWS (ib : Nat) (m : Memory) (h : Heap) : Prop :=
  ∀ k oid, (k, oid) ∈ m.pages → ∀ pg, h.find oid = some pg → PageWS ib pg

theorem moLoadGo_wsb (ib : Nat) (idx : BV) (hwi : idx.wsb = true) (hwd : idx.width = ib) :
    ∀ (entries : List (BV × BV)),
      (∀ e ∈ entries, (e.1 : BV).wsb = true ∧ (e.1 : BV).width = ib ∧
        (e.2 : BV).wsb = true ∧ (e.2 : BV).width = 8) →
      (moLoadGo idx entries).wsb = true
  | [], _ => rfl
  | (ie, ve) :: rest, hws => by
    obtain ⟨hw1, hw2, hw3, hw4⟩ := hws (ie, ve) (List.mem_cons_self _ _)
    have hrest : ∀ e ∈ rest, (e.1 : BV).wsb = true ∧ (e.1 : BV).width = ib ∧
        (e.2 : BV).wsb = true ∧ (e.2 : BV).width = 8 :=
      fun e hm => hws e (List.mem_cons_of_mem _ hm)
    rw [moLoadGo]
    show (BV.ite (.eqE idx ie) ve (moLoadGo idx rest)).wsb = true
    simp only [BV.wsb, BoolE.wsb, Bool.and_eq_true, beq_iff_eq]
    exact ⟨⟨⟨⟨⟨hwi, hw1⟩, by rw [hwd, hw2]⟩, hw3⟩,
      moLoadGo_wsb ib idx hwi hwd rest hrest⟩,
      by rw [hw4, moLoadGo_width idx rest (fun e hm => (hrest e hm).2.2.2)]⟩

theorem MoWS_store (ib : Nat) (mo : MemoryObj) (idx val : BV) (hmo : MoWS ib mo)
    (h1 : idx.wsb = true) (h2 : idx.width = ib) (h3 : val.wsb = true)
    (h4 : val.width = 8) : MoWS ib (mo.store idx val) := by
  intro e hm
  rcases List.mem_cons.mp hm with he | ht
  · rw [he]; exact ⟨h1, h2, h3, h4⟩
  · exact hmo e ht

theorem MoWS_foldl_store (ib : Nat) (start : BV) (hs1 : start.wsb = true)
    (hs2 : start.width = ib) :
    ∀ (l : List (Nat × Nat)) (mo : MemoryObj), MoWS ib mo →
      MoWS ib (l.foldl
        (fun mo iv => mo.store (.add start (.lit ib iv.1)) (.lit 8 iv.2)) mo)
  | [], mo, hmo => hmo
  | iv :: rest, mo, hmo => by
    rw [List.foldl_cons]
    refine MoWS_foldl_store ib start hs1 hs2 rest _ (MoWS_store ib mo _ _ hmo ?_ ?_ rfl rfl)
    · simp [BV.wsb, hs1, hs2, BV.width]
    · simp [BV.width, hs2]

theorem PageWS_lazy_init (ib : Nat) (pg : Page) (hws : PageWS ib pg) :
    PageWS ib pg.lazy_init := by
  obtain ⟨hbits, hmo⟩ := hws
  cases hp : pg.pending with
  | none => rw [Page.lazy_init, hp]; exact ⟨hbits, hmo⟩
  | some init =>
    rw [Page.lazy_init, hp]
    refine ⟨hbits, ?_⟩
    show MoWS ib (init.bytes.enum.foldl
      (fun mo iv => mo.store (.add (bvv init.index pg.bits) (.lit pg.bits iv.1))
        (.lit 8 iv.2)) pg.mo)
    rw [hbits]
    exact MoWS_foldl_store ib (bvv init.index ib) rfl rfl init.bytes.enum pg.mo hmo

theorem lazy_init_pending (p : Page) : p.lazy_init.pending = none := by
  cases hp : p.pending <;> simp [Page.lazy_init, hp]

theorem lazy_init_idem (p : Page) : p.lazy_init.lazy_init = p.lazy_init := by
  rw [Page.lazy_init.eq_def]
  rw [lazy_init_pending]

/-- The byte content of the memory at a concrete page index and in-page
offset, under an assignment — the materialized view the next load of that
cell would produce. -/
def byteAtP (σ : String → Nat) (m : Memory) (h : Heap) (pa off : Nat) : Option Nat :=
  match m.pages.lookup pa with
  | none => none
  | some oid =>
    match h.find oid with
    | none => none
    | some pg => some (moFindVal σ off pg.lazy_init.mo.entries)

theorem symbolic_lit (u q : Nat) : symbolic (.lit u q) = false := rfl

theorem bvv_to_long_lit (u q : Nat) (h : q < 2 ^ u) : bvv_to_long (.lit u q) = q := by
  show q % 2 ^ u = q
  exact Nat.mod_eq_of_lt h

theorem evalBV_lit (σ : String → Nat) (u q : Nat) (h : q < 2 ^ u) :
    evalBV σ (.lit u q) = q := by
  show q % 2 ^ u = q
  exact Nat.mod_eq_of_lt h

theorem extract_wsb (hi lo : Nat) (e : BV) (hw : e.wsb = true) (hlo : lo ≤ hi)
    (hhi : hi < e.width) : (BV.extract hi lo e).wsb = true := by
  simp [BV.wsb, hw, hlo, hhi]

theorem moFindVal_cons_eq (σ : String → Nat) (off : Nat) (ie ve : BV)
    (rest : List (BV × BV)) (h : evalBV σ ie = off) :
    moFindVal σ off ((ie, ve) :: rest) = evalBV σ ve := by
  rw [moFindVal, moFind, if_pos h]
  rfl

theorem moFindVal_cons_ne (σ : String → Nat) (off : Nat) (ie ve : BV)
    (rest : List (BV × BV)) (h : evalBV σ ie ≠ off) :
    moFindVal σ off ((ie, ve) :: rest) = moFindVal σ off rest := by
  rw [moFindVal, moFind, if_neg h]
  rfl

theorem lazy_init_of_pending_none (p : Page) (h : p.pending = none) : p.lazy_init = p := by
  rw [Page.lazy_init.eq_def, h]

theorem lazy_init_bits (p : Page) : p.lazy_init.bits = p.bits := by
  cases hp : p.pending <;> simp [Page.lazy_init, hp]

theorem alset_self {α : Type} : ∀ (l : List (Nat × α)) (k : Nat) (v : α),
    l.lookup k = some v → alset l k v = l
  | [], k, v, h => by simp [List.lookup] at h
  | (k0, v0) :: rest, k, v, h => by
    by_cases hk : k = k0
    · subst hk
      rw [lookup_cons_self] at h
      injection h with h
      subst h
      rw [alset, if_pos rfl]
    · rw [lookup_cons_ne _ _ _ _ hk] at h
      rw [alset, if_neg (fun he => hk he.symm), alset_self rest k v h]

/-- The final per-page simplification pass of `store` leaves the heap
unchanged: `mo.simplify()` is a semantics-preserving in-place
normalization. -/
theorem simplifyStep_id (pages : List (Nat × Nat)) (h : Heap) (p : Nat) :
    simplifyStep pages h p = h := by
  rw [simplifyStep]
  cases hf : h.find ((pages.lookup p).getD 0) with
  | none => rfl
  | some pg =>
    show h.set _ pg = h
    show ({ h with tbl := alset h.tbl _ pg } : Heap) = h
    rw [alset_self _ _ _ hf]

theorem foldl_simplifyStep (pages : List (Nat × Nat)) :
    ∀ (l : List Nat) (h : Heap), l.foldl (simplifyStep pages) h = h
  | [], _ => rfl
  | p :: rest, h => by
    rw [List.foldl_cons, simplifyStep_id, foldl_simplifyStep pages rest h]

/-! Byte-weighted sums for the concatenation loop of `load`. -/

/-- Value of a big-endian byte list under a per-index byte function: the
first index carries the highest weight. -/
def lval (B : Nat → Nat) : List Nat → Nat
  | [] => 0
  | i :: rest => B i * 256 ^ rest.length + lval B rest

/-- Little-endian positional sum of the bytes `C 0 .. C (n-1)`. -/
def byteSum (C : Nat → Nat) : Nat → Nat
  | 0 => 0
  | k + 1 => C k * 256 ^ k + byteSum C k

theorem lval_congr (B B' : Nat → Nat) :
    ∀ (l : List Nat), (∀ i ∈ l, B i = B' i) → lval B l = lval B' l
  | [], _ => rfl
  | i :: rest, h => by
    rw [lval, lval, h i (List.mem_cons_self _ _),
      lval_congr B B' rest (fun j hj => h j (List.mem_cons_of_mem _ hj))]

theorem lval_append (B : Nat → Nat) :
    ∀ (l1 l2 : List Nat), lval B (l1 ++ l2) = lval B l1 * 256 ^ l2.length + lval B l2
  | [], l2 => by simp [lval]
  | i :: rest, l2 => by
    rw [List.cons_append, lval, lval, lval_append B rest l2, List.length_append]
    ring

theorem lval_range_reverse (B : Nat → Nat) :
    ∀ (n : Nat), lval B ((List.range n).reverse) = byteSum B n
  | 0 => rfl
  | n + 1 => by
    rw [List.range_succ, List.reverse_append, List.reverse_singleton, List.singleton_append,
      lval, lval_range_reverse B n, List.length_reverse, List.length_range, byteSum]

theorem byteSum_shift (C : Nat → Nat) :
    ∀ (n : Nat), byteSum (fun j => C (j + 1)) n * 256 + C 0 = byteSum C (n + 1)
  | 0 => by simp [byteSum]
  | n + 1 => by
    show (C (n + 1) * 256 ^ n + byteSum (fun j => C (j + 1)) n) * 256 + C 0 =
      byteSum C (n + 1 + 1)
    rw [Nat.add_mul, Nat.add_assoc, byteSum_shift C n, Nat.mul_assoc, ← pow_succ]
    conv_rhs => rw [byteSum]

theorem lval_range_big (C : Nat → Nat) :
    ∀ (n : Nat), lval (fun i => C (n - 1 - i)) (List.range n) = byteSum C n
  | 0 => rfl
  | n + 1 => by
    rw [List.range_succ, lval_append, lval, lval]
    have hc : ∀ i ∈ List.range n, (fun i => C (n + 1 - 1 - i)) i =
        (fun i => (fun j => C (j + 1)) (n - 1 - i)) i := by
      intro i hi
      have hilt : i < n := List.mem_range.mp hi
      show C (n + 1 - 1 - i) = C (n - 1 - i + 1)
      congr 1
      omega
    rw [lval_congr _ _ (List.range n) hc, lval_range_big (fun j => C (j + 1)) n]
    show byteSum (fun j => C (j + 1)) n * 256 ^ 1 + (C (n + 1 - 1 - n) * 256 ^ 0 + 0) = _
    have h0 : n + 1 - 1 - n = 0 := by omega
    rw [h0, pow_one, pow_zero]
    rw [Nat.mul_one, Nat.add_zero, byteSum_shift C n]

theorem byteSum_digits_mod (V : Nat) :
    ∀ (n : Nat), byteSum (fun j => V / 256 ^ j % 256) n = V % 256 ^ n
  | 0 => by simp [byteSum, Nat.mod_one]
  | n + 1 => by
    rw [byteSum, byteSum_digits_mod V n, pow_succ]
    have hpos : 0 < 256 ^ n := Nat.pos_pow_of_pos n (by norm_num)
    have hr : V % 256 ^ n < 256 ^ n := Nat.mod_lt _ hpos
    have hq : V / 256 ^ n % 256 < 256 := Nat.mod_lt _ (by norm_num)
    have hbound : 256 ^ n * (V / 256 ^ n % 256) + V % 256 ^ n < 256 ^ n * 256 :=
      calc 256 ^ n * (V / 256 ^ n % 256) + V % 256 ^ n
          < 256 ^ n * (V / 256 ^ n % 256) + 256 ^ n := Nat.add_lt_add_left hr _
        _ = 256 ^ n * (V / 256 ^ n % 256 + 1) := by ring
        _ ≤ 256 ^ n * 256 := Nat.mul_le_mul_left _ (Nat.succ_le_of_lt hq)
    have key : (256 ^ n * (V / 256 ^ n) + V % 256 ^ n) % (256 ^ n * 256)
        = 256 ^ n * (V / 256 ^ n % 256) + V % 256 ^ n := by
      conv_lhs => rw [← Nat.div_add_mod (V / 256 ^ n) 256]
      rw [Nat.mul_add, ← Nat.mul_assoc, Nat.add_assoc,
        Nat.add_comm (256 ^ n * 256 * (V / 256 ^ n / 256))]
      rw [Nat.add_mul_mod_self_left]
      exact Nat.mod_eq_of_lt hbound
    calc V / 256 ^ n % 256 * 256 ^ n + V % 256 ^ n
        = 256 ^ n * (V / 256 ^ n % 256) + V % 256 ^ n := by ring
      _ = (256 ^ n * (V / 256 ^ n) + V % 256 ^ n) % (256 ^ n * 256) := key.symm
      _ = V % (256 ^ n * 256) := by rw [Nat.div_add_mod]

/-- Fine-grained view of `Page.store` on the heap: the returned owner page
is live, fully materialized, and holds the new store event in front of the
stored-to page's materialized events; every other object is untouched
(the stored-to object itself at most loses its pending blob and COW flag,
keeping its materialized events). -/
theorem storeOp_view (h : Heap) (oid : Nat) (idx val : BV) (cond : Option BoolE)
    (pg0 : Page) (hfind : h.find oid = some pg0) (hwf : HeapWF h) :
    ∃ powner,
      (Page.storeOp h oid idx val cond).1.find (Page.storeOp h oid idx val cond).2 =
        some powner ∧
      powner.pending = none ∧
      powner.mo.entries = (idx, val) :: pg0.lazy_init.mo.entries ∧
      powner.bits = pg0.bits ∧
      (∀ x, x ≠ oid → x ≠ (Page.storeOp h oid idx val cond).2 →
        (Page.storeOp h oid idx val cond).1.find x = h.find x) ∧
      ((Page.storeOp h oid idx val cond).2 = oid ∨
        (Page.storeOp h oid idx val cond).2 = h.nextId) ∧
      (∃ pmid, (Page.storeOp h oid idx val cond).1.find oid = some pmid ∧
        pmid.bits = pg0.bits ∧
        (pmid.mo.entries = (idx, val) :: pg0.lazy_init.mo.entries ∨
          pmid.mo.entries = pg0.lazy_init.mo.entries)) := by
  have hoid : oid < h.nextId := find_lt_nextId h hwf oid pg0 hfind
  simp only [Page.storeOp, hfind, Option.getD_some]
  set p := pg0.lazy_init with hp
  by_cases hlc : p.lazycopy
  · rw [if_pos hlc]
    set h1 := h.set oid p with hh1
    set p' : Page := { p with lazycopy := false } with hp'
    set h2 := h1.set oid p' with hh2
    set newPage : Page := { Page.new p.addr p.size p.bits none with mo := p.mo.copy }
      with hnp
    set h3 := (h2.alloc newPage).1 with hh3
    set nid := (h2.alloc newPage).2 with hnid
    set pfin : Page := { newPage with mo := newPage.mo.store idx val } with hpfin
    have hnidval : nid = h.nextId := rfl
    have hoidnid : oid ≠ nid := by rw [hnidval]; exact Nat.ne_of_lt hoid
    refine ⟨pfin, Heap.find_set_self _ _ _, rfl, rfl, ?_, ?_, Or.inr hnidval, ?_⟩
    · show newPage.bits = pg0.bits
      show p.bits = pg0.bits
      exact lazy_init_bits pg0
    · intro x hxo hxn
      rw [Heap.find_set_ne _ _ _ _ hxn]
      show (h2.tbl ++ [(h2.nextId, newPage)]).lookup x = h.find x
      have hx2 : h2.find x = h.find x := by
        rw [Heap.find_set_ne _ _ _ _ hxo]
        exact Heap.find_set_ne _ _ _ _ hxo
      cases hc : h.find x with
      | some pg =>
        rw [hc] at hx2
        exact lookup_append_some _ _ _ _ hx2
      | none =>
        rw [hc] at hx2
        rw [lookup_append_none _ _ _ hx2]
        exact (lookup_cons_ne h2.nextId x newPage [] hxn).trans rfl
    · refine ⟨p', ?_, lazy_init_bits pg0, Or.inr rfl⟩
      rw [Heap.find_set_ne _ _ _ _ hoidnid]
      show (h2.tbl ++ [(h2.nextId, newPage)]).lookup oid = some p'
      exact lookup_append_some _ _ _ _ (Heap.find_set_self _ _ _)
  · rw [if_neg hlc]
    set pfin : Page := { p with mo := p.mo.store idx val } with hpfin
    refine ⟨pfin, Heap.find_set_self _ _ _, lazy_init_pending pg0, rfl,
      lazy_init_bits pg0, ?_, Or.inl rfl, pfin, Heap.find_set_self _ _ _,
      lazy_init_bits pg0, Or.inl rfl⟩
    intro x hxo _
    rw [Heap.find_set_ne _ _ _ _ hxo]
    exact Heap.find_set_ne _ _ _ _ hxo

/-- `Memory._store` of one byte into a mapped page: the written cell reads
back as the stored value, every other cell of every page is unchanged, and
the well-sortedness invariant, the table's key set and the memory's scalar
fields are preserved. -/
theorem storeByte_byteAt (σ : String → Nat) (ib : Nat) (m : Memory) (h : Heap) (pa : Nat)
    (pidx val : BV) (cond : Option BoolE) (oid : Nat)
    (hinv : PagesInv m.pages h) (hwf : HeapWF h) (hws : PagesWS ib m h)
    (hlk : m.pages.lookup pa = some oid)
    (hpw : pidx.wsb = true) (hpd : pidx.width = ib)
    (hvw : val.wsb = true) (hvd : val.width = 8) :
    byteAtP σ (m.storeByte h pa pidx val cond).1 (m.storeByte h pa pidx val cond).2 pa
        (evalBV σ pidx) = some (evalBV σ val) ∧
    (∀ pa' off', ¬(pa' = pa ∧ off' = evalBV σ pidx) →
      byteAtP σ (m.storeByte h pa pidx val cond).1 (m.storeByte h pa pidx val cond).2
        pa' off' = byteAtP σ m h pa' off') ∧
    PagesWS ib (m.storeByte h pa pidx val cond).1 (m.storeByte h pa pidx val cond).2 ∧
    (∀ k, ((m.storeByte h pa pidx val cond).1.pages.lookup k).isSome =
      (m.pages.lookup k).isSome) ∧
    (m.storeByte h pa pidx val cond).1.bits = m.bits ∧
    (m.storeByte h pa pidx val cond).1.index_bits = m.index_bits ∧
    (m.storeByte h pa pidx val cond).1.page_size = m.page_size ∧
    (m.storeByte h pa pidx val cond).1.state = m.state := by
  obtain ⟨pg0, hfind, haddr⟩ := hinv pa oid (mem_of_lookup _ _ _ hlk)
  obtain ⟨powner, hpo_find, hpo_pend, hpo_ent, hpo_bits, hstab, hdisj, pmid, hpm_find,
    hpm_bits, hpm_ent⟩ := storeOp_view h oid pidx val cond pg0 hfind hwf
  have hws0 : PageWS ib pg0 := hws pa oid (mem_of_lookup _ _ _ hlk) pg0 hfind
  have howner_ws : PageWS ib powner := by
    refine ⟨by rw [hpo_bits]; exact hws0.1, ?_⟩
    intro e hme
    rw [hpo_ent] at hme
    rcases List.mem_cons.mp hme with he | ht
    · rw [he]; exact ⟨hpw, hpd, hvw, hvd⟩
    · exact (PageWS_lazy_init ib pg0 hws0).2 e ht
  have hmid_ws : PageWS ib pmid := by
    refine ⟨by rw [hpm_bits]; exact hws0.1, ?_⟩
    intro e hme
    rcases hpm_ent with hent | hent
    · rw [hent] at hme
      rcases List.mem_cons.mp hme with he | ht
      · rw [he]; exact ⟨hpw, hpd, hvw, hvd⟩
      · exact (PageWS_lazy_init ib pg0 hws0).2 e ht
    · rw [hent] at hme
      exact (PageWS_lazy_init ib pg0 hws0).2 e hme
  simp only [Memory.storeByte, hlk]
  refine ⟨?_, ?_, ?_, ?_, trivial, trivial, trivial, trivial⟩
  · have hl1 : (alset m.pages pa (Page.storeOp h oid pidx val cond).2).lookup pa =
      some (Page.storeOp h oid pidx val cond).2 := lookup_alset_self _ _ _
    simp only [byteAtP, hl1, hpo_find]
    rw [lazy_init_of_pending_none powner hpo_pend, hpo_ent,
      moFindVal_cons_eq _ _ _ _ _ rfl]
  · intro pa' off' hne
    by_cases hpa : pa' = pa
    · subst hpa
      have hoff : off' ≠ evalBV σ pidx := fun ho => hne ⟨rfl, ho⟩
      have hl1 : (alset m.pages pa' (Page.storeOp h oid pidx val cond).2).lookup pa' =
        some (Page.storeOp h oid pidx val cond).2 := lookup_alset_self _ _ _
      simp only [byteAtP, hl1, hpo_find, hlk, hfind]
      rw [lazy_init_of_pending_none powner hpo_pend, hpo_ent,
        moFindVal_cons_ne _ _ _ _ _ (fun he => hoff he.symm)]
    · have hl2 : (alset m.pages pa (Page.storeOp h oid pidx val cond).2).lookup pa' =
        m.pages.lookup pa' := lookup_alset_ne _ _ _ _ hpa
      cases hlk' : m.pages.lookup pa' with
      | none => simp only [byteAtP, hl2, hlk']
      | some oid'' =>
        obtain ⟨pg'', hfind'', haddr''⟩ := hinv pa' oid'' (mem_of_lookup _ _ _ hlk')
        have hne1 : oid'' ≠ oid := by
          intro he
          subst he
          rw [hfind''] at hfind
          injection hfind with he2
          exact hpa (by rw [← haddr'', he2, haddr])
        have hne2 : oid'' ≠ (Page.storeOp h oid pidx val cond).2 := by
          have hlt : oid'' < h.nextId := find_lt_nextId h hwf oid'' pg'' hfind''
          rcases hdisj with hd | hd
          · rw [hd]; exact hne1
          · rw [hd]; exact Nat.ne_of_lt hlt
        simp only [byteAtP, hl2, hlk', hstab oid'' hne1 hne2]
  · intro k oidk hm pg hf
    rcases mem_alset _ _ _ _ _ hm with ⟨hk, ho⟩ | hold
    · subst ho
      rw [hpo_find] at hf
      injection hf with hf2
      rw [← hf2]
      exact howner_ws
    · by_cases hoe : oidk = oid
      · subst hoe
        rw [hpm_find] at hf
        injection hf with hf2
        rw [← hf2]
        exact hmid_ws
      · have hne2 : oidk ≠ (Page.storeOp h oid pidx val cond).2 := by
          obtain ⟨pgk, hfk, _⟩ := hinv k oidk hold
          have hlt : oidk < h.nextId := find_lt_nextId h hwf oidk pgk hfk
          rcases hdisj with hd | hd
          · rw [hd]; exact hoe
          · rw [hd]; exact Nat.ne_of_lt hlt
        rw [hstab oidk hoe hne2] at hf
        exact hws k oidk hold pg hf
  · intro k
    by_cases hk : k = pa
    · subst hk
      rw [lookup_alset_self, hlk]
      rfl
    · rw [lookup_alset_ne _ _ _ _ hk]

/-- One iteration of the `store` byte loop at an address that resolves to
the concrete page slot `(A + d) / 2^ib` and in-page offset
`(A + d) % 2^ib`: the byte takes the first (syntactically concrete) tier
and the loop continues on the updated memory. -/
theorem storeLoop_step (cfg : Config) (w ib n A d : Nat) (v : BV) (endness : String)
    (i : Nat) (rest : List Nat) (m : Memory) (h : Heap) (paddrs : List Nat)
    (hbits : m.bits = w) (hibits : m.index_bits = ib)
    (hq : (A + d) / 2 ^ ib < 2 ^ (w - ib))
    (hpr : (if endness = "little" then
        split_bv (.add (.lit w A) (.lit w i)) ib
      else
        split_bv (.sub (.sub (.add (.lit w A) (.lit w (8 * n / 8))) (.lit w i))
          (.lit w 1)) ib) =
      (.lit (w - ib) ((A + d) / 2 ^ ib), .lit ib ((A + d) % 2 ^ ib))) :
    storeLoop cfg (.lit w A) v endness (8 * n) (i :: rest) m h [] paddrs =
      storeLoop cfg (.lit w A) v endness (8 * n) rest
        (m.storeByte h ((A + d) / 2 ^ ib) (.lit ib ((A + d) % 2 ^ ib))
          (BV.extract (8 * (i + 1) - 1) (8 * i) v) none).1
        (m.storeByte h ((A + d) / 2 ^ ib) (.lit ib ((A + d) % 2 ^ ib))
          (BV.extract (8 * (i + 1) - 1) (8 * i) v) none).2
        [] (insertSet paddrs ((A + d) / 2 ^ ib)) := by
  have hpa : (if endness = "little" then
      split_bv (.add (.lit w A) (.lit w i)) ib
    else
      split_bv (.sub (.sub (.add (.lit w A) (.lit w (8 * n / 8))) (.lit w i))
        (.lit w 1)) ib).1 = BV.lit (w - ib) ((A + d) / 2 ^ ib) := by rw [hpr]
  have hpi : (if endness = "little" then
      split_bv (.add (.lit w A) (.lit w i)) ib
    else
      split_bv (.sub (.sub (.add (.lit w A) (.lit w (8 * n / 8))) (.lit w i))
        (.lit w 1)) ib).2 = BV.lit ib ((A + d) % 2 ^ ib) := by rw [hpr]
  rw [storeLoop, hbits, hibits, hpa, hpi, bvv_to_long_lit _ _ hq]
  rfl

/-- One iteration of the `load` byte loop at an address that resolves to a
concrete page slot: the byte takes the first tier, is simplified and
concatenated onto the accumulated result. -/
theorem loadLoop_step (cfg : Config) (w ib A : Nat) (i : Nat) (rest : List Nat)
    (m : Memory) (h : Heap) (res : Option BV) (conds : List BoolE)
    (hbits : m.bits = w) (hibits : m.index_bits = ib)
    (hq : (A + i) / 2 ^ ib < 2 ^ (w - ib))
    (hpr : split_bv (.add (.lit w A) (.lit w i)) ib =
      (.lit (w - ib) ((A + i) / 2 ^ ib), .lit ib ((A + i) % 2 ^ ib))) :
    loadLoop cfg (.lit w A) (i :: rest) m h res conds =
      loadLoop cfg (.lit w A) rest m
        (m.loadByte h ((A + i) / 2 ^ ib) (.lit ib ((A + i) % 2 ^ ib))).1
        (some (match res with
          | none => (m.loadByte h ((A + i) / 2 ^ ib)
              (.lit ib ((A + i) % 2 ^ ib))).2.zsimp
          | some r => BV.concat r (m.loadByte h ((A + i) / 2 ^ ib)
              (.lit ib ((A + i) % 2 ^ ib))).2.zsimp))
        conds := by
  have hpa : (split_bv (.add (.lit w A) (.lit w i)) ib).1 =
    BV.lit (w - ib) ((A + i) / 2 ^ ib) := by rw [hpr]
  have hpi : (split_bv (.add (.lit w A) (.lit w i)) ib).2 =
    BV.lit ib ((A + i) % 2 ^ ib) := by rw [hpr]
  rw [loadLoop, hbits, hibits, hpa, hpi, bvv_to_long_lit _ _ hq]
  rfl

/-- `Memory._load` of one byte from a mapped page: the returned expression
is a well-sorted byte whose value is the cell's `byteAtP` content, and the
heap mutation (in-place lazy materialization) changes no cell of any
memory's view. -/
theorem loadByte_view (σ : String → Nat) (ib : Nat) (m : Memory) (h : Heap) (pa : Nat)
    (pidx : BV) (oid : Nat)
    (hinv : PagesInv m.pages h) (hws : PagesWS ib m h)
    (hlk : m.pages.lookup pa = some oid)
    (hpw : pidx.wsb = true) (hpd : pidx.width = ib) :
    (∀ b, byteAtP σ m h pa (evalBV σ pidx) = some b →
      evalBV σ (m.loadByte h pa pidx).2 = b) ∧
    (m.loadByte h pa pidx).2.wsb = true ∧
    (m.loadByte h pa pidx).2.width = 8 ∧
    (∀ (m2 : Memory) pa' off', byteAtP σ m2 (m.loadByte h pa pidx).1 pa' off' =
      byteAtP σ m2 h pa' off') ∧
    (∀ (m2 : Memory), PagesWS ib m2 h → PagesWS ib m2 (m.loadByte h pa pidx).1) := by
  obtain ⟨pg, hfind, _⟩ := hinv pa oid (mem_of_lookup _ _ _ hlk)
  have hpg_ws : PageWS ib pg := hws pa oid (mem_of_lookup _ _ _ hlk) pg hfind
  have hlz_ws : PageWS ib pg.lazy_init := PageWS_lazy_init ib pg hpg_ws
  have h8 : ∀ e ∈ pg.lazy_init.mo.entries, (e.2 : BV).width = 8 :=
    fun e hm => (hlz_ws.2 e hm).2.2.2
  simp only [Memory.loadByte, hlk, Page.loadOp, hfind, Option.getD_some]
  refine ⟨?_, ?_, ?_, ?_, ?_⟩
  · intro b hb
    simp only [byteAtP, hlk, hfind] at hb
    injection hb with hb
    rw [← hb]
    exact evalBV_moLoadGo σ pidx pg.lazy_init.mo.entries h8
  · exact moLoadGo_wsb ib pidx hpw hpd pg.lazy_init.mo.entries
      (fun e hm => hlz_ws.2 e hm)
  · exact moLoadGo_width pidx pg.lazy_init.mo.entries h8
  · intro m2 pa' off'
    cases hlk2 : m2.pages.lookup pa' with
    | none => simp only [byteAtP, hlk2]
    | some oid' =>
      by_cases hoe : oid' = oid
      · subst hoe
        simp only [byteAtP, hlk2, Heap.find_set_self, hfind, lazy_init_idem]
      · simp only [byteAtP, hlk2, Heap.find_set_ne h oid oid' pg.lazy_init hoe]
  · intro m2 hws2 k oidk hm pgk hfk
    by_cases hoe : oidk = oid
    · subst hoe
      rw [Heap.find_set_self] at hfk
      injection hfk with hfk
      rw [← hfk]
      exact PageWS_lazy_init ib pg (hws2 k oidk hm pg hfind)
    · rw [Heap.find_set_ne h oid oidk pg.lazy_init hoe] at hfk
      exact hws2 k oidk hm pgk hfk

theorem addFold_wsb (a b : BV) (ha : a.wsb = true) (hb : b.wsb = true)
    (hw : a.width = b.width) : (addFold a b).wsb = true := by
  rw [addFold.eq_def]
  split
  · rfl
  · simp [BV.wsb, ha, hb, hw]

theorem subFold_wsb (a b : BV) (ha : a.wsb = true) (hb : b.wsb = true)
    (hw : a.width = b.width) : (subFold a b).wsb = true := by
  rw [subFold.eq_def]
  split
  · rfl
  · simp [BV.wsb, ha, hb, hw]

theorem extractFold_wsb (hi lo : Nat) (e : BV) (he : e.wsb = true) (hlo : lo ≤ hi)
    (hhi : hi < e.width) : (extractFold hi lo e).wsb = true := by
  rw [extractFold.eq_def]
  split
  · rfl
  · simp [BV.wsb, he, hlo, hhi]

theorem concatFold_wsb (a b : BV) (ha : a.wsb = true) (hb : b.wsb = true) :
    (concatFold a b).wsb = true := by
  rw [concatFold.eq_def]
  split
  · rfl
  · simp [BV.wsb, ha, hb]

theorem iteFold_wsb (c : BoolE) (t f : BV) (hc : c.wsb = true) (ht : t.wsb = true)
    (hf : f.wsb = true) (hw : t.width = f.width) : (iteFold c t f).wsb = true := by
  rw [iteFold.eq_def]
  split
  · exact ht
  · exact hf
  · simp [BV.wsb, hc, ht, hf, hw]

theorem eqFold_wsb (a b : BV) (ha : a.wsb = true) (hb : b.wsb = true)
    (hw : a.width = b.width) : (eqFold a b).wsb = true := by
  rw [eqFold.eq_def]
  split
  · split <;> rfl
  · simp [BoolE.wsb, ha, hb, hw]

theorem orFold_wsb (a b : BoolE) (ha : a.wsb = true) (hb : b.wsb = true) :
    (orFold a b).wsb = true := by
  rw [orFold.eq_def]
  split
  · rfl
  · exact hb
  · rfl
  · exact ha
  · simp [BoolE.wsb, ha, hb]

theorem notFold_wsb (c : BoolE) (hc : c.wsb = true) : (notFold c).wsb = true := by
  rw [notFold.eq_def]
  split
  · rfl
  · rfl
  · simp [BoolE.wsb, hc]

mutual

/-- Constant folding preserves well-sortedness. -/
theorem wsb_zsimp : (e : BV) → e.wsb = true → e.zsimp.wsb = true
  | .lit _ _, _ => rfl
  | .var _ _, _ => rfl
  | .add a b, h => by
    simp only [BV.wsb, Bool.and_eq_true, beq_iff_eq] at h
    rw [BV.zsimp]
    exact addFold_wsb _ _ (wsb_zsimp a h.1.1) (wsb_zsimp b h.1.2)
      (by rw [width_zsimp a h.1.1, width_zsimp b h.1.2, h.2])
  | .sub a b, h => by
    simp only [BV.wsb, Bool.and_eq_true, beq_iff_eq] at h
    rw [BV.zsimp]
    exact subFold_wsb _ _ (wsb_zsimp a h.1.1) (wsb_zsimp b h.1.2)
      (by rw [width_zsimp a h.1.1, width_zsimp b h.1.2, h.2])
  | .extract hi lo e, h => by
    simp only [BV.wsb, Bool.and_eq_true, decide_eq_true_eq] at h
    rw [BV.zsimp]
    exact extractFold_wsb hi lo _ (wsb_zsimp e h.1.1) h.1.2
      (by rw [width_zsimp e h.1.1]; exact h.2)
  | .concat a b, h => by
    simp only [BV.wsb, Bool.and_eq_true] at h
    rw [BV.zsimp]
    exact concatFold_wsb _ _ (wsb_zsimp a h.1) (wsb_zsimp b h.2)
  | .ite c t f, h => by
    simp only [BV.wsb, Bool.and_eq_true, beq_iff_eq] at h
    rw [BV.zsimp]
    exact iteFold_wsb _ _ _ (wsbB_zsimp c h.1.1.1) (wsb_zsimp t h.1.1.2)
      (wsb_zsimp f h.1.2) (by rw [width_zsimp t h.1.1.2, width_zsimp f h.1.2, h.2])

/-- Constant folding preserves well-sortedness (booleans). -/
theorem wsbB_zsimp : (c : BoolE) → c.wsb = true → c.zsimp.wsb = true
  | .trueE, _ => rfl
  | .falseE, _ => rfl
  | .eqE a b, h => by
    simp only [BoolE.wsb, Bool.and_eq_true, beq_iff_eq] at h
    rw [BoolE.zsimp]
    exact eqFold_wsb _ _ (wsb_zsimp a h.1.1) (wsb_zsimp b h.1.2)
      (by rw [width_zsimp a h.1.1, width_zsimp b h.1.2, h.2])
  | .orE a b, h => by
    simp only [BoolE.wsb, Bool.and_eq_true] at h
    rw [BoolE.zsimp]
    exact orFold_wsb _ _ (wsbB_zsimp a h.1) (wsbB_zsimp b h.2)
  | .notE c, h => by
    simp only [BoolE.wsb] at h
    rw [BoolE.zsimp]
    exact notFold_wsb _ (wsbB_zsimp c h)

end

/-- Target byte location of loop iteration `i` of an `n`-byte `store`, as
an offset from the base address: `i` for little endian, `n - 1 - i` for big
endian (the loop body adds `size//8 - i - 1` to the address). -/
def locIdx (endness : String) (n i : Nat) : Nat :=
  if endness = "little" then i else n - 1 - i

theorem locIdx_lt (endness : String) (n i : Nat) (hi : i < n) :
    locIdx endness n i < n := by
  rw [locIdx]; split <;> omega

theorem locIdx_inj (endness : String) (n i j : Nat) (hi : i < n) (hj : j < n)
    (he : locIdx endness n i = locIdx endness n j) : i = j := by
  rw [locIdx, locIdx] at he
  split at he <;> omega

theorem addr_pair_ne (ib x y : Nat) (hne : x ≠ y) :
    ¬(x / 2 ^ ib = y / 2 ^ ib ∧ x % 2 ^ ib = y % 2 ^ ib) := by
  rintro ⟨h1, h2⟩
  apply hne
  conv_lhs => rw [← Nat.div_add_mod x (2 ^ ib)]
  conv_rhs => rw [← Nat.div_add_mod y (2 ^ ib)]
  rw [h1, h2]

theorem div_lt_pow_sub (w ib x : Nat) (hibw : ib ≤ w) (hx : x < 2 ^ w) :
    x / 2 ^ ib < 2 ^ (w - ib) := by
  rw [Nat.div_lt_iff_lt_mul (Nat.pos_pow_of_pos ib (by norm_num))]
  calc x < 2 ^ w := hx
    _ = 2 ^ (w - ib) * 2 ^ ib := by rw [← pow_add]; congr 1; omega

/-- The page-address resolution of one `store` iteration at a literal base
address: both endianness branches fold to the literal slot/offset pair of
the byte's target address `A + locIdx endness n i`. -/
theorem storePr_concrete (w ib n A i : Nat) (endness : String)
    (hib : 1 ≤ ib) (hibw : ib ≤ w) (hi : i < n) (hAn : A + n ≤ 2 ^ w) :
    (if endness = "little" then
        split_bv (.add (.lit w A) (.lit w i)) ib
      else
        split_bv (.sub (.sub (.add (.lit w A) (.lit w (8 * n / 8))) (.lit w i))
          (.lit w 1)) ib) =
      (.lit (w - ib) ((A + locIdx endness n i) / 2 ^ ib),
       .lit ib ((A + locIdx endness n i) % 2 ^ ib)) := by
  have hw : 1 ≤ w := le_trans hib hibw
  by_cases he : endness = "little"
  · rw [if_pos he, locIdx, if_pos he]
    exact split_bv_add_lit w A i ib hw hib hibw (by omega)
  · rw [if_neg he, locIdx, if_neg he]
    have h8n : 8 * n / 8 = n := Nat.mul_div_cancel_left n (by norm_num)
    rw [h8n]
    exact split_lit w (A + (n - 1 - i)) ib hw hib hibw (by omega) _
      (store_big_addr_lit w A n i hw hi hAn) rfl

/-- Postcondition of the `store` byte loop over the remaining iteration
list `l`, at a literal address: no symbolic-tier conditions, all invariants
kept, the table's keys and the memory's scalar fields unchanged, each
processed byte readable back, all other cells untouched. -/
def StoreLoopPost (σ : String → Nat) (w ib n A : Nat) (v : BV) (endness : String)
    (l : List Nat) (m : Memory) (h : Heap)
    (r : Memory × Heap × List BoolE × List Nat) : Prop :=
  r.1.bits = w ∧ r.1.index_bits = ib ∧ r.1.state = m.state ∧ r.2.2.1 = [] ∧
  PagesInv r.1.pages r.2.1 ∧ HeapWF r.2.1 ∧ PagesWS ib r.1 r.2.1 ∧
  (∀ k, (r.1.pages.lookup k).isSome = (m.pages.lookup k).isSome) ∧
  (∀ i ∈ l, byteAtP σ r.1 r.2.1 ((A + locIdx endness n i) / 2 ^ ib)
      ((A + locIdx endness n i) % 2 ^ ib) =
    some (evalBV σ (BV.extract (8 * (i + 1) - 1) (8 * i) v))) ∧
  (∀ pa off, (∀ i ∈ l, ¬(pa = (A + locIdx endness n i) / 2 ^ ib ∧
      off = (A + locIdx endness n i) % 2 ^ ib)) →
    byteAtP σ r.1 r.2.1 pa off = byteAtP σ m h pa off)

/-- The `store` byte loop at a literal address: every iteration resolves
concretely, stores its extracted byte at its target cell, and perturbs
nothing else. -/
theorem storeLoop_concrete (σ : String → Nat) (cfg : Config) (w ib n A : Nat) (v : BV)
    (endness : String) (hib : 1 ≤ ib) (hibw : ib ≤ w) (hAn : A + n ≤ 2 ^ w)
    (hv : v.wsb = true) (hvw : v.width = 8 * n) :
    ∀ (l : List Nat) (m : Memory) (h : Heap) (paddrs : List Nat),
      (∀ i ∈ l, i < n) → l.Nodup →
      m.bits = w → m.index_bits = ib →
      PagesInv m.pages h → HeapWF h → PagesWS ib m h →
      (∀ o, o < n → (m.pages.lookup ((A + o) / 2 ^ ib)).isSome = true) →
      StoreLoopPost σ w ib n A v endness l m h
        (storeLoop cfg (.lit w A) v endness (8 * n) l m h [] paddrs)
  | [], m, h, paddrs, _, _, hbits, hibits, hinv, hwf, hws, _ => by
    rw [storeLoop]
    exact ⟨hbits, hibits, rfl, rfl, hinv, hwf, hws, fun _ => rfl,
      fun i hm => absurd hm (List.not_mem_nil i), fun _ _ _ => rfl⟩
  | i :: rest, m, h, paddrs, hl, hnd, hbits, hibits, hinv, hwf, hws, hmap => by
    have hi : i < n := hl i (List.mem_cons_self _ _)
    have hd : locIdx endness n i < n := locIdx_lt endness n i hi
    have hq : (A + locIdx endness n i) / 2 ^ ib < 2 ^ (w - ib) :=
      div_lt_pow_sub w ib _ hibw (by omega)
    have hstep := storeLoop_step cfg w ib n A (locIdx endness n i) v endness i rest m h
      paddrs hbits hibits hq (storePr_concrete w ib n A i endness hib hibw hi hAn)
    obtain ⟨oid, hlk⟩ := Option.isSome_iff_exists.mp (hmap _ hd)
    have hmod : (A + locIdx endness n i) % 2 ^ ib < 2 ^ ib :=
      Nat.mod_lt _ (Nat.pos_pow_of_pos ib (by norm_num))
    have hpidx_val : evalBV σ (.lit ib ((A + locIdx endness n i) % 2 ^ ib)) =
      (A + locIdx endness n i) % 2 ^ ib := evalBV_lit σ _ _ hmod
    have hbv_w : (BV.extract (8 * (i + 1) - 1) (8 * i) v).wsb = true :=
      extract_wsb _ _ v hv (by omega) (by rw [hvw]; omega)
    have hbv_d : (BV.extract (8 * (i + 1) - 1) (8 * i) v).width = 8 := by
      show 8 * (i + 1) - 1 + 1 - 8 * i = 8
      omega
    obtain ⟨heff, hstab, hws1, hkeys1, hb1, hib1, _, hst1⟩ :=
      storeByte_byteAt σ ib m h ((A + locIdx endness n i) / 2 ^ ib)
        (.lit ib ((A + locIdx endness n i) % 2 ^ ib))
        (BV.extract (8 * (i + 1) - 1) (8 * i) v) none oid hinv hwf hws hlk rfl rfl
        hbv_w hbv_d
    obtain ⟨hinv1, hwf1, _, _⟩ :=
      storeByte_good m h ((A + locIdx endness n i) / 2 ^ ib)
        (.lit ib ((A + locIdx endness n i) % 2 ^ ib))
        (BV.extract (8 * (i + 1) - 1) (8 * i) v) none hinv hwf
    rw [hpidx_val] at heff hstab
    have hpost := storeLoop_concrete σ cfg w ib n A v endness hib hibw hAn hv hvw rest
      (Memory.storeByte m h ((A + locIdx endness n i) / 2 ^ ib)
        (.lit ib ((A + locIdx endness n i) % 2 ^ ib))
        (BV.extract (8 * (i + 1) - 1) (8 * i) v) none).1
      (Memory.storeByte m h ((A + locIdx endness n i) / 2 ^ ib)
        (.lit ib ((A + locIdx endness n i) % 2 ^ ib))
        (BV.extract (8 * (i + 1) - 1) (8 * i) v) none).2
      (insertSet paddrs ((A + locIdx endness n i) / 2 ^ ib))
      (fun j hj => hl j (List.mem_cons_of_mem _ hj)) (List.Nodup.of_cons hnd)
      (hb1.trans hbits) (hib1.trans hibits) hinv1 hwf1 hws1
      (fun o ho => (hkeys1 _).trans (hmap o ho))
    rw [StoreLoopPost] at hpost
    obtain ⟨hpbits, hpibits, hpstate, hpconds, hpinv, hpwf, hpws, hpkeys, hpca, hpcb⟩ :=
      hpost
    rw [StoreLoopPost, hstep]
    refine ⟨hpbits, hpibits, hpstate.trans hst1, hpconds, hpinv, hpwf, hpws,
      fun k => (hpkeys k).trans (hkeys1 k), ?_, ?_⟩
    · intro j hj
      rcases List.mem_cons.mp hj with hji | hjr
      · subst hji
        have hrest_ne : ∀ i' ∈ rest,
            ¬((A + locIdx endness n j) / 2 ^ ib = (A + locIdx endness n i') / 2 ^ ib ∧
              (A + locIdx endness n j) % 2 ^ ib = (A + locIdx endness n i') % 2 ^ ib) := by
          intro i' hir
          have hji' : j ≠ i' := fun he => (List.nodup_cons.mp hnd).1 (he ▸ hir)
          exact addr_pair_ne ib _ _ (fun he => hji'
            (locIdx_inj endness n j i' hi (hl i' (List.mem_cons_of_mem _ hir)) (by omega)))
        rw [hpcb _ _ hrest_ne]
        exact heff
      · exact hpca j hjr
    · intro pa off hforall
      rw [hpcb pa off (fun i' h' => hforall i' (List.mem_cons_of_mem _ h'))]
      exact hstab pa off (hforall i (List.mem_cons_self _ _))

/-- The `load` byte loop at a literal address, with a running accumulator:
every iteration resolves concretely, reads its byte (whose value the cell
map `B` gives) and concatenates it onto the accumulator; the loop leaves
the memory, conditions and every byte cell untouched. -/
theorem loadLoop_concrete (σ : String → Nat) (cfg : Config) (w ib n A : Nat)
    (B : Nat → Nat) (hib : 1 ≤ ib) (hibw : ib ≤ w) (hAn : A + n ≤ 2 ^ w) :
    ∀ (l : List Nat) (m : Memory) (h : Heap) (r0 : BV) (conds : List BoolE),
      (∀ i ∈ l, i < n) →
      m.bits = w → m.index_bits = ib →
      PagesInv m.pages h → HeapWF h → PagesWS ib m h →
      (∀ o, o < n → byteAtP σ m h ((A + o) / 2 ^ ib) ((A + o) % 2 ^ ib) = some (B o)) →
      (∀ o, o < n → (m.pages.lookup ((A + o) / 2 ^ ib)).isSome = true) →
      r0.wsb = true →
      (loadLoop cfg (.lit w A) l m h (some r0) conds).1 = m ∧
      (loadLoop cfg (.lit w A) l m h (some r0) conds).2.2.2 = conds ∧
      HeapWF (loadLoop cfg (.lit w A) l m h (some r0) conds).2.1 ∧
      AddrPres h (loadLoop cfg (.lit w A) l m h (some r0) conds).2.1 ∧
      (∀ (m2 : Memory) pa off,
        byteAtP σ m2 (loadLoop cfg (.lit w A) l m h (some r0) conds).2.1 pa off =
          byteAtP σ m2 h pa off) ∧
      (∀ (m2 : Memory), PagesWS ib m2 h →
        PagesWS ib m2 (loadLoop cfg (.lit w A) l m h (some r0) conds).2.1) ∧
      ∃ t, (loadLoop cfg (.lit w A) l m h (some r0) conds).2.2.1 = some t ∧
        t.wsb = true ∧ t.width = r0.width + 8 * l.length ∧
        evalBV σ t = evalBV σ r0 * 256 ^ l.length + lval B l
  | [], m, h, r0, conds, _, _, _, _, hwf, _, _, _, hr0 => by
    rw [loadLoop]
    exact ⟨rfl, rfl, hwf, addrPres_rfl h, fun _ _ _ => rfl, fun _ hw2 => hw2,
      r0, rfl, hr0, by simp [lval], by simp [lval]⟩
  | i :: rest, m, h, r0, conds, hl, hbits, hibits, hinv, hwf, hws, hbytes, hmap, hr0 => by
    have hi : i < n := hl i (List.mem_cons_self _ _)
    have hw : 1 ≤ w := le_trans hib hibw
    have hq : (A + i) / 2 ^ ib < 2 ^ (w - ib) :=
      div_lt_pow_sub w ib _ hibw (by omega)
    have hmod : (A + i) % 2 ^ ib < 2 ^ ib :=
      Nat.mod_lt _ (Nat.pos_pow_of_pos ib (by norm_num))
    rw [loadLoop_step cfg w ib A i rest m h (some r0) conds hbits hibits hq
      (split_bv_add_lit w A i ib hw hib hibw (by omega))]
    obtain ⟨oid, hlk⟩ := Option.isSome_iff_exists.mp (hmap _ hi)
    obtain ⟨hval, hwsb2, hwd2, hstab5, hwspres⟩ :=
      loadByte_view σ ib m h ((A + i) / 2 ^ ib) (.lit ib ((A + i) % 2 ^ ib)) oid
        hinv hws hlk rfl rfl
    obtain ⟨hwf1, hpres1, _⟩ :=
      loadByte_good m h ((A + i) / 2 ^ ib) (.lit ib ((A + i) % 2 ^ ib)) hinv hwf
    have hbyte : evalBV σ (m.loadByte h ((A + i) / 2 ^ ib)
        (.lit ib ((A + i) % 2 ^ ib))).2 = B i := by
      apply hval
      rw [evalBV_lit σ _ _ hmod]
      exact hbytes i hi
    have htmp_w : (m.loadByte h ((A + i) / 2 ^ ib)
        (.lit ib ((A + i) % 2 ^ ib))).2.zsimp.wsb = true := wsb_zsimp _ hwsb2
    have htmp_d : (m.loadByte h ((A + i) / 2 ^ ib)
        (.lit ib ((A + i) % 2 ^ ib))).2.zsimp.width = 8 :=
      (width_zsimp _ hwsb2).trans hwd2
    have htmp_v : evalBV σ (m.loadByte h ((A + i) / 2 ^ ib)
        (.lit ib ((A + i) % 2 ^ ib))).2.zsimp = B i :=
      (evalBV_zsimp σ _ hwsb2).trans hbyte
    have hcc_w : (BV.concat r0 ((m.loadByte h ((A + i) / 2 ^ ib)
        (.lit ib ((A + i) % 2 ^ ib))).2.zsimp)).wsb = true := by
      simp [BV.wsb, hr0, htmp_w]
    obtain ⟨hr1, hr2, hr3, hr4, hr5, hr6, t, hrt, htw, htd, hte⟩ :=
      loadLoop_concrete σ cfg w ib n A B hib hibw hAn rest m
        (m.loadByte h ((A + i) / 2 ^ ib) (.lit ib ((A + i) % 2 ^ ib))).1
        (BV.concat r0 ((m.loadByte h ((A + i) / 2 ^ ib)
          (.lit ib ((A + i) % 2 ^ ib))).2.zsimp))
        conds (fun j hj => hl j (List.mem_cons_of_mem _ hj)) hbits hibits
        (PagesInv_mono hinv hpres1) hwf1 (hwspres m hws)
        (fun o ho => (hstab5 m _ _).trans (hbytes o ho)) hmap hcc_w
    refine ⟨hr1, hr2, hr3, hpres1.trans hr4,
      fun m2 pa off => (hr5 m2 pa off).trans (hstab5 m2 pa off),
      fun m2 hws2 => hr6 m2 (hwspres m2 hws2), t, hrt, htw, ?_, ?_⟩
    · rw [htd]
      show _ = r0.width + 8 * (rest.length + 1)
      have hcw : (BV.concat r0 ((m.loadByte h ((A + i) / 2 ^ ib)
          (.lit ib ((A + i) % 2 ^ ib))).2.zsimp)).width =
        r0.width + 8 := by
        show r0.width + (m.loadByte h ((A + i) / 2 ^ ib)
          (.lit ib ((A + i) % 2 ^ ib))).2.zsimp.width = r0.width + 8
        rw [htmp_d]
      rw [hcw]
      omega
    · rw [hte]
      have hce : evalBV σ (BV.concat r0 ((m.loadByte h ((A + i) / 2 ^ ib)
          (.lit ib ((A + i) % 2 ^ ib))).2.zsimp)) = evalBV σ r0 * 256 + B i := by
        show evalBV σ r0 * 2 ^ (m.loadByte h ((A + i) / 2 ^ ib)
          (.lit ib ((A + i) % 2 ^ ib))).2.zsimp.width + evalBV σ (m.loadByte h
          ((A + i) / 2 ^ ib) (.lit ib ((A + i) % 2 ^ ib))).2.zsimp = _
        rw [htmp_d, htmp_v]
        norm_num
      rw [hce, lval]
      show (evalBV σ r0 * 256 + B i) * 256 ^ rest.length + lval B rest =
        evalBV σ r0 * 256 ^ (rest.length + 1) + (B i * 256 ^ rest.length + lval B rest)
      ring

/-- The unconstrained-access heuristic never fires on a syntactically
concrete address (the guard conjunction contains `symbolic(address)`). -/
theorem heuristicConc_concrete (cfg : Config) (m : Memory) (h : Heap) (address : BV)
    (sz : Nat) (hsym : symbolic address = false) :
    heuristicConc cfg m h address sz = (m, h, address) := by
  rw [heuristicConc]
  simp [hsym]

/-- The `load` byte loop at a literal address starting from the empty
accumulator, over a non-empty iteration list. -/
theorem loadLoop_concrete_none (σ : String → Nat) (cfg : Config) (w ib n A : Nat)
    (B : Nat → Nat) (hib : 1 ≤ ib) (hibw : ib ≤ w) (hAn : A + n ≤ 2 ^ w)
    (i : Nat) (tail : List Nat) (m : Memory) (h : Heap) (conds : List BoolE)
    (hl : ∀ j ∈ i :: tail, j < n)
    (hbits : m.bits = w) (hibits : m.index_bits = ib)
    (hinv : PagesInv m.pages h) (hwf : HeapWF h) (hws : PagesWS ib m h)
    (hbytes : ∀ o, o < n →
      byteAtP σ m h ((A + o) / 2 ^ ib) ((A + o) % 2 ^ ib) = some (B o))
    (hmap : ∀ o, o < n → (m.pages.lookup ((A + o) / 2 ^ ib)).isSome = true) :
    (loadLoop cfg (.lit w A) (i :: tail) m h none conds).1 = m ∧
    (loadLoop cfg (.lit w A) (i :: tail) m h none conds).2.2.2 = conds ∧
    HeapWF (loadLoop cfg (.lit w A) (i :: tail) m h none conds).2.1 ∧
    ∃ t, (loadLoop cfg (.lit w A) (i :: tail) m h none conds).2.2.1 = some t ∧
      t.wsb = true ∧ t.width = 8 * (i :: tail).length ∧
      evalBV σ t = lval B (i :: tail) := by
  have hi : i < n := hl i (List.mem_cons_self _ _)
  have hw : 1 ≤ w := le_trans hib hibw
  have hq : (A + i) / 2 ^ ib < 2 ^ (w - ib) :=
    div_lt_pow_sub w ib _ hibw (by omega)
  have hmod : (A + i) % 2 ^ ib < 2 ^ ib :=
    Nat.mod_lt _ (Nat.pos_pow_of_pos ib (by norm_num))
  rw [loadLoop_step cfg w ib A i tail m h none conds hbits hibits hq
    (split_bv_add_lit w A i ib hw hib hibw (by omega))]
  obtain ⟨oid, hlk⟩ := Option.isSome_iff_exists.mp (hmap _ hi)
  obtain ⟨hval, hwsb2, hwd2, hstab5, hwspres⟩ :=
    loadByte_view σ ib m h ((A + i) / 2 ^ ib) (.lit ib ((A + i) % 2 ^ ib)) oid
      hinv hws hlk rfl rfl
  obtain ⟨hwf1, hpres1, _⟩ :=
    loadByte_good m h ((A + i) / 2 ^ ib) (.lit ib ((A + i) % 2 ^ ib)) hinv hwf
  have hbyte : evalBV σ (m.loadByte h ((A + i) / 2 ^ ib)
      (.lit ib ((A + i) % 2 ^ ib))).2 = B i := by
    apply hval
    rw [evalBV_lit σ _ _ hmod]
    exact hbytes i hi
  have htmp_w : (m.loadByte h ((A + i) / 2 ^ ib)
      (.lit ib ((A + i) % 2 ^ ib))).2.zsimp.wsb = true := wsb_zsimp _ hwsb2
  have htmp_d : (m.loadByte h ((A + i) / 2 ^ ib)
      (.lit ib ((A + i) % 2 ^ ib))).2.zsimp.width = 8 :=
    (width_zsimp _ hwsb2).trans hwd2
  have htmp_v : evalBV σ (m.loadByte h ((A + i) / 2 ^ ib)
      (.lit ib ((A + i) % 2 ^ ib))).2.zsimp = B i :=
    (evalBV_zsimp σ _ hwsb2).trans hbyte
  obtain ⟨hr1, hr2, hr3, _, _, _, t, hrt, htw, htd, hte⟩ :=
    loadLoop_concrete σ cfg w ib n A B hib hibw hAn tail m
      (m.loadByte h ((A + i) / 2 ^ ib) (.lit ib ((A + i) % 2 ^ ib))).1
      ((m.loadByte h ((A + i) / 2 ^ ib) (.lit ib ((A + i) % 2 ^ ib))).2.zsimp)
      conds (fun j hj => hl j (List.mem_cons_of_mem _ hj)) hbits hibits
      (PagesInv_mono hinv hpres1) hwf1 (hwspres m hws)
      (fun o ho => (hstab5 m _ _).trans (hbytes o ho)) hmap htmp_w
  refine ⟨hr1, hr2, hr3, t, hrt, htw, ?_, ?_⟩
  · rw [htd, htmp_d]
    show 8 + 8 * tail.length = 8 * (tail.length + 1)
    omega
  · rw [hte, htmp_v, lval]

/-- C1: for every concrete (literal) address whose `n` accessed byte slots
are all mapped, every well-sorted value `v` of width `8*n` bits (a positive
multiple of 8, at most one page), and every endianness, `Memory.store`
followed by `Memory.load` of the matching size succeeds and returns a value
equal to `v` under every assignment of the symbolic variables. -/
theorem store_load_roundtrip (σ : String → Nat) (cfg : Config) (m : Memory) (h : Heap)
    (fringe : Fringe) (w ib A n : Nat) (v : BV) (endness : String)
    (hbits : m.bits = w) (hibits : m.index_bits = ib)
    (hib : 1 ≤ ib) (hibw : ib ≤ w) (hn : 1 ≤ n) (hnpage : n ≤ m.page_size)
    (hAn : A + n ≤ 2 ^ w)
    (hinv : PagesInv m.pages h) (hwf : HeapWF h) (hws : PagesWS ib m h)
    (hmap : ∀ o, o < n → (m.pages.lookup ((A + o) / 2 ^ ib)).isSome = true)
    (hv : v.wsb = true) (hvw : v.width = 8 * n) :
    ∃ t, (Memory.load cfg (Memory.store cfg m h (.lit w A) v endness).1
        (Memory.store cfg m h (.lit w A) v endness).2 fringe (.lit w A) n
        endness).1 = Except.ok t ∧ evalBV σ t = evalBV σ v := by
  obtain ⟨k, rfl⟩ : ∃ k, n = k + 1 := ⟨n - 1, by omega⟩
  have h8n : 8 * (k + 1) / 8 = k + 1 := Nat.mul_div_cancel_left (k + 1) (by norm_num)
  have hstore_eq : Memory.store cfg m h (.lit w A) v endness =
      ((storeLoop cfg (.lit w A) v endness (8 * (k + 1))
          ((List.range (k + 1)).reverse) m h [] []).1,
       (storeLoop cfg (.lit w A) v endness (8 * (k + 1))
          ((List.range (k + 1)).reverse) m h [] []).2.1) := by
    rw [Memory.store, heuristicConc_concrete cfg m h (.lit w A) v.width
      (symbolic_lit w A), hvw, h8n, foldl_simplifyStep]
  have hpost := storeLoop_concrete σ cfg w ib (k + 1) A v endness hib hibw hAn hv hvw
    ((List.range (k + 1)).reverse) m h []
    (fun i hi => List.mem_range.mp (List.mem_reverse.mp hi))
    (List.nodup_reverse.mpr (List.nodup_range (k + 1)))
    hbits hibits hinv hwf hws hmap
  rw [StoreLoopPost] at hpost
  obtain ⟨hpbits, hpibits, _, _, hpinv, hpwf, hpws, hpkeys, hpca, _⟩ := hpost
  have hbytes : ∀ o, o < k + 1 →
      byteAtP σ (storeLoop cfg (.lit w A) v endness (8 * (k + 1))
          ((List.range (k + 1)).reverse) m h [] []).1
        (storeLoop cfg (.lit w A) v endness (8 * (k + 1))
          ((List.range (k + 1)).reverse) m h [] []).2.1
        ((A + o) / 2 ^ ib) ((A + o) % 2 ^ ib) =
      some (evalBV σ v / 256 ^ locIdx endness (k + 1) o % 256) := by
    intro o ho
    have hio : locIdx endness (k + 1) o < k + 1 := locIdx_lt _ _ _ ho
    have hmem : locIdx endness (k + 1) o ∈ (List.range (k + 1)).reverse :=
      List.mem_reverse.mpr (List.mem_range.mpr hio)
    have hloc : locIdx endness (k + 1) (locIdx endness (k + 1) o) = o := by
      by_cases hle : endness = "little" <;> simp [locIdx, hle] <;> omega
    have hca := hpca (locIdx endness (k + 1) o) hmem
    rw [hloc] at hca
    rw [hca]
    congr 1
    show evalBV σ v / 2 ^ (8 * locIdx endness (k + 1) o) %
      2 ^ (8 * (locIdx endness (k + 1) o + 1) - 1 + 1 - 8 * locIdx endness (k + 1) o) = _
    have he8 : 8 * (locIdx endness (k + 1) o + 1) - 1 + 1 -
      8 * locIdx endness (k + 1) o = 8 := by omega
    rw [he8, pow_mul]
    norm_num
  have hVlt : evalBV σ v < 256 ^ (k + 1) := by
    have hlt := evalBV_lt σ v
    rw [hvw] at hlt
    calc evalBV σ v < 2 ^ (8 * (k + 1)) := hlt
      _ = 256 ^ (k + 1) := by rw [pow_mul]; norm_num
  by_cases he : endness = "little"
  · have hran : (List.range (k + 1)).reverse = k :: (List.range k).reverse := by
      rw [List.range_succ, List.reverse_append, List.reverse_singleton,
        List.singleton_append]
    have hload_eq : Memory.load cfg (Memory.store cfg m h (.lit w A) v endness).1
        (Memory.store cfg m h (.lit w A) v endness).2 fringe (.lit w A) (k + 1)
        endness =
      loadFinish (k + 1)
        (loadLoop cfg (.lit w A) (k :: (List.range k).reverse)
          (storeLoop cfg (.lit w A) v endness (8 * (k + 1))
            ((List.range (k + 1)).reverse) m h [] []).1
          (storeLoop cfg (.lit w A) v endness (8 * (k + 1))
            ((List.range (k + 1)).reverse) m h [] []).2.1 none []).1
        (loadLoop cfg (.lit w A) (k :: (List.range k).reverse)
          (storeLoop cfg (.lit w A) v endness (8 * (k + 1))
            ((List.range (k + 1)).reverse) m h [] []).1
          (storeLoop cfg (.lit w A) v endness (8 * (k + 1))
            ((List.range (k + 1)).reverse) m h [] []).2.1 none []).2.1
        fringe
        (loadLoop cfg (.lit w A) (k :: (List.range k).reverse)
          (storeLoop cfg (.lit w A) v endness (8 * (k + 1))
            ((List.range (k + 1)).reverse) m h [] []).1
          (storeLoop cfg (.lit w A) v endness (8 * (k + 1))
            ((List.range (k + 1)).reverse) m h [] []).2.1 none []).2.2.2
        (loadLoop cfg (.lit w A) (k :: (List.range k).reverse)
          (storeLoop cfg (.lit w A) v endness (8 * (k + 1))
            ((List.range (k + 1)).reverse) m h [] []).1
          (storeLoop cfg (.lit w A) v endness (8 * (k + 1))
            ((List.range (k + 1)).reverse) m h [] []).2.1 none []).2.2.1 := by
      rw [hstore_eq, Memory.load,
        heuristicConc_concrete cfg _ _ (.lit w A) (k + 1) (symbolic_lit w A),
        if_pos he, hran]
    obtain ⟨_, hl2, _, t, hlt, htw, htd, hte⟩ :=
      loadLoop_concrete_none σ cfg w ib (k + 1) A
        (fun o => evalBV σ v / 256 ^ locIdx endness (k + 1) o % 256) hib hibw hAn
        k ((List.range k).reverse)
        (storeLoop cfg (.lit w A) v endness (8 * (k + 1))
          ((List.range (k + 1)).reverse) m h [] []).1
        (storeLoop cfg (.lit w A) v endness (8 * (k + 1))
          ((List.range (k + 1)).reverse) m h [] []).2.1 []
        (by
          intro j hj
          rcases List.mem_cons.mp hj with rfl | hj2
          · omega
          · have := List.mem_range.mp (List.mem_reverse.mp hj2)
            omega)
        hpbits hpibits hpinv hpwf hpws hbytes
        (fun o ho => (hpkeys _).trans (hmap o ho))
    have hwidth : t.width / 8 = k + 1 := by
      rw [htd, List.length_cons, List.length_reverse, List.length_range]
      exact Nat.mul_div_cancel_left (k + 1) (by norm_num)
    refine ⟨t.zsimp, ?_, ?_⟩
    · rw [hload_eq, hl2, hlt, loadFinish, if_pos hwidth]
    · rw [evalBV_zsimp σ t htw, hte, ← hran]
      have hcongr : ∀ o ∈ (List.range (k + 1)).reverse,
          evalBV σ v / 256 ^ locIdx endness (k + 1) o % 256 =
          evalBV σ v / 256 ^ o % 256 := by
        intro o _
        rw [locIdx, if_pos he]
      rw [lval_congr _ _ _ hcongr, lval_range_reverse, byteSum_digits_mod,
        Nat.mod_eq_of_lt hVlt]
  · have hran : List.range (k + 1) = 0 :: (List.range k).map Nat.succ :=
      List.range_succ_eq_map k
    have hload_eq : Memory.load cfg (Memory.store cfg m h (.lit w A) v endness).1
        (Memory.store cfg m h (.lit w A) v endness).2 fringe (.lit w A) (k + 1)
        endness =
      loadFinish (k + 1)
        (loadLoop cfg (.lit w A) (0 :: (List.range k).map Nat.succ)
          (storeLoop cfg (.lit w A) v endness (8 * (k + 1))
            ((List.range (k + 1)).reverse) m h [] []).1
          (storeLoop cfg (.lit w A) v endness (8 * (k + 1))
            ((List.range (k + 1)).reverse) m h [] []).2.1 none []).1
        (loadLoop cfg (.lit w A) (0 :: (List.range k).map Nat.succ)
          (storeLoop cfg (.lit w A) v endness (8 * (k + 1))
            ((List.range (k + 1)).reverse) m h [] []).1
          (storeLoop cfg (.lit w A) v endness (8 * (k + 1))
            ((List.range (k + 1)).reverse) m h [] []).2.1 none []).2.1
        fringe
        (loadLoop cfg (.lit w A) (0 :: (List.range k).map Nat.succ)
          (storeLoop cfg (.lit w A) v endness (8 * (k + 1))
            ((List.range (k + 1)).reverse) m h [] []).1
          (storeLoop cfg (.lit w A) v endness (8 * (k + 1))
            ((List.range (k + 1)).reverse) m h [] []).2.1 none []).2.2.2
        (loadLoop cfg (.lit w A) (0 :: (List.range k).map Nat.succ)
          (storeLoop cfg (.lit w A) v endness (8 * (k + 1))
            ((List.range (k + 1)).reverse) m h [] []).1
          (storeLoop cfg (.lit w A) v endness (8 * (k + 1))
            ((List.range (k + 1)).reverse) m h [] []).2.1 none []).2.2.1 := by
      rw [hstore_eq, Memory.load,
        heuristicConc_concrete cfg _ _ (.lit w A) (k + 1) (symbolic_lit w A),
        if_neg he, hran]
    obtain ⟨_, hl2, _, t, hlt, htw, htd, hte⟩ :=
      loadLoop_concrete_none σ cfg w ib (k + 1) A
        (fun o => evalBV σ v / 256 ^ locIdx endness (k + 1) o % 256) hib hibw hAn
        0 ((List.range k).map Nat.succ)
        (storeLoop cfg (.lit w A) v endness (8 * (k + 1))
          ((List.range (k + 1)).reverse) m h [] []).1
        (storeLoop cfg (.lit w A) v endness (8 * (k + 1))
          ((List.range (k + 1)).reverse) m h [] []).2.1 []
        (by
          intro j hj
          rcases List.mem_cons.mp hj with rfl | hj2
          · omega
          · obtain ⟨x, hx, rfl⟩ := List.mem_map.mp hj2
            have := List.mem_range.mp hx
            omega)
        hpbits hpibits hpinv hpwf hpws hbytes
        (fun o ho => (hpkeys _).trans (hmap o ho))
    have hwidth : t.width / 8 = k + 1 := by
      rw [htd, List.length_cons, List.length_map, List.length_range]
      exact Nat.mul_div_cancel_left (k + 1) (by norm_num)
    refine ⟨t.zsimp, ?_, ?_⟩
    · rw [hload_eq, hl2, hlt, loadFinish, if_pos hwidth]
    · rw [evalBV_zsimp σ t htw, hte, ← hran]
      have hcongr : ∀ o ∈ List.range (k + 1),
          evalBV σ v / 256 ^ locIdx endness (k + 1) o % 256 =
          (fun i => (fun j => evalBV σ v / 256 ^ j % 256) (k + 1 - 1 - i)) o := by
        intro o _
        rw [locIdx, if_neg he]
      rw [lval_congr _ _ _ hcongr,
        lval_range_big (fun j => evalBV σ v / 256 ^ j % 256) (k + 1),
        byteSum_digits_mod, Nat.mod_eq_of_lt hVlt]

/-! ## Copy-on-write isolation (claim C2) -/

theorem lazy_init_lazycopy (p : Page) : p.lazy_init.lazycopy = p.lazycopy := by
  cases hp : p.pending <;> simp [Page.lazy_init, hp]

theorem lazy_init_mo_flag (p : Page) (b : Bool) :
    ({ p with lazycopy := b } : Page).lazy_init.mo = p.lazy_init.mo := by
  cases hp : p.pending <;> simp [Page.lazy_init, hp]

/-- `Memory._store` never changes the memory's scalar fields. -/
theorem storeByte_frame (m : Memory) (h : Heap) (pa : Nat) (pidx val : BV)
    (cond : Option BoolE) :
    (m.storeByte h pa pidx val cond).1.bits = m.bits ∧
    (m.storeByte h pa pidx val cond).1.index_bits = m.index_bits ∧
    (m.storeByte h pa pidx val cond).1.state = m.state := by
  cases hlk : m.pages.lookup pa <;> simp [Memory.storeByte, hlk]

/-- The page objects `S` (another Memory's table entries) are protected
against in-place mutation by the storing memory `pages`: each is live,
already allocated, and COW-flagged wherever the storing table references
it. -/
def Protect (S : List Nat) (pages : List (Nat × Nat)) (h : Heap) : Prop :=
  ∀ oid ∈ S, oid < h.nextId ∧ (h.find oid).isSome = true ∧
    ∀ k, pages.lookup k = some oid → ∃ pg, h.find oid = some pg ∧ pg.lazycopy = true

/-- Heap evolution that keeps the materialized byte store (and
well-sortedness) of every page object in `S` intact. -/
def SView (ib : Nat) (S : List Nat) (h h' : Heap) : Prop :=
  ∀ oid ∈ S, ∀ pg', h'.find oid = some pg' →
    ∃ pg, h.find oid = some pg ∧ pg'.lazy_init.mo = pg.lazy_init.mo ∧
      (PageWS ib pg → PageWS ib pg')

theorem sview_rfl (ib : Nat) (S : List Nat) (h : Heap) : SView ib S h h :=
  fun _ _ pg' hf => ⟨pg', hf, rfl, fun x => x⟩

theorem sview_trans {ib : Nat} {S : List Nat} {h1 h2 h3 : Heap}
    (a : SView ib S h1 h2) (b : SView ib S h2 h3) : SView ib S h1 h3 := by
  intro oid hm pg3 hf3
  obtain ⟨pg2, hf2, hmo2, hws2⟩ := b oid hm pg3 hf3
  obtain ⟨pg1, hf1, hmo1, hws1⟩ := a oid hm pg2 hf2
  exact ⟨pg1, hf1, hmo2.trans hmo1, fun hws => hws2 (hws1 hws)⟩

/-- View of `Page.store` on the heap for the frame argument: untouched
objects keep their binding, the owning id is the stored-to id or a fresh
one, the allocation counter never decreases, and — decisively — a
COW-flagged page is forked, its own object keeping its materialized byte
store (only the pending blob and the flag are cleared on it). -/
theorem storeOp_view2 (h : Heap) (oid : Nat) (idx val : BV) (cond : Option BoolE)
    (pg0 : Page) (hfind : h.find oid = some pg0) (hwf : HeapWF h) :
    (∀ x, x ≠ oid → x ≠ (Page.storeOp h oid idx val cond).2 →
      (Page.storeOp h oid idx val cond).1.find x = h.find x) ∧
    ((Page.storeOp h oid idx val cond).2 = oid ∨
      (Page.storeOp h oid idx val cond).2 = h.nextId) ∧
    h.nextId ≤ (Page.storeOp h oid idx val cond).1.nextId ∧
    (pg0.lazycopy = true →
      (Page.storeOp h oid idx val cond).2 = h.nextId ∧
      ∃ pmid, (Page.storeOp h oid idx val cond).1.find oid = some pmid ∧
        pmid.pending = none ∧ pmid.mo = pg0.lazy_init.mo ∧ pmid.bits = pg0.bits) := by
  have hoid : oid < h.nextId := find_lt_nextId h hwf oid pg0 hfind
  simp only [Page.storeOp, hfind, Option.getD_some]
  set p := pg0.lazy_init with hp
  by_cases hlc : p.lazycopy
  · rw [if_pos hlc]
    set h1 := h.set oid p with hh1
    set p' : Page := { p with lazycopy := false } with hp'
    set h2 := h1.set oid p' with hh2
    set newPage : Page := { Page.new p.addr p.size p.bits none with mo := p.mo.copy }
      with hnp
    set h3 := (h2.alloc newPage).1 with hh3
    set nid := (h2.alloc newPage).2 with hnid
    set pfin : Page := { newPage with mo := newPage.mo.store idx val } with hpfin
    have hnidval : nid = h.nextId := rfl
    have hoidnid : oid ≠ nid := by rw [hnidval]; exact Nat.ne_of_lt hoid
    refine ⟨?_, Or.inr hnidval, ?_, fun _ => ⟨hnidval, p', ?_, lazy_init_pending pg0,
      rfl, lazy_init_bits pg0⟩⟩
    · intro x hxo hxn
      rw [Heap.find_set_ne _ _ _ _ hxn]
      show (h2.tbl ++ [(h2.nextId, newPage)]).lookup x = h.find x
      have hx2 : h2.find x = h.find x := by
        rw [Heap.find_set_ne _ _ _ _ hxo]
        exact Heap.find_set_ne _ _ _ _ hxo
      cases hc : h.find x with
      | some pg =>
        rw [hc] at hx2
        exact lookup_append_some _ _ _ _ hx2
      | none =>
        rw [hc] at hx2
        rw [lookup_append_none _ _ _ hx2]
        exact (lookup_cons_ne h2.nextId x newPage [] hxn).trans rfl
    · show h.nextId ≤ (h3.set nid pfin).nextId
      rw [Heap.set_nextId]
      have e1 : h3.nextId = h2.nextId + 1 := rfl
      have e2 : h2.nextId = h.nextId := rfl
      omega
    · rw [Heap.find_set_ne _ _ _ _ hoidnid]
      show (h2.tbl ++ [(h2.nextId, newPage)]).lookup oid = some p'
      exact lookup_append_some _ _ _ _ (Heap.find_set_self _ _ _)
  · rw [if_neg hlc]
    refine ⟨?_, Or.inl rfl, le_refl _, fun hfl => ?_⟩
    · intro x hxo _
      rw [Heap.find_set_ne _ _ _ _ hxo]
      exact Heap.find_set_ne _ _ _ _ hxo
    · exact absurd ((lazy_init_lazycopy pg0).trans hfl) hlc

/-- `Memory._store` into one memory cannot disturb the byte stores of the
protected page objects of another memory: a protected shared page is
COW-flagged, so the write forks it and the shared object survives with its
content; protection itself is maintained. -/
theorem storeByte_protect (ib : Nat) (m : Memory) (h : Heap) (pa : Nat) (pidx val : BV)
    (cond : Option BoolE) (S : List Nat)
    (hinv : PagesInv m.pages h) (hwf : HeapWF h) (hS : Protect S m.pages h) :
    Protect S (m.storeByte h pa pidx val cond).1.pages
      (m.storeByte h pa pidx val cond).2 ∧
    SView ib S h (m.storeByte h pa pidx val cond).2 := by
  cases hlk : m.pages.lookup pa with
  | none =>
    simp only [Memory.storeByte, hlk]
    exact ⟨hS, sview_rfl ib S h⟩
  | some oid0 =>
    obtain ⟨pg0, hfind, haddr⟩ := hinv pa oid0 (mem_of_lookup _ _ _ hlk)
    have hoid0lt : oid0 < h.nextId := find_lt_nextId h hwf oid0 pg0 hfind
    obtain ⟨hstab, hdisj, hnext, hflagfork⟩ :=
      storeOp_view2 h oid0 pidx val cond pg0 hfind hwf
    have hview : ∀ oid ∈ S,
        ∃ pg', (Page.storeOp h oid0 pidx val cond).1.find oid = some pg' ∧
        ∃ pg, h.find oid = some pg ∧ pg'.lazy_init.mo = pg.lazy_init.mo ∧
          (PageWS ib pg → PageWS ib pg') := by
      intro oid hoidS
      obtain ⟨hlt, hsome, hflag⟩ := hS oid hoidS
      obtain ⟨pgl, hfindl⟩ := Option.isSome_iff_exists.mp hsome
      by_cases hoe : oid = oid0
      · subst hoe
        have hpgl : pgl = pg0 := by
          have h2 := hfindl.symm.trans hfind
          injection h2
        subst hpgl
        obtain ⟨pgf, hfindf, hflagf⟩ := hflag pa hlk
        have hpgf : pgf = pgl := by
          have h2 := hfindf.symm.trans hfindl
          injection h2
        subst hpgf
        obtain ⟨hr2, pmid, hfmid, hpend, hmo, hbitsm⟩ := hflagfork hflagf
        refine ⟨pmid, hfmid, pgf, hfindl, ?_, ?_⟩
        · rw [lazy_init_of_pending_none pmid hpend, hmo]
        · intro hws0
          refine ⟨by rw [hbitsm]; exact hws0.1, ?_⟩
          rw [MoWS, hmo]
          exact (PageWS_lazy_init ib pgf hws0).2
      · have hner2 : oid ≠ (Page.storeOp h oid0 pidx val cond).2 := by
          rcases hdisj with hd | hd
          · rw [hd]; exact hoe
          · rw [hd]; exact Nat.ne_of_lt hlt
        refine ⟨pgl, ?_, pgl, hfindl, rfl, fun x => x⟩
        rw [hstab oid hoe hner2]
        exact hfindl
    simp only [Memory.storeByte, hlk]
    constructor
    · intro oid hoidS
      obtain ⟨hlt, hsome, hflag⟩ := hS oid hoidS
      obtain ⟨pg', hfind', _⟩ := hview oid hoidS
      refine ⟨Nat.lt_of_lt_of_le hlt hnext, by rw [hfind']; rfl, ?_⟩
      intro k hlookup'
      by_cases hk : k = pa
      · subst hk
        rw [lookup_alset_self] at hlookup'
        injection hlookup' with hr2oid
        exfalso
        rcases hdisj with hd | hd
        · have hoid_eq : oid = oid0 := by rw [← hr2oid, hd]
          subst hoid_eq
          obtain ⟨pgf, hfindf, hflagf⟩ := hflag k hlk
          have hpgf : pgf = pg0 := by
            have h2 := hfindf.symm.trans hfind
            injection h2
          subst hpgf
          obtain ⟨hr2, _⟩ := hflagfork hflagf
          rw [hd] at hr2
          exact Nat.lt_irrefl _ (hr2 ▸ hoid0lt)
        · rw [hd] at hr2oid
          exact Nat.lt_irrefl _ (hr2oid ▸ hlt)
      · rw [lookup_alset_ne _ _ _ _ hk] at hlookup'
        obtain ⟨pgk, hfk, hflk⟩ := hflag k hlookup'
        have hoe : oid ≠ oid0 := by
          intro he
          subst he
          obtain ⟨pgx, hfx, hax⟩ := hinv k oid (mem_of_lookup _ _ _ hlookup')
          have hpgx : pg0 = pgx := by
            have h2 := hfind.symm.trans hfx
            injection h2
          apply hk
          rw [← hax, ← hpgx, haddr]
        have hner2 : oid ≠ (Page.storeOp h oid0 pidx val cond).2 := by
          rcases hdisj with hd | hd
          · rw [hd]; exact hoe
          · rw [hd]; exact Nat.ne_of_lt hlt
        refine ⟨pgk, ?_, hflk⟩
        rw [hstab oid hoe hner2]
        exact hfk
    · intro oid hoidS pg' hfind'
      obtain ⟨pg'', hfind'', pg, hfp, hmo, hws⟩ := hview oid hoidS
      have hpg : pg'' = pg' := by
        have h2 := hfind''.symm.trans hfind'
        injection h2
      subst hpg
      exact ⟨pg, hfp, hmo, hws⟩

/-- The `store` byte loop at a literal address preserves the protection of
another memory's page objects and their contents. -/
theorem storeLoop_concrete_protect (ib w nS aS : Nat) (cfg : Config) (vS : BV)
    (endS : String) (S : List Nat)
    (hib : 1 ≤ ib) (hibw : ib ≤ w) (hASn : aS + nS ≤ 2 ^ w) :
    ∀ (l : List Nat) (m : Memory) (h : Heap) (paddrs : List Nat),
      (∀ i ∈ l, i < nS) →
      m.bits = w → m.index_bits = ib →
      PagesInv m.pages h → HeapWF h → Protect S m.pages h →
      Protect S (storeLoop cfg (.lit w aS) vS endS (8 * nS) l m h [] paddrs).1.pages
        (storeLoop cfg (.lit w aS) vS endS (8 * nS) l m h [] paddrs).2.1 ∧
      SView ib S h (storeLoop cfg (.lit w aS) vS endS (8 * nS) l m h [] paddrs).2.1 ∧
      (storeLoop cfg (.lit w aS) vS endS (8 * nS) l m h [] paddrs).2.2.1 = []
  | [], m, h, paddrs, _, _, _, _, _, hprot => by
    rw [storeLoop]
    exact ⟨hprot, sview_rfl ib S h, rfl⟩
  | i :: rest, m, h, paddrs, hl, hbits, hibits, hinv, hwf, hprot => by
    have hi : i < nS := hl i (List.mem_cons_self _ _)
    have hd : locIdx endS nS i < nS := locIdx_lt endS nS i hi
    have hq : (aS + locIdx endS nS i) / 2 ^ ib < 2 ^ (w - ib) :=
      div_lt_pow_sub w ib _ hibw (by omega)
    rw [storeLoop_step cfg w ib nS aS (locIdx endS nS i) vS endS i rest m h paddrs
      hbits hibits hq (storePr_concrete w ib nS aS i endS hib hibw hi hASn)]
    obtain ⟨hprot1, hview1⟩ :=
      storeByte_protect ib m h ((aS + locIdx endS nS i) / 2 ^ ib)
        (.lit ib ((aS + locIdx endS nS i) % 2 ^ ib))
        (BV.extract (8 * (i + 1) - 1) (8 * i) vS) none S hinv hwf hprot
    obtain ⟨hinv1, hwf1, _, _⟩ :=
      storeByte_good m h ((aS + locIdx endS nS i) / 2 ^ ib)
        (.lit ib ((aS + locIdx endS nS i) % 2 ^ ib))
        (BV.extract (8 * (i + 1) - 1) (8 * i) vS) none hinv hwf
    obtain ⟨hfb, hfi, _⟩ :=
      storeByte_frame m h ((aS + locIdx endS nS i) / 2 ^ ib)
        (.lit ib ((aS + locIdx endS nS i) % 2 ^ ib))
        (BV.extract (8 * (i + 1) - 1) (8 * i) vS) none
    obtain ⟨hp2, hv2, hc2⟩ :=
      storeLoop_concrete_protect ib w nS aS cfg vS endS S hib hibw hASn rest
        (Memory.storeByte m h ((aS + locIdx endS nS i) / 2 ^ ib)
          (.lit ib ((aS + locIdx endS nS i) % 2 ^ ib))
          (BV.extract (8 * (i + 1) - 1) (8 * i) vS) none).1
        (Memory.storeByte m h ((aS + locIdx endS nS i) / 2 ^ ib)
          (.lit ib ((aS + locIdx endS nS i) % 2 ^ ib))
          (BV.extract (8 * (i + 1) - 1) (8 * i) vS) none).2
        (insertSet paddrs ((aS + locIdx endS nS i) / 2 ^ ib))
        (fun j hj => hl j (List.mem_cons_of_mem _ hj))
        (hfb.trans hbits) (hfi.trans hibits) hinv1 hwf1 hprot1
    exact ⟨hp2, sview_trans hview1 hv2, hc2⟩

/-- `Memory.store` at a literal address is exactly the concrete byte loop
(the heuristic cannot fire, the final simplification pass is a heap
identity). -/
theorem store_concrete_eq (cfg : Config) (m : Memory) (h : Heap) (w A n : Nat) (v : BV)
    (endness : String) (hvw : v.width = 8 * n) :
    Memory.store cfg m h (.lit w A) v endness =
      ((storeLoop cfg (.lit w A) v endness (8 * n) ((List.range n).reverse) m h [] []).1,
       (storeLoop cfg (.lit w A) v endness (8 * n) ((List.range n).reverse) m h
         [] []).2.1) := by
  have h8n : 8 * n / 8 = n := Nat.mul_div_cancel_left n (by norm_num)
  rw [Memory.store, heuristicConc_concrete cfg m h (.lit w A) v.width
    (symbolic_lit w A), hvw, h8n, foldl_simplifyStep]

/-- `Memory.store` at a literal address preserves the protection (and the
contents) of another memory's page objects. -/
theorem store_concrete_protect (ib w nS aS : Nat) (cfg : Config) (vS : BV)
    (endS : String) (S : List Nat) (m : Memory) (h : Heap)
    (hbits : m.bits = w) (hibits : m.index_bits = ib)
    (hib : 1 ≤ ib) (hibw : ib ≤ w) (hASn : aS + nS ≤ 2 ^ w)
    (hvSw : vS.width = 8 * nS)
    (hinv : PagesInv m.pages h) (hwf : HeapWF h) (hprot : Protect S m.pages h) :
    Protect S (Memory.store cfg m h (.lit w aS) vS endS).1.pages
      (Memory.store cfg m h (.lit w aS) vS endS).2 ∧
    SView ib S h (Memory.store cfg m h (.lit w aS) vS endS).2 := by
  rw [store_concrete_eq cfg m h w aS nS vS endS hvSw]
  obtain ⟨hp, hv, _⟩ :=
    storeLoop_concrete_protect ib w nS aS cfg vS endS S hib hibw hASn
      ((List.range nS).reverse) m h []
      (fun i hi => List.mem_range.mp (List.mem_reverse.mp hi))
      hbits hibits hinv hwf hprot
  exact ⟨hp, hv⟩

/-- A mapped cell always reads as some byte. -/
theorem byteAtP_isSome (σ : String → Nat) (m : Memory) (h : Heap) (pa off : Nat)
    (hinv : PagesInv m.pages h) (hlk : (m.pages.lookup pa).isSome = true) :
    ∃ b, byteAtP σ m h pa off = some b := by
  obtain ⟨oid, hlko⟩ := Option.isSome_iff_exists.mp hlk
  obtain ⟨pg, hfind, _⟩ := hinv pa oid (mem_of_lookup _ _ _ hlko)
  exact ⟨moFindVal σ off pg.lazy_init.mo.entries, by simp only [byteAtP, hlko, hfind]⟩

/-- Content-preserving heap evolution preserves every byte cell of a
memory whose page objects are all protected. -/
theorem byteAtP_stable (σ : String → Nat) (ib : Nat) (mL : Memory) (S : List Nat)
    (ha hb : Heap)
    (hsub : ∀ k oid, mL.pages.lookup k = some oid → oid ∈ S)
    (hview : SView ib S ha hb)
    (hsomeB : ∀ oid ∈ S, (hb.find oid).isSome = true) :
    ∀ pa off, byteAtP σ mL hb pa off = byteAtP σ mL ha pa off := by
  intro pa off
  cases hlk : mL.pages.lookup pa with
  | none => simp only [byteAtP, hlk]
  | some oid =>
    have hoidS := hsub pa oid hlk
    obtain ⟨pgb, hfb⟩ := Option.isSome_iff_exists.mp (hsomeB oid hoidS)
    obtain ⟨pga, hfa, hmo, _⟩ := hview oid hoidS pgb hfb
    simp only [byteAtP, hlk, hfb, hfa, hmo]

/-- Content-preserving heap evolution preserves well-sortedness of a
memory's pages. -/
theorem pagesWS_of_sview (ib : Nat) (mL : Memory) (S : List Nat) (ha hb : Heap)
    (hsub : ∀ k oid, (k, oid) ∈ mL.pages → oid ∈ S)
    (hview : SView ib S ha hb) (hws : PagesWS ib mL ha) : PagesWS ib mL hb := by
  intro k oid hm pg' hf'
  obtain ⟨pg, hfa, _, hwst⟩ := hview oid (hsub k oid hm) pg' hf'
  exact hwst (hws k oid hm pg hfa)

/-- `Memory.load` of `n` mapped bytes at a literal address succeeds, and
the returned value is determined by the byte cells alone (the
endianness-ordered positional sum of the cell map `B`). -/
theorem load_concrete_value (σ : String → Nat) (cfg : Config) (mL : Memory) (h : Heap)
    (fringe : Fringe) (w ib A n : Nat) (endness : String) (B : Nat → Nat)
    (hbits : mL.bits = w) (hibits : mL.index_bits = ib)
    (hib : 1 ≤ ib) (hibw : ib ≤ w) (hn : 1 ≤ n) (hAn : A + n ≤ 2 ^ w)
    (hinv : PagesInv mL.pages h) (hwf : HeapWF h) (hws : PagesWS ib mL h)
    (hmap : ∀ o, o < n → (mL.pages.lookup ((A + o) / 2 ^ ib)).isSome = true)
    (hbytes : ∀ o, o < n →
      byteAtP σ mL h ((A + o) / 2 ^ ib) ((A + o) % 2 ^ ib) = some (B o)) :
    ∃ t, (Memory.load cfg mL h fringe (.lit w A) n endness).1 = Except.ok t ∧
      evalBV σ t =
        lval B (if endness = "little" then (List.range n).reverse else List.range n) := by
  obtain ⟨k, rfl⟩ : ∃ k, n = k + 1 := ⟨n - 1, by omega⟩
  by_cases he : endness = "little"
  · have hran : (List.range (k + 1)).reverse = k :: (List.range k).reverse := by
      rw [List.range_succ, List.reverse_append, List.reverse_singleton,
        List.singleton_append]
    have hload_eq : Memory.load cfg mL h fringe (.lit w A) (k + 1) endness =
      loadFinish (k + 1)
        (loadLoop cfg (.lit w A) (k :: (List.range k).reverse) mL h none []).1
        (loadLoop cfg (.lit w A) (k :: (List.range k).reverse) mL h none []).2.1
        fringe
        (loadLoop cfg (.lit w A) (k :: (List.range k).reverse) mL h none []).2.2.2
        (loadLoop cfg (.lit w A) (k :: (List.range k).reverse) mL h none []).2.2.1 := by
      rw [Memory.load, heuristicConc_concrete cfg mL h (.lit w A) (k + 1)
        (symbolic_lit w A), if_pos he, hran]
    obtain ⟨_, hl2, _, t, hlt, htw, htd, hte⟩ :=
      loadLoop_concrete_none σ cfg w ib (k + 1) A B hib hibw hAn
        k ((List.range k).reverse) mL h []
        (by
          intro j hj
          rcases List.mem_cons.mp hj with rfl | hj2
          · omega
          · have := List.mem_range.mp (List.mem_reverse.mp hj2)
            omega)
        hbits hibits hinv hwf hws hbytes hmap
    have hwidth : t.width / 8 = k + 1 := by
      rw [htd, List.length_cons, List.length_reverse, List.length_range]
      exact Nat.mul_div_cancel_left (k + 1) (by norm_num)
    refine ⟨t.zsimp, ?_, ?_⟩
    · rw [hload_eq, hl2, hlt, loadFinish, if_pos hwidth]
    · rw [evalBV_zsimp σ t htw, hte, if_pos he, hran]
  · have hran : List.range (k + 1) = 0 :: (List.range k).map Nat.succ :=
      List.range_succ_eq_map k
    have hload_eq : Memory.load cfg mL h fringe (.lit w A) (k + 1) endness =
      loadFinish (k + 1)
        (loadLoop cfg (.lit w A) (0 :: (List.range k).map Nat.succ) mL h none []).1
        (loadLoop cfg (.lit w A) (0 :: (List.range k).map Nat.succ) mL h none []).2.1
        fringe
        (loadLoop cfg (.lit w A) (0 :: (List.range k).map Nat.succ) mL h none []).2.2.2
        (loadLoop cfg (.lit w A) (0 :: (List.range k).map Nat.succ) mL h
          none []).2.2.1 := by
      rw [Memory.load, heuristicConc_concrete cfg mL h (.lit w A) (k + 1)
        (symbolic_lit w A), if_neg he, hran]
    obtain ⟨_, hl2, _, t, hlt, htw, htd, hte⟩ :=
      loadLoop_concrete_none σ cfg w ib (k + 1) A B hib hibw hAn
        0 ((List.range k).map Nat.succ) mL h []
        (by
          intro j hj
          rcases List.mem_cons.mp hj with rfl | hj2
          · omega
          · obtain ⟨x, hx, rfl⟩ := List.mem_map.mp hj2
            have := List.mem_range.mp hx
            omega)
        hbits hibits hinv hwf hws hbytes hmap
    have hwidth : t.width / 8 = k + 1 := by
      rw [htd, List.length_cons, List.length_map, List.length_range]
      exact Nat.mul_div_cancel_left (k + 1) (by norm_num)
    refine ⟨t.zsimp, ?_, ?_⟩
    · rw [hload_eq, hl2, hlt, loadFinish, if_pos hwidth]
    · rw [evalBV_zsimp σ t htw, hte, if_neg he, hran]

theorem copyFold_nextId :
    ∀ (l : List (Nat × Nat)) (acc : List (Nat × Nat)) (h : Heap),
      (copyFold l acc h).2.nextId = h.nextId
  | [], _, _ => rfl
  | kv :: rest, acc, h => by
    rw [copyFold]
    exact copyFold_nextId rest _ _

/-- `Page.copy` on the heap only sets the COW flag: every object's
materialized byte store (and well-sortedness) survives. -/
theorem copyOp_sview_step (ib : Nat) (h : Heap) (oid' : Nat) (pg0 : Page)
    (hfind : h.find oid' = some pg0) :
    ∀ x pg', (Page.copyOp h oid').1.find x = some pg' →
      ∃ pg, h.find x = some pg ∧ pg'.lazy_init.mo = pg.lazy_init.mo ∧
        (PageWS ib pg → PageWS ib pg') := by
  intro x pg' hf'
  by_cases hx : x = oid'
  · subst hx
    simp only [Page.copyOp, hfind, Option.getD_some] at hf'
    rw [Heap.find_set_self] at hf'
    injection hf' with hE
    refine ⟨pg0, hfind, ?_, ?_⟩
    · rw [← hE]
      exact lazy_init_mo_flag pg0 true
    · rw [← hE]
      exact fun hws => hws
  · simp only [Page.copyOp] at hf'
    rw [Heap.find_set_ne _ _ _ _ hx] at hf'
    exact ⟨pg', hf', rfl, fun hws => hws⟩

theorem copyFold_sview (ib : Nat) :
    ∀ (l : List (Nat × Nat)) (acc : List (Nat × Nat)) (h : Heap),
      (∀ kv ∈ l, (h.find (kv.2 : Nat)).isSome = true) →
      ∀ x pg', (copyFold l acc h).2.find x = some pg' →
        ∃ pg, h.find x = some pg ∧ pg'.lazy_init.mo = pg.lazy_init.mo ∧
          (PageWS ib pg → PageWS ib pg')
  | [], _, _, _, x, pg', hf' => ⟨pg', hf', rfl, fun hws => hws⟩
  | kv :: rest, acc, h, hlive, x, pg', hf' => by
    obtain ⟨pg0, hfind0⟩ :=
      Option.isSome_iff_exists.mp (hlive kv (List.mem_cons_self _ _))
    rw [copyFold] at hf'
    have hlive1 : ∀ kv' ∈ rest, ((Page.copyOp h kv.2).1.find (kv'.2 : Nat)).isSome = true := by
      intro kv' hm
      by_cases hx : (kv'.2 : Nat) = kv.2
      · simp only [Page.copyOp, hfind0, Option.getD_some]
        rw [hx, Heap.find_set_self]
        rfl
      · simp only [Page.copyOp]
        rw [Heap.find_set_ne _ _ _ _ hx]
        exact hlive kv' (List.mem_cons_of_mem _ hm)
    obtain ⟨pgm, hfm, hmom, hwsm⟩ := copyFold_sview ib rest _ _ hlive1 x pg' hf'
    obtain ⟨pg, hf, hmo, hws⟩ := copyOp_sview_step ib h kv.2 pg0 hfind0 x pgm hfm
    exact ⟨pg, hf, hmom.trans hmo, fun hw => hwsm (hws hw)⟩

/-- After `Memory.copy`, the copy's table is the source's table, every
shared page object is protected against both memories' tables, and every
object's content is intact. -/
theorem copy_protect (ib : Nat) (m : Memory) (h : Heap) (st2 : SState)
    (hinv : PagesInv m.pages h) (hwf : HeapWF h) :
    (m.copy h st2).1.pages = m.pages ∧
    Protect (m.pages.map Prod.snd) m.pages (m.copy h st2).2 ∧
    SView ib (m.pages.map Prod.snd) h (m.copy h st2).2 ∧
    PagesInv m.pages (m.copy h st2).2 ∧ HeapWF (m.copy h st2).2 := by
  obtain ⟨_, hwf2, hpres2⟩ := copy_good m h st2 hinv hwf
  have hpages : (m.copy h st2).1.pages = m.pages := by
    show (copyFold m.pages [] h).1 = m.pages
    rw [copyFold_pages]
    rfl
  have hnext2 : (m.copy h st2).2.nextId = h.nextId := copyFold_nextId m.pages [] h
  refine ⟨hpages, ?_, ?_, PagesInv_mono hinv hpres2, hwf2⟩
  · intro oid hm
    obtain ⟨⟨k0, oid0⟩, hmem, hsnd⟩ := List.mem_map.mp hm
    have hoid : oid0 = oid := hsnd
    subst hoid
    obtain ⟨pg, hfind, _⟩ := hinv k0 oid0 hmem
    obtain ⟨pgf, hff, hflf⟩ := copyFold_flagT_mem m.pages [] h k0 oid0 hmem
    refine ⟨?_, ?_, ?_⟩
    · rw [hnext2]
      exact find_lt_nextId h hwf oid0 pg hfind
    · show ((m.copy h st2).2.find oid0).isSome = true
      have : (m.copy h st2).2.find oid0 = some pgf := hff
      rw [this]
      rfl
    · intro k _
      exact ⟨pgf, hff, hflf⟩
  · intro oid hm pg' hf'
    have hlive : ∀ kv ∈ m.pages, (h.find (kv.2 : Nat)).isSome = true := by
      intro kv hmem
      obtain ⟨pg, hfind, _⟩ := hinv kv.1 kv.2 (by
        have : (kv.1, kv.2) = kv := rfl
        rw [this]; exact hmem)
      rw [hfind]
      rfl
    exact copyFold_sview ib m.pages [] h hlive oid pg' hf'

/-- The value a memory's `load` returns at a literal address is unchanged
by a `store` at a literal address performed through another memory, when
every page object of the loading memory is protected (COW-flagged wherever
the storing table references it). -/
theorem store_other_load_value (σ : String → Nat) (cfgS cfgL : Config)
    (mS mL : Memory) (h : Heap) (fringe : Fringe)
    (w ib aS nS A n : Nat) (vS : BV) (endS endL : String)
    (hbitsS : mS.bits = w) (hibitsS : mS.index_bits = ib)
    (hbitsL : mL.bits = w) (hibitsL : mL.index_bits = ib)
    (hib : 1 ≤ ib) (hibw : ib ≤ w) (hn : 1 ≤ n)
    (hASn : aS + nS ≤ 2 ^ w) (hAn : A + n ≤ 2 ^ w)
    (hvSw : vS.width = 8 * nS)
    (hinvS : PagesInv mS.pages h) (hwf : HeapWF h)
    (hinvL : PagesInv mL.pages h) (hwsL : PagesWS ib mL h)
    (hprot : Protect (mL.pages.map Prod.snd) mS.pages h)
    (hmapL : ∀ o, o < n → (mL.pages.lookup ((A + o) / 2 ^ ib)).isSome = true) :
    ∃ t t', (Memory.load cfgL mL (Memory.store cfgS mS h (.lit w aS) vS endS).2
        fringe (.lit w A) n endL).1 = Except.ok t ∧
      (Memory.load cfgL mL h fringe (.lit w A) n endL).1 = Except.ok t' ∧
      evalBV σ t = evalBV σ t' := by
  obtain ⟨hprot2, hview2⟩ := store_concrete_protect ib w nS aS cfgS vS endS
    (mL.pages.map Prod.snd) mS h hbitsS hibitsS hib hibw hASn hvSw hinvS hwf hprot
  have hbytes : ∀ o, o < n →
      byteAtP σ mL h ((A + o) / 2 ^ ib) ((A + o) % 2 ^ ib) =
      some ((byteAtP σ mL h ((A + o) / 2 ^ ib) ((A + o) % 2 ^ ib)).getD 0) := by
    intro o ho
    obtain ⟨b, hb⟩ := byteAtP_isSome σ mL h _ _ hinvL (hmapL o ho)
    rw [hb]
    rfl
  have hsub1 : ∀ k oid, mL.pages.lookup k = some oid → oid ∈ mL.pages.map Prod.snd :=
    fun k oid hk => List.mem_map.mpr ⟨(k, oid), mem_of_lookup _ _ _ hk, rfl⟩
  have hsub2 : ∀ k oid, (k, oid) ∈ mL.pages → oid ∈ mL.pages.map Prod.snd :=
    fun k oid hm => List.mem_map.mpr ⟨(k, oid), hm, rfl⟩
  have hsomeB : ∀ oid ∈ mL.pages.map Prod.snd,
      ((Memory.store cfgS mS h (.lit w aS) vS endS).2.find oid).isSome = true :=
    fun oid hm => (hprot2 oid hm).2.1
  have hstable := byteAtP_stable σ ib mL (mL.pages.map Prod.snd) h
    (Memory.store cfgS mS h (.lit w aS) vS endS).2 hsub1 hview2 hsomeB
  obtain ⟨_, hwf2, hpres2⟩ := store_good cfgS mS h (.lit w aS) vS endS hinvS hwf
  have hinvL2 : PagesInv mL.pages (Memory.store cfgS mS h (.lit w aS) vS endS).2 :=
    PagesInv_mono hinvL hpres2
  have hwsL2 : PagesWS ib mL (Memory.store cfgS mS h (.lit w aS) vS endS).2 :=
    pagesWS_of_sview ib mL (mL.pages.map Prod.snd) h _ hsub2 hview2 hwsL
  obtain ⟨t, hok, hval⟩ := load_concrete_value σ cfgL mL
    (Memory.store cfgS mS h (.lit w aS) vS endS).2 fringe w ib A n endL
    (fun o => (byteAtP σ mL h ((A + o) / 2 ^ ib) ((A + o) % 2 ^ ib)).getD 0)
    hbitsL hibitsL hib hibw hn hAn hinvL2 hwf2 hwsL2 hmapL
    (fun o ho => (hstable _ _).trans (hbytes o ho))
  obtain ⟨t', hok', hval'⟩ := load_concrete_value σ cfgL mL h fringe w ib A n endL
    (fun o => (byteAtP σ mL h ((A + o) / 2 ^ ib) ((A + o) % 2 ^ ib)).getD 0)
    hbitsL hibitsL hib hibw hn hAn hinvL hwf hwsL hmapL hbytes
  exact ⟨t, t', hok, hok', hval.trans hval'.symm⟩

/-- C2: for a Memory `M` with a mapped concrete address `a` and
`M2 = M.copy(state2)`, a store into `M2` at `a` does not change the value
subsequently returned by `M.load(a, ...)`, and symmetrically a store into
`M` at `a` does not change the value returned by `M2.load(a, ...)`: both
loads succeed and return values equal (under every assignment) to the
loads performed without the other memory's store. -/
theorem cow_store_isolation (σ : String → Nat) (cfgS cfgL : Config) (m : Memory)
    (h : Heap) (st2 : SState) (fringe : Fringe)
    (w ib a nS n : Nat) (vS : BV) (endS endL : String)
    (hbits : m.bits = w) (hibits : m.index_bits = ib)
    (hlog : Nat.log2 m.page_size = ib)
    (hib : 1 ≤ ib) (hibw : ib ≤ w) (hn : 1 ≤ n)
    (haSn : a + nS ≤ 2 ^ w) (haF : a + n ≤ 2 ^ w)
    (hvSw : vS.width = 8 * nS)
    (hinv : PagesInv m.pages h) (hwf : HeapWF h) (hws : PagesWS ib m h)
    (hmap : ∀ o, o < n → (m.pages.lookup ((a + o) / 2 ^ ib)).isSome = true) :
    (∃ t t', (Memory.load cfgL m
        (Memory.store cfgS (m.copy h st2).1 (m.copy h st2).2 (.lit w a) vS endS).2
        fringe (.lit w a) n endL).1 = Except.ok t ∧
      (Memory.load cfgL m (m.copy h st2).2 fringe (.lit w a) n endL).1 =
        Except.ok t' ∧
      evalBV σ t = evalBV σ t') ∧
    (∃ u u', (Memory.load cfgL (m.copy h st2).1
        (Memory.store cfgS m (m.copy h st2).2 (.lit w a) vS endS).2
        fringe (.lit w a) n endL).1 = Except.ok u ∧
      (Memory.load cfgL (m.copy h st2).1 (m.copy h st2).2 fringe (.lit w a)
        n endL).1 = Except.ok u' ∧
      evalBV σ u = evalBV σ u') := by
  obtain ⟨hpages, hprotC, hviewC, hinv1, hwf1⟩ := copy_protect ib m h st2 hinv hwf
  have hsub2m : ∀ k oid, (k, oid) ∈ m.pages → oid ∈ m.pages.map Prod.snd :=
    fun k oid hm => List.mem_map.mpr ⟨(k, oid), hm, rfl⟩
  have hws1 : PagesWS ib m (m.copy h st2).2 :=
    pagesWS_of_sview ib m (m.pages.map Prod.snd) h _ hsub2m hviewC hws
  have hbits2 : (m.copy h st2).1.bits = w := hbits
  have hibits2 : (m.copy h st2).1.index_bits = ib := hlog
  constructor
  · refine store_other_load_value σ cfgS cfgL (m.copy h st2).1 m (m.copy h st2).2
      fringe w ib a nS a n vS endS endL hbits2 hibits2 hbits hibits hib hibw hn
      haSn haF hvSw ?_ hwf1 hinv1 hws1 ?_ hmap
    · show PagesInv (m.copy h st2).1.pages (m.copy h st2).2
      rw [hpages]
      exact hinv1
    · show Protect (m.pages.map Prod.snd) (m.copy h st2).1.pages (m.copy h st2).2
      rw [hpages]
      exact hprotC
  · refine store_other_load_value σ cfgS cfgL m (m.copy h st2).1 (m.copy h st2).2
      fringe w ib a nS a n vS endS endL hbits hibits hbits2 hibits2 hib hibw hn
      haSn haF hvSw hinv1 hwf1 ?_ ?_ ?_ ?_
    · show PagesInv (m.copy h st2).1.pages (m.copy h st2).2
      rw [hpages]
      exact hinv1
    · intro k oid hm pg hf
      rw [hpages] at hm
      exact hws1 k oid hm pg hf
    · show Protect ((m.copy h st2).1.pages.map Prod.snd) m.pages (m.copy h st2).2
      rw [hpages]
      exact hprotC
    · intro o ho
      show ((m.copy h st2).1.pages.lookup ((a + o) / 2 ^ ib)).isSome = true
      rw [hpages]
      exact hmap o ho

/-- A trivially satisfiable solver oracle for the concrete runs. -/
def cfg0 : Config :=
  { heuristic := false, satQ := fun _ _ => false, symbQ := fun _ _ => false,
    evalLongQ := fun _ _ => 0, unconQ := fun _ _ => false }

/-- A 4-bit memory with 2-byte pages and the single page slot 0 mapped, for
the round-trip run. -/
def c1mem : Memory :=
  { bits := 4, page_size := 2, index_bits := 1, pages := [(0, 0)], state := ⟨[]⟩ }

/-- The heap of `c1mem`: one live fresh page object. -/
def c1heap : Heap := ⟨[(0, Page.new 0 2 1 none)], 1⟩

theorem store_load_roundtrip_witness :
    ∃ t, (Memory.load cfg0 (Memory.store cfg0 c1mem c1heap (.lit 4 0) (.lit 8 171) "big").1
        (Memory.store cfg0 c1mem c1heap (.lit 4 0) (.lit 8 171) "big").2 [] (.lit 4 0) 1
        "big").1 = Except.ok t ∧
      evalBV (fun _ => 0) t = evalBV (fun _ => 0) (.lit 8 171) :=
  store_load_roundtrip (fun _ => 0) cfg0 c1mem c1heap [] 4 1 0 1 (.lit 8 171) "big"
    rfl rfl (by decide) (by decide) (by decide) (by decide) (by decide)
    (by
      intro k oid hm
      cases hm with
      | head => exact ⟨Page.new 0 2 1 none, rfl, rfl⟩
      | tail _ h2 => cases h2)
    (by
      intro kv hm
      cases hm with
      | head => exact Nat.zero_lt_one
      | tail _ h2 => cases h2)
    (by
      intro k oid hm pg hf
      cases hm with
      | head =>
        have hf2 : some (Page.new 0 2 1 none) = some pg := hf
        injection hf2 with hpg
        rw [← hpg]
        exact ⟨rfl, fun e hme => absurd hme (List.not_mem_nil e)⟩
      | tail _ h2 => cases h2)
    (by
      intro o ho
      have ho0 : o = 0 := by omega
      subst ho0
      decide)
    rfl rfl

theorem cow_store_isolation_witness :
    (∃ t t', (Memory.load cfg0 c1mem
        (Memory.store cfg0 (c1mem.copy c1heap ⟨[]⟩).1 (c1mem.copy c1heap ⟨[]⟩).2
          (.lit 4 0) (.lit 8 85) "big").2
        [] (.lit 4 0) 1 "big").1 = Except.ok t ∧
      (Memory.load cfg0 c1mem (c1mem.copy c1heap ⟨[]⟩).2 [] (.lit 4 0) 1 "big").1 =
        Except.ok t' ∧
      evalBV (fun _ => 0) t = evalBV (fun _ => 0) t') ∧
    (∃ u u', (Memory.load cfg0 (c1mem.copy c1heap ⟨[]⟩).1
        (Memory.store cfg0 c1mem (c1mem.copy c1heap ⟨[]⟩).2 (.lit 4 0)
          (.lit 8 85) "big").2
        [] (.lit 4 0) 1 "big").1 = Except.ok u ∧
      (Memory.load cfg0 (c1mem.copy c1heap ⟨[]⟩).1 (c1mem.copy c1heap ⟨[]⟩).2 []
        (.lit 4 0) 1 "big").1 = Except.ok u' ∧
      evalBV (fun _ => 0) u = evalBV (fun _ => 0) u') :=
  cow_store_isolation (fun _ => 0) cfg0 cfg0 c1mem c1heap ⟨[]⟩ [] 4 1 0 1 1
    (.lit 8 85) "big" "big" rfl rfl (by simp [c1mem, Nat.log2]) (by decide)
    (by decide) (by decide) (by decide) (by decide) rfl
    (by
      intro k oid hm
      cases hm with
      | head => exact ⟨Page.new 0 2 1 none, rfl, rfl⟩
      | tail _ h2 => cases h2)
    (by
      intro kv hm
      cases hm with
      | head => exact Nat.zero_lt_one
      | tail _ h2 => cases h2)
    (by
      intro k oid hm pg hf
      cases hm with
      | head =>
        have hf2 : some (Page.new 0 2 1 none) = some pg := hf
        injection hf2 with hpg
        rw [← hpg]
        exact ⟨rfl, fun e hme => absurd hme (List.not_mem_nil e)⟩
      | tail _ h2 => cases h2)
    (by
      intro o ho
      have ho0 : o = 0 := by omega
      subst ho0
      decide)

/-- Counterexample to C5 as stated: `mmap(0x1000, 0x1000)` on a fresh
4096-byte-page memory creates the single page-table key 1 (the page slot
index), and 1 is not divisible by `page_size = 4096`; the keys of the page
table are page indices, not page-aligned addresses. -/
theorem page_table_key_not_aligned_counterexample :
    ((Memory.init ⟨[]⟩ 4096 16).mmap Heap.empty 4096 4096 none).1.pages.lookup 1 =
      some 0 ∧ ¬ (4096 ∣ 1) := by
  exact ⟨by decide, by decide⟩

/-- Witness for the amended C5: one mmap step from the empty system. -/
theorem exec_ops_page_table_inv_witness :
    SysInv (([MemOp.mmapO 0 4096 4096 none]).foldl (Sys.exec cfg0)
      ⟨[Memory.init ⟨[]⟩ 4096 16], Heap.empty, []⟩) :=
  exec_ops_page_table_inv cfg0 [MemOp.mmapO 0 4096 4096 none]
    ⟨[Memory.init ⟨[]⟩ 4096 16], Heap.empty, []⟩
    ⟨fun kv hm => absurd hm (List.not_mem_nil kv),
     fun m hm => by
      have hm' : m = Memory.init ⟨[]⟩ 4096 16 := List.mem_singleton.mp hm
      rw [hm']
      intro k oid hko
      exact absurd hko (List.not_mem_nil (k, oid))⟩

end SymMem
